import Mathlib

set_option maxHeartbeats 1000000
set_option maxRecDepth 4000

/-! Shallow embedding of the BusTub buffer-pool core and proofs about it.

The embedding covers the three source files of the repository:
  - src/buffer/lru_k_replacer.cpp            (LRU-K replacement policy)
  - src/container/hash/extendible_hash_table.cpp (extendible hash table)
  - src/buffer/buffer_pool_manager_instance.cpp  (buffer pool manager)

Machine integers (`size_t`, `int`) are modelled as `Nat`/`Int`; all values
reachable in the proofs stay far below 2^64, so no wrap-around is modelled
except where the code manipulates `std::numeric_limits<size_t>::max()`
explicitly.  C++ maps/sets are modelled as association lists / duplicate-free
lists; `std::shared_ptr` identity is modelled by allocating numeric bucket
identifiers from a counter.  Reads that are undefined behaviour in C++
(`deque::front` on an empty deque, out-of-bounds indexing) are modelled by
returning `none` from the enclosing operation. -/

namespace BusTub

/-- Largest value of the 64-bit `size_t` of the target platform,
`std::numeric_limits<size_t>::max()`. -/
def SIZE_MAX : Nat := 2 ^ 64 - 1

/-! ## LRU-K replacer (src/buffer/lru_k_replacer.cpp)

State of `LRUKReplacer`: frame identifiers are naturals, `access_history_`
(an `std::unordered_map<frame_id_t, std::deque<size_t>>`) is an association
list from frame id to the chronological list of access timestamps, and
`evictable_frames_` (a set of frame ids) is a duplicate-free list. -/

structure LRUKReplacer where
  replacer_size : Nat
  k : Nat
  current_timestamp : Nat
  access_history : List (Nat × List Nat)
  evictable_frames : List Nat
  curr_size : Nat
deriving DecidableEq

/-- Lookup in the access-history association list. -/
def histLookup (h : List (Nat × List Nat)) (f : Nat) : Option (List Nat) :=
  (h.find? (fun q => q.1 == f)).map Prod.snd

/-- Write-through update of the access-history association list. -/
def histSet : List (Nat × List Nat) → Nat → List Nat → List (Nat × List Nat)
  | [], f, l => [(f, l)]
  | q :: rest, f, l => if q.1 = f then (f, l) :: rest else q :: histSet rest f l

/-- Erase a frame from the access-history association list
(`access_history_.erase(frame_id)`). -/
def histErase (h : List (Nat × List Nat)) (f : Nat) : List (Nat × List Nat) :=
  h.filter (fun q => q.1 != f)

/-- The history deque of a frame as the code reads it:
`access_history_[frame]` default-constructs an empty deque for an untracked
frame. -/
def LRUKReplacer.historyOf (r : LRUKReplacer) (f : Nat) : List Nat :=
  (histLookup r.access_history f).getD []

/-- The distance value `Evict` computes for one frame:
`current_timestamp_ - history[history.size() - k_]` when the frame has at
least `k_` recorded accesses, `std::numeric_limits<size_t>::max()` otherwise. -/
def LRUKReplacer.codeDist (r : LRUKReplacer) (f : Nat) : Nat :=
  if r.k ≤ (r.historyOf f).length then
    r.current_timestamp - (r.historyOf f).getD ((r.historyOf f).length - r.k) 0
  else SIZE_MAX

/-- `LRUKReplacer(num_frames, k)`. -/
def LRUKReplacer.new (num_frames k : Nat) : LRUKReplacer :=
  { replacer_size := num_frames, k := k, current_timestamp := 0,
    access_history := [], evictable_frames := [], curr_size := 0 }

/-- The scan loop of `LRUKReplacer::Evict` over the evictable set, carrying
the accumulator `(max_distance, victim, victim_timestamp)`.  The result
`none` signals undefined behaviour: an out-of-bounds
`history[history.size() - k_]` read (possible only for `k_ = 0`) or a
`history.front()` read on an empty deque. -/
def evictScan (r : LRUKReplacer) :
    List Nat → Nat → Option Nat → Nat → Option (Option Nat)
  | [], _, victim, _ => some victim
  | f :: rest, max_distance, victim, victim_timestamp =>
    let history := r.historyOf f
    if r.k ≤ history.length ∧ ¬ history.length - r.k < history.length then
      none
    else
      let distance := r.codeDist f
      if max_distance < distance then
        match history with
        | [] => none
        | t :: _ => evictScan r rest distance (some f) t
      else if distance = max_distance then
        match history with
        | [] => none
        | t :: _ =>
          if t < victim_timestamp then evictScan r rest distance (some f) t
          else evictScan r rest max_distance victim victim_timestamp
      else evictScan r rest max_distance victim victim_timestamp

/-- `LRUKReplacer::Evict`.  `none` is undefined behaviour inside the scan;
`some (none, r)` is `return false`; `some (some v, r')` returns frame `v`
and erases its evictability and history. -/
def LRUKReplacer.Evict (r : LRUKReplacer) : Option (Option Nat × LRUKReplacer) :=
  match evictScan r r.evictable_frames 0 none SIZE_MAX with
  | none => none
  | some none => some (none, r)
  | some (some victim) =>
    some (some victim,
      { r with evictable_frames := r.evictable_frames.erase victim,
               access_history := histErase r.access_history victim,
               curr_size := r.curr_size - 1 })

/-- `LRUKReplacer::RecordAccess`. -/
def LRUKReplacer.RecordAccess (r : LRUKReplacer) (frame_id : Nat) : LRUKReplacer :=
  if r.replacer_size ≤ frame_id then r
  else
    match histLookup r.access_history frame_id with
    | none =>
      { r with access_history := r.access_history ++ [(frame_id, [r.current_timestamp])],
               current_timestamp := r.current_timestamp + 1 }
    | some h =>
      { r with access_history := histSet r.access_history frame_id (h ++ [r.current_timestamp]),
               current_timestamp := r.current_timestamp + 1 }

/-- `LRUKReplacer::SetEvictable`. -/
def LRUKReplacer.SetEvictable (r : LRUKReplacer) (frame_id : Nat) (set_evictable : Bool) :
    LRUKReplacer :=
  if r.replacer_size ≤ frame_id then r
  else if set_evictable then
    if frame_id ∈ r.evictable_frames then r
    else { r with curr_size := r.curr_size + 1,
                  evictable_frames := r.evictable_frames ++ [frame_id] }
  else
    if frame_id ∈ r.evictable_frames then
      { r with curr_size := r.curr_size - 1,
               evictable_frames := r.evictable_frames.erase frame_id }
    else r

/-- `LRUKReplacer::Remove`: a no-op on a frame that is not evictable. -/
def LRUKReplacer.Remove (r : LRUKReplacer) (frame_id : Nat) : LRUKReplacer :=
  if frame_id ∈ r.evictable_frames then
    { r with evictable_frames := r.evictable_frames.erase frame_id,
             access_history := histErase r.access_history frame_id,
             curr_size := r.curr_size - 1 }
  else r

/-- `LRUKReplacer::Size` (returns `evictable_frames_.size()`). -/
def LRUKReplacer.Size (r : LRUKReplacer) : Nat :=
  r.evictable_frames.length

/-! ### Specification-side eviction rule -/

/-- Backward k-distance as the specification words it: `+∞` (here `none`)
for a frame with fewer than `k` recorded accesses, otherwise `now` minus the
timestamp of the k-th most recent access. -/
def LRUKReplacer.backwardKDistance (r : LRUKReplacer) (f : Nat) : Option Nat :=
  if r.k ≤ (r.historyOf f).length then
    some (r.current_timestamp - (r.historyOf f).getD ((r.historyOf f).length - r.k) 0)
  else none

/-- Strict order on backward k-distances, `none` playing the role of `+∞`. -/
def distLt : Option Nat → Option Nat → Prop
  | some a, some b => a < b
  | some _, none => True
  | none, _ => False

/-- The eviction rule of the specification: frame `f` loses to frame `v`
when `v` has the strictly larger backward k-distance, or the distances tie
and `v`'s earliest recorded access is older. -/
def LRUKReplacer.LosesTo (r : LRUKReplacer) (f v : Nat) : Prop :=
  distLt (r.backwardKDistance f) (r.backwardKDistance v) ∨
    (r.backwardKDistance f = r.backwardKDistance v ∧
      (r.historyOf v).headD 0 < (r.historyOf f).headD 0)

/-- A frame of a reachable replacer state: it has recorded history, all of
it older than the current timestamp. -/
def LRUKReplacer.Good (r : LRUKReplacer) (f : Nat) : Prop :=
  r.historyOf f ≠ [] ∧ ∀ t ∈ r.historyOf f, t < r.current_timestamp

instance (r : LRUKReplacer) (f : Nat) : Decidable (r.Good f) := by
  unfold LRUKReplacer.Good; infer_instance

/-- A concrete replacer state reached by recording accesses to frames
0, 0, 1, 2 and marking all three frames evictable (used as a witness input). -/
def exampleReplacer : LRUKReplacer :=
  ((((((((LRUKReplacer.new 3 2).RecordAccess 0).RecordAccess 0).RecordAccess 1).RecordAccess
    2).SetEvictable 0 true).SetEvictable 1 true).SetEvictable 2 true)

/-- A concrete replacer state whose single evictable frame has no recorded
access at all (used as a witness input for the out-of-bounds read). -/
def badReplacer : LRUKReplacer :=
  (LRUKReplacer.new 2 2).SetEvictable 0 true

/-! ## Extendible hash table (src/container/hash/extendible_hash_table.cpp)

The table is generic over key and value types.  `dir_` is a list of bucket
identifiers (numeric stand-ins for the `std::shared_ptr<Bucket>` values,
so that pointer equality in the source becomes identifier equality);
`store` maps each allocated identifier to its bucket, and `next_id` is the
allocation counter.  `std::hash<K>` is passed to each operation as an
explicit `hashFn`. -/

structure Bucket (K V : Type) where
  size : Nat
  depth : Nat
  list : List (K × V)
deriving DecidableEq

variable {K V : Type}

/-- Modelled from the spec: `Bucket::IsFull`, declared in the header
`extendible_hash_table.h` which is not part of the repository snapshot.
Section 4.1 of the specification says every bucket stores up to
`bucket_size` key/value pairs, so a bucket is full when its list has
reached `size_` entries. -/
def Bucket.IsFull (b : Bucket K V) : Bool := decide (b.size ≤ b.list.length)

/-- `Bucket::Find`: linear scan for the first pair with an equal key. -/
def Bucket.Find [DecidableEq K] (b : Bucket K V) (key : K) : Option V :=
  (b.list.find? (fun p => decide (p.1 = key))).map Prod.snd

/-- `Bucket::Remove`: erase every pair with an equal key, report whether at
least one was erased. -/
def Bucket.Remove [DecidableEq K] (b : Bucket K V) (key : K) : Bucket K V × Bool :=
  ({ b with list := b.list.filter (fun p => decide (¬ p.1 = key)) },
   b.list.any (fun p => decide (p.1 = key)))

/-- Overwrite the value of the first pair carrying `key` (the loop at the
top of `Bucket::Insert`). -/
def replaceFirstValue [DecidableEq K] : List (K × V) → K → V → List (K × V)
  | [], _, _ => []
  | p :: rest, key, value =>
    if p.1 = key then (p.1, value) :: rest else p :: replaceFirstValue rest key value

/-- `Bucket::Insert`: overwrite an existing key, otherwise append unless the
bucket is full; `none` is the `return false` of the source. -/
def Bucket.Insert [DecidableEq K] (b : Bucket K V) (key : K) (value : V) :
    Option (Bucket K V) :=
  if b.list.any (fun p => decide (p.1 = key)) then
    some { b with list := replaceFirstValue b.list key value }
  else if b.IsFull then none
  else some { b with list := b.list ++ [(key, value)] }

/-- The bucket-insert whose boolean result the redistribution loop of
`ExtendibleHashTable::Insert` discards. -/
def Bucket.insertIgnored [DecidableEq K] (b : Bucket K V) (key : K) (value : V) :
    Bucket K V :=
  (b.Insert key value).getD b

structure ExtendibleHashTable (K V : Type) where
  global_depth : Nat
  bucket_size : Nat
  num_buckets : Nat
  dir : List Nat
  store : List (Nat × Bucket K V)
  next_id : Nat
deriving DecidableEq

/-- Lookup of a bucket identifier in the store. -/
def lookupStore (s : List (Nat × Bucket K V)) (b : Nat) : Option (Bucket K V) :=
  (s.find? (fun q => q.1 == b)).map Prod.snd

/-- Replace the bucket held under an identifier (append if absent; with the
invariants of this development the identifier is always present when the
bucket already exists). -/
def updateStore : List (Nat × Bucket K V) → Nat → Bucket K V → List (Nat × Bucket K V)
  | [], b, bk => [(b, bk)]
  | q :: rest, b, bk => if q.1 = b then (b, bk) :: rest else q :: updateStore rest b bk

/-- Dereference a bucket identifier.  The default is never reached on the
states this development manipulates (every identifier stored in `dir_`
denotes an allocated bucket, as a `shared_ptr` in the source is never
dangling). -/
def ExtendibleHashTable.bucketOf (st : ExtendibleHashTable K V) (b : Nat) : Bucket K V :=
  (lookupStore st.store b).getD { size := st.bucket_size, depth := 0, list := [] }

def ExtendibleHashTable.updateBucket (st : ExtendibleHashTable K V) (b : Nat)
    (bk : Bucket K V) : ExtendibleHashTable K V :=
  { st with store := updateStore st.store b bk }

/-- `ExtendibleHashTable(bucket_size)`: global depth 0, one empty bucket of
depth 0, directory of length one. -/
def ExtendibleHashTable.new (K V : Type) (bucket_size : Nat) : ExtendibleHashTable K V :=
  { global_depth := 0, bucket_size := bucket_size, num_buckets := 1,
    dir := [0], store := [(0, { size := bucket_size, depth := 0, list := [] })],
    next_id := 1 }

/-- `ExtendibleHashTable::IndexOf`: `std::hash<K>()(key) & ((1 << global_depth_) - 1)`. -/
def ExtendibleHashTable.IndexOf (hashFn : K → Nat) (st : ExtendibleHashTable K V)
    (key : K) : Nat :=
  hashFn key &&& ((1 <<< st.global_depth) - 1)

def ExtendibleHashTable.GetGlobalDepth (st : ExtendibleHashTable K V) : Nat :=
  st.global_depth

def ExtendibleHashTable.GetNumBuckets (st : ExtendibleHashTable K V) : Nat :=
  st.num_buckets

/-- `ExtendibleHashTable::Find`. -/
def ExtendibleHashTable.Find [DecidableEq K] (hashFn : K → Nat)
    (st : ExtendibleHashTable K V) (key : K) : Option V :=
  let key_index := ExtendibleHashTable.IndexOf hashFn st key
  if st.dir.length ≤ key_index then none
  else (st.bucketOf (st.dir.getD key_index 0)).Find key

/-- `ExtendibleHashTable::Remove`. -/
def ExtendibleHashTable.Remove [DecidableEq K] (hashFn : K → Nat)
    (st : ExtendibleHashTable K V) (key : K) : ExtendibleHashTable K V × Bool :=
  let key_index := ExtendibleHashTable.IndexOf hashFn st key
  if st.dir.length ≤ key_index then (st, false)
  else
    let bid := st.dir.getD key_index 0
    let res := (st.bucketOf bid).Remove key
    (st.updateBucket bid res.1, res.2)

/-- The pointer-update loop of the split
(`for i in 0..dir_.size(): if dir_[i] == target_bucket && (i & mask) then dir_[i] = new_bucket`),
walking the directory in place from index `i` upwards.  The first argument
counts the remaining iterations (`dir_.size() - i`); every caller passes the
directory length, so the loop always runs to its end, exactly as in the
source. -/
def redirectFrom (targetId newId mask : Nat) : Nat → List Nat → Nat → List Nat
  | 0, dir, _ => dir
  | fuel + 1, dir, i =>
    if i < dir.length then
      redirectFrom targetId newId mask fuel
        (if dir.getD i 0 = targetId ∧ i &&& mask ≠ 0 then dir.set i newId else dir) (i + 1)
    else dir

/-- The redistribution loop at the end of a split: each pair of the old
bucket is re-inserted at its recomputed directory index, the boolean result
of the bucket insert being discarded. -/
def ExtendibleHashTable.redistribute [DecidableEq K] (hashFn : K → Nat)
    (st : ExtendibleHashTable K V) (items : List (K × V)) : ExtendibleHashTable K V :=
  items.foldl (fun s p =>
    let new_index := ExtendibleHashTable.IndexOf hashFn s p.1
    let bid := s.dir.getD new_index 0
    s.updateBucket bid ((s.bucketOf bid).insertIgnored p.1 p.2)) st

/-- One split iteration of `ExtendibleHashTable::Insert` (lines 113-147):
double the directory when the target's local depth equals the global depth,
raise the target's local depth, allocate the new bucket, redirect the
directory entries selected by `i & (1 << d)`, then clear and redistribute
the old bucket's pairs. -/
def ExtendibleHashTable.splitStep [DecidableEq K] (hashFn : K → Nat)
    (st : ExtendibleHashTable K V) (targetId : Nat) : ExtendibleHashTable K V :=
  let target := st.bucketOf targetId
  let st1 := if target.depth = st.global_depth then
      { st with global_depth := st.global_depth + 1, dir := st.dir ++ st.dir }
    else st
  let target1 : Bucket K V := { target with depth := target.depth + 1 }
  let st2 := st1.updateBucket targetId target1
  let mask := 1 <<< (target1.depth - 1)
  let newId := st2.next_id
  let st3 :=
    { st2.updateBucket newId { size := st2.bucket_size, depth := target1.depth, list := [] }
      with next_id := st2.next_id + 1, num_buckets := st2.num_buckets + 1 }
  let st4 := { st3 with dir := redirectFrom targetId newId mask st3.dir.length st3.dir 0 }
  let st5 := st4.updateBucket targetId { target1 with list := [] }
  ExtendibleHashTable.redistribute hashFn st5 target1.list

/-- `ExtendibleHashTable::Insert`.  The `while (true)` retry loop is run on
explicit fuel; `none` means the fuel did not cover the number of splits the
source loop performs (the loop itself can fail to terminate only on
pathological hash collisions, see §4.1 of the specification). -/
def ExtendibleHashTable.InsertFuel [DecidableEq K] (hashFn : K → Nat) :
    Nat → ExtendibleHashTable K V → K → V → Option (ExtendibleHashTable K V)
  | 0, _, _, _ => none
  | fuel + 1, st, key, value =>
    let key_index := ExtendibleHashTable.IndexOf hashFn st key
    let targetId := st.dir.getD key_index 0
    match (st.bucketOf targetId).Insert key value with
    | some b2 => some (st.updateBucket targetId b2)
    | none => ExtendibleHashTable.InsertFuel hashFn fuel
        (ExtendibleHashTable.splitStep hashFn st targetId) key value

/-- The identity hash on natural keys: `std::hash<int>` of libstdc++ is the
identity cast, so a key's hash bits are the key's own bits; concrete
scenarios below choose the keys by the hash bits the specification asks
for. -/
def natIdHash : Nat → Nat := fun k => k

/-- Scenario S4: a table with `bucket_size = 2` after inserting the three
keys 0, 2, 4 (three distinct keys whose lowest hash bit is 0). -/
def s4Result : Option (ExtendibleHashTable Nat Nat) :=
  (ExtendibleHashTable.InsertFuel natIdHash 5 (ExtendibleHashTable.new Nat Nat 2) 0 0).bind
    (fun st1 => (ExtendibleHashTable.InsertFuel natIdHash 5 st1 2 0).bind
      (fun st2 => ExtendibleHashTable.InsertFuel natIdHash 5 st2 4 0))

/-- The directory-length well-formedness of a table:
`dir_.size() == 1 << global_depth_`, which the constructor establishes and
every operation preserves. -/
def ExtendibleHashTable.WF (st : ExtendibleHashTable K V) : Prop :=
  st.dir.length = 2 ^ st.global_depth

instance (st : ExtendibleHashTable K V) : Decidable st.WF := by
  unfold ExtendibleHashTable.WF; infer_instance

/-- A concrete table just before the first split of scenario S4: bucket 0
holds the pairs (0, 0) and (2, 0) and is full at `bucket_size = 2`. -/
def c3Table : ExtendibleHashTable Nat Nat :=
  { global_depth := 0, bucket_size := 2, num_buckets := 1, dir := [0],
    store := [(0, ⟨2, 0, [(0, 0), (2, 0)]⟩)], next_id := 1 }

/-- Concrete tables for the insert-then-find law: an empty table with
`bucket_size = 2`, then key 3 inserted with value 10, then key 3 inserted
again with value 20. -/
def c7Table0 : ExtendibleHashTable Nat Nat := ExtendibleHashTable.new Nat Nat 2

def c7Table1 : ExtendibleHashTable Nat Nat :=
  (ExtendibleHashTable.InsertFuel natIdHash 2 c7Table0 3 10).getD c7Table0

def c7Table2 : ExtendibleHashTable Nat Nat :=
  (ExtendibleHashTable.InsertFuel natIdHash 2 c7Table1 3 20).getD c7Table1

/-- The allocated bucket identifiers that the directory references, in
increasing order. -/
def ExtendibleHashTable.liveIds (st : ExtendibleHashTable K V) : List Nat :=
  (List.range st.next_id).filter (fun b => decide (b ∈ st.dir))

/-- The entries of the table, listed bucket by bucket over the live bucket
identifiers: an entry is a `page_id → frame` mapping in the buffer-pool
instantiation. -/
def ExtendibleHashTable.allItems (st : ExtendibleHashTable K V) : List (K × V) :=
  st.liveIds.flatMap (fun b => (st.bucketOf b).list)

/-- Structural invariant of reachable table states, relative to the hash
function the operations are called with. -/
structure ExtendibleHashTable.TInv (hashFn : K → Nat) (st : ExtendibleHashTable K V) :
    Prop where
  wf : st.WF
  dir_lt : ∀ b ∈ st.dir, b < st.next_id
  dir_live : ∀ b ∈ st.dir, (lookupStore st.store b).isSome = true
  depth_le : ∀ b ∈ st.dir, (st.bucketOf b).depth ≤ st.global_depth
  sizes : ∀ b ∈ st.dir, (st.bucketOf b).list.length ≤ st.bucket_size
  caps : ∀ b ∈ st.dir, (st.bucketOf b).size = st.bucket_size
  keys_nodup : ((st.allItems).map Prod.fst).Nodup
  belongs : ∀ b ∈ st.dir, ∀ p ∈ (st.bucketOf b).list,
    st.dir.getD (ExtendibleHashTable.IndexOf hashFn st p.1) 0 = b

/-! ## Buffer pool manager (src/buffer/buffer_pool_manager_instance.cpp) -/

def INVALID_PAGE_ID : Int := -1

/-- One pool slot (class `Page`, declared in the missing header; its fields
and trivial accessors are modelled from the specification's slot data
model): the resident page id, pin count, dirty flag, and the payload
abstracted to one number (`ResetMemory` zeroes it). -/
structure Page where
  page_id : Int
  pin_count : Int
  is_dirty : Bool
  data : Nat
deriving DecidableEq

/-- A freshly constructed / reset slot. -/
def emptyPage : Page :=
  { page_id := INVALID_PAGE_ID, pin_count := 0, is_dirty := false, data := 0 }

/-- Modelled from the spec: `std::hash<int>` of the target standard library
is the cast to `size_t`, so `INVALID_PAGE_ID = -1` hashes to `2^64 - 1` and
non-negative page ids hash to themselves. -/
def stdHashInt (i : Int) : Nat := (i % (2 : Int) ^ 64).toNat

structure BufferPoolManagerInstance where
  pool_size : Nat
  pages : List Page
  page_table : ExtendibleHashTable Int Nat
  replacer : LRUKReplacer
  free_list : List Nat
  next_page_id : Int
deriving DecidableEq

/-- Disk-manager calls the pool emits, in program order.
`deallocatePage` records the advisory `DeallocatePage` call (a no-op stub
in the missing header). -/
inductive DiskOp
  | readPage (page_id : Int)
  | writePage (page_id : Int) (data : Nat)
  | deallocatePage (page_id : Int)
deriving DecidableEq

/-- The constructor: every slot starts in the free list
(`emplace_back 0, …, n-1`; the pops below take `back()`), the page table is
empty with the header's `bucket_size_`, and the replacer covers
`pool_size` frames with history depth `replacer_k`. -/
def BufferPoolManagerInstance.new (pool_size replacer_k bucket_size : Nat) :
    BufferPoolManagerInstance :=
  { pool_size := pool_size,
    pages := List.replicate pool_size emptyPage,
    page_table := ExtendibleHashTable.new Int Nat bucket_size,
    replacer := LRUKReplacer.new pool_size replacer_k,
    free_list := List.range pool_size,
    next_page_id := 0 }

/-- `pages_[f]`; the default is unreachable, every frame index the code
uses is below `pool_size`. -/
def BufferPoolManagerInstance.pageAt (st : BufferPoolManagerInstance) (f : Nat) : Page :=
  st.pages.getD f emptyPage

/-- `BufferPoolManagerInstance::NewPgImp`.  The returned `Option Int` is
the allocated page id (`none` models returning `nullptr`); the outer
`Option` is `none` only when the model's fuel for the page-table insert
runs out or the replacer scan hits undefined behaviour. -/
def BufferPoolManagerInstance.NewPgImp (fuel : Nat) (st : BufferPoolManagerInstance) :
    Option (BufferPoolManagerInstance × Option Int × List DiskOp) :=
  match st.free_list.getLast? with
  | some new_frame_id =>
    let st1 := { st with free_list := st.free_list.dropLast }
    let page := st1.pageAt new_frame_id
    let pt1 := (ExtendibleHashTable.Remove stdHashInt st1.page_table page.page_id).1
    let new_page_id := st1.next_page_id
    let rep := (st1.replacer.SetEvictable new_frame_id false).RecordAccess new_frame_id
    match ExtendibleHashTable.InsertFuel stdHashInt fuel pt1 new_page_id new_frame_id with
    | none => none
    | some pt2 =>
      some ({ st1 with
                pages := st1.pages.set new_frame_id
                  { page_id := new_page_id, pin_count := 1, is_dirty := false, data := 0 },
                page_table := pt2, replacer := rep, next_page_id := new_page_id + 1 },
            some new_page_id, [])
  | none =>
    match st.replacer.Evict with
    | none => none
    | some (none, rep) => some ({ st with replacer := rep }, none, [])
    | some (some new_frame_id, rep) =>
      let page := st.pageAt new_frame_id
      let out := if page.is_dirty then [DiskOp.writePage page.page_id page.data] else []
      let pt1 := (ExtendibleHashTable.Remove stdHashInt st.page_table page.page_id).1
      let new_page_id := st.next_page_id
      let rep2 := (rep.SetEvictable new_frame_id false).RecordAccess new_frame_id
      match ExtendibleHashTable.InsertFuel stdHashInt fuel pt1 new_page_id new_frame_id with
      | none => none
      | some pt2 =>
        some ({ st with
                  pages := st.pages.set new_frame_id
                    { page_id := new_page_id, pin_count := 1, is_dirty := false, data := 0 },
                  page_table := pt2, replacer := rep2, next_page_id := new_page_id + 1 },
              some new_page_id, out)

/-- `BufferPoolManagerInstance::FetchPgImp`.  `disk` models the contents
`ReadPage` copies into the slot; the returned `Bool` is whether a non-null
page pointer is returned. -/
def BufferPoolManagerInstance.FetchPgImp (disk : Int → Nat) (fuel : Nat)
    (st : BufferPoolManagerInstance) (page_id : Int) :
    Option (BufferPoolManagerInstance × Bool × List DiskOp) :=
  match ExtendibleHashTable.Find stdHashInt st.page_table page_id with
  | some frame_id =>
    let rep := (st.replacer.SetEvictable frame_id false).RecordAccess frame_id
    let page := st.pageAt frame_id
    some ({ st with
              replacer := rep,
              pages := st.pages.set frame_id ({ page with pin_count := page.pin_count + 1 }) },
          true, [])
  | none =>
    match st.free_list.getLast? with
    | some new_frame_id =>
      let st1 := { st with free_list := st.free_list.dropLast }
      let page := st1.pageAt new_frame_id
      let out1 := if page.is_dirty then [DiskOp.writePage page.page_id page.data] else []
      let pt1 := (ExtendibleHashTable.Remove stdHashInt st1.page_table page.page_id).1
      match ExtendibleHashTable.InsertFuel stdHashInt fuel pt1 page_id new_frame_id with
      | none => none
      | some pt2 =>
        let rep := (st1.replacer.SetEvictable new_frame_id false).RecordAccess new_frame_id
        some ({ st1 with
                  pages := st1.pages.set new_frame_id
                    { page_id := page_id, pin_count := 1, is_dirty := false,
                      data := disk page_id },
                  page_table := pt2, replacer := rep },
              true, out1 ++ [DiskOp.readPage page_id])
    | none =>
      match st.replacer.Evict with
      | none => none
      | some (none, rep) => some ({ st with replacer := rep }, false, [])
      | some (some new_frame_id, rep) =>
        let page := st.pageAt new_frame_id
        let out1 := if page.is_dirty then [DiskOp.writePage page.page_id page.data] else []
        let pt1 := (ExtendibleHashTable.Remove stdHashInt st.page_table page.page_id).1
        match ExtendibleHashTable.InsertFuel stdHashInt fuel pt1 page_id new_frame_id with
        | none => none
        | some pt2 =>
          let rep2 := (rep.SetEvictable new_frame_id false).RecordAccess new_frame_id
          some ({ st with
                    pages := st.pages.set new_frame_id
                      { page_id := page_id, pin_count := 1, is_dirty := false,
                        data := disk page_id },
                    page_table := pt2, replacer := rep2 },
                true, out1 ++ [DiskOp.readPage page_id])

/-- `BufferPoolManagerInstance::UnpinPgImp`. -/
def BufferPoolManagerInstance.UnpinPgImp (st : BufferPoolManagerInstance)
    (page_id : Int) (is_dirty : Bool) : BufferPoolManagerInstance × Bool :=
  match ExtendibleHashTable.Find stdHashInt st.page_table page_id with
  | none => (st, false)
  | some frame_id =>
    let page := st.pageAt frame_id
    if page.pin_count ≤ 0 then (st, false)
    else
      let page1 := { page with pin_count := page.pin_count - 1 }
      let rep := if page1.pin_count = 0 then st.replacer.SetEvictable frame_id true
                 else st.replacer
      let page2 := if is_dirty then { page1 with is_dirty := true } else page1
      ({ st with pages := st.pages.set frame_id page2, replacer := rep }, true)

/-- `BufferPoolManagerInstance::FlushPgImp`. -/
def BufferPoolManagerInstance.FlushPgImp (st : BufferPoolManagerInstance) (page_id : Int) :
    BufferPoolManagerInstance × Bool × List DiskOp :=
  if page_id = INVALID_PAGE_ID then (st, false, [])
  else
    match ExtendibleHashTable.Find stdHashInt st.page_table page_id with
    | none => (st, false, [])
    | some frame_id =>
      let page := st.pageAt frame_id
      ({ st with pages := st.pages.set frame_id ({ page with is_dirty := false }) },
       true, [DiskOp.writePage page_id page.data])

/-- `FlushPgImp` as called while the manager's non-recursive `latch_` may
already be held: the `std::lock_guard` at its entry deadlocks (modelled as
`none`) when the same thread already holds the mutex. -/
def BufferPoolManagerInstance.FlushPgImpL (lock_held : Bool)
    (st : BufferPoolManagerInstance) (page_id : Int) :
    Option (BufferPoolManagerInstance × Bool × List DiskOp) :=
  if lock_held then none else some (st.FlushPgImp page_id)

/-- The loop of `FlushAllPgsImp`, calling `FlushPgImp` for each slot while
the caller still holds `latch_`. -/
def FlushAllGo : List Nat → BufferPoolManagerInstance → List DiskOp →
    Option (BufferPoolManagerInstance × List DiskOp)
  | [], st, out => some (st, out)
  | i :: rest, st, out =>
    match BufferPoolManagerInstance.FlushPgImpL true st ((st.pageAt i).page_id) with
    | none => none
    | some (st2, _, o) => FlushAllGo rest st2 (out ++ o)

/-- `BufferPoolManagerInstance::FlushAllPgsImp`: acquires `latch_` and then
calls `FlushPgImp(page_id)` — which acquires the same non-recursive mutex —
for every slot. -/
def BufferPoolManagerInstance.FlushAllPgsImp (lock_held : Bool)
    (st : BufferPoolManagerInstance) : Option (BufferPoolManagerInstance × List DiskOp) :=
  if lock_held then none
  else FlushAllGo (List.range st.pool_size) st []

/-- `BufferPoolManagerInstance::DeletePgImp`. -/
def BufferPoolManagerInstance.DeletePgImp (st : BufferPoolManagerInstance)
    (page_id : Int) : BufferPoolManagerInstance × Bool × List DiskOp :=
  match ExtendibleHashTable.Find stdHashInt st.page_table page_id with
  | none => (st, true, [])
  | some frame_id =>
    let page := st.pageAt frame_id
    if 0 < page.pin_count then (st, false, [])
    else
      let pt1 := (ExtendibleHashTable.Remove stdHashInt st.page_table page_id).1
      let rep := st.replacer.Remove frame_id
      ({ st with page_table := pt1, replacer := rep,
                 free_list := st.free_list ++ [frame_id],
                 pages := st.pages.set frame_id emptyPage },
       true, [DiskOp.deallocatePage page_id])

/-- The public operations of the manager that take the `latch_` once
(`FlushAllPages` is treated separately, see claim C9: it never completes). -/
inductive Op
  | newPage
  | fetchPage (page_id : Int)
  | unpinPage (page_id : Int) (is_dirty : Bool)
  | flushPage (page_id : Int)
  | deletePage (page_id : Int)
deriving DecidableEq

/-- One public operation: the successor state and the disk calls it makes. -/
def stepOp (disk : Int → Nat) (fuel : Nat) (st : BufferPoolManagerInstance) :
    Op → Option (BufferPoolManagerInstance × List DiskOp)
  | Op.newPage => (st.NewPgImp fuel).map (fun r => (r.1, r.2.2))
  | Op.fetchPage p => (st.FetchPgImp disk fuel p).map (fun r => (r.1, r.2.2))
  | Op.unpinPage p d => some ((st.UnpinPgImp p d).1, [])
  | Op.flushPage p => some ((st.FlushPgImp p).1, (st.FlushPgImp p).2.2)
  | Op.deletePage p => some ((st.DeletePgImp p).1, (st.DeletePgImp p).2.2)

/-- A sequence of public operations with the concatenated disk trace. -/
def runOps (disk : Int → Nat) (fuel : Nat) :
    BufferPoolManagerInstance → List Op → Option (BufferPoolManagerInstance × List DiskOp)
  | st, [] => some (st, [])
  | st, o :: rest =>
    match stepOp disk fuel st o with
    | none => none
    | some (st2, out) =>
      match runOps disk fuel st2 rest with
      | none => none
      | some (st3, out2) => some (st3, out ++ out2)

/-- A concrete pool of one slot right after `NewPage` allocated page 0 into
frame 0 (pin count 1). -/
def c4State : BufferPoolManagerInstance :=
  (((BufferPoolManagerInstance.new 1 2 4).NewPgImp 2).map (fun r => r.1)).getD
    (BufferPoolManagerInstance.new 1 2 4)

/-- Reachability invariant of the buffer pool manager relative to the pool
size `n` it was constructed with: slot bookkeeping, the page-table
invariant, the free-list/table partition of the slots, and the replacer's
evictable set pointing only at resident slots. -/
structure BufferPoolManagerInstance.Inv (n : Nat) (st : BufferPoolManagerInstance) :
    Prop where
  pool_eq : st.pool_size = n
  pages_len : st.pages.length = n
  tinv : ExtendibleHashTable.TInv stdHashInt st.page_table
  count : st.free_list.length + st.page_table.allItems.length = n
  free_lt : ∀ f ∈ st.free_list, f < n
  free_nodup : st.free_list.Nodup
  free_empty : ∀ f ∈ st.free_list, st.pageAt f = emptyPage
  resident : ∀ q ∈ st.page_table.allItems,
    q.2 < n ∧ (st.pageAt q.2).page_id = q.1 ∧ q.2 ∉ st.free_list
  frames_nodup : (st.page_table.allItems.map Prod.snd).Nodup
  keys_range : ∀ q ∈ st.page_table.allItems, 0 ≤ q.1 ∧ q.1 < st.next_page_id
  next_nonneg : 0 ≤ st.next_page_id
  rsize : st.replacer.replacer_size = n
  ev_nodup : st.replacer.evictable_frames.Nodup
  ev_resident : ∀ f ∈ st.replacer.evictable_frames,
    ∃ q ∈ st.page_table.allItems, q.2 = f

/-- The operation sequence of the dirty-persistence counterexample (pool of
one slot): make page 0 dirty, delete it, fetch it back clean, and let the
final `NewPage` evict its slot. -/
def c2Ops : List Op := [Op.newPage, Op.unpinPage 0 true, Op.deletePage 0, Op.fetchPage 0,
  Op.unpinPage 0 false, Op.newPage]

/-- The two-operation prefix after which page 0 is resident and dirty. -/
def c2PrefixOps : List Op := [Op.newPage, Op.unpinPage 0 true]

/-- The pool state and trace after running `c2PrefixOps` on a fresh pool of
one slot. -/
def c2WitPair : BufferPoolManagerInstance × List DiskOp :=
  (runOps (fun _ => 0) 3 (BufferPoolManagerInstance.new 1 2 4) c2PrefixOps).getD
    (BufferPoolManagerInstance.new 1 2 4, [])

/-- One further `NewPage` step from `c2WitPair`: it evicts the dirty slot. -/
def c2WitStep : BufferPoolManagerInstance × List DiskOp :=
  (stepOp (fun _ => 0) 3 c2WitPair.1 Op.newPage).getD (c2WitPair.1, [])

/-- An operation sequence on a pool of one slot that exercises allocation,
unpinning and an eviction. -/
def c8Ops : List Op := [Op.newPage, Op.unpinPage 0 true, Op.newPage]

/-- The pool state and trace after running `c8Ops` on a fresh pool of one
slot. -/
def c8Pair : BufferPoolManagerInstance × List DiskOp :=
  (runOps (fun _ => 7) 3 (BufferPoolManagerInstance.new 1 2 4) c8Ops).getD
    (BufferPoolManagerInstance.new 1 2 4, [])


/-- Whether one operation run from `st` is within intended usage: a
`FetchPage` must ask for a page id the allocator has already handed out;
other operations are unrestricted. -/
def opLegal (st : BufferPoolManagerInstance) : Op → Bool
  | Op.fetchPage q => decide (0 ≤ q ∧ q < st.next_page_id)
  | _ => true

/-- Whether every operation of a sequence run from `st` is within intended
usage (`opLegal` at its point of execution). -/
def legalRun (disk : Int → Nat) (fuel : Nat) : BufferPoolManagerInstance → List Op → Bool
  | _, [] => true
  | st, o :: rest =>
    opLegal st o &&
    (match stepOp disk fuel st o with
     | none => true
     | some (st2, _) => legalRun disk fuel st2 rest)

/-- Fetching a page id that was never allocated, then allocating: the
free-list/page-table size balance breaks. -/
def c8BadOps : List Op := [Op.fetchPage 0, Op.newPage]


theorem getD_mem_of_lt (l : List Nat) (i : Nat) (h : i < l.length) : l.getD i 0 ∈ l := by
  rw [List.getD_eq_getElem l 0 h]; exact List.getElem_mem h

theorem LRUKReplacer.codeDist_pos (r : LRUKReplacer) (f : Nat)
    (hk : 1 ≤ r.k) (hf : r.Good f) : 0 < r.codeDist f := by
  rcases hf with ⟨hne, hts⟩
  unfold codeDist
  by_cases h : r.k ≤ (r.historyOf f).length
  · simp only [h, if_pos]
    have hlen : 0 < (r.historyOf f).length := List.length_pos.mpr hne
    have hidx : (r.historyOf f).length - r.k < (r.historyOf f).length :=
      Nat.sub_lt hlen hk
    have hmem := getD_mem_of_lt (r.historyOf f) _ hidx
    have := hts _ hmem
    omega
  · simp only [h, if_neg, not_false_iff]
    unfold SIZE_MAX
    have : (1 : Nat) < 2 ^ 64 := Nat.one_lt_two_pow_iff.mpr (by omega)
    omega

theorem LRUKReplacer.codeDist_fin (r : LRUKReplacer) (f : Nat) (d : Nat)
    (hnow : r.current_timestamp < SIZE_MAX) (hd : r.backwardKDistance f = some d) :
    r.codeDist f = d ∧ d < SIZE_MAX := by
  unfold backwardKDistance at hd
  by_cases h : r.k ≤ (r.historyOf f).length
  · simp only [h, if_pos, Option.some.injEq] at hd
    refine ⟨by unfold codeDist; rw [if_pos h]; exact hd, ?_⟩
    have hsub : r.current_timestamp - (r.historyOf f).getD ((r.historyOf f).length - r.k) 0
        ≤ r.current_timestamp := Nat.sub_le _ _
    omega
  · simp [h] at hd

theorem LRUKReplacer.codeDist_inf (r : LRUKReplacer) (f : Nat)
    (hd : r.backwardKDistance f = none) : r.codeDist f = SIZE_MAX := by
  unfold backwardKDistance at hd
  by_cases h : r.k ≤ (r.historyOf f).length
  · simp [h] at hd
  · unfold codeDist; simp [h]

theorem LRUKReplacer.codeDist_lt_iff (r : LRUKReplacer) (f g : Nat)
    (hnow : r.current_timestamp < SIZE_MAX) :
    r.codeDist f < r.codeDist g ↔
      distLt (r.backwardKDistance f) (r.backwardKDistance g) := by
  rcases hdf : r.backwardKDistance f with _ | df <;>
    rcases hdg : r.backwardKDistance g with _ | dg
  · rw [r.codeDist_inf f hdf, r.codeDist_inf g hdg]
    simp [distLt]
  · rw [r.codeDist_inf f hdf, (r.codeDist_fin g dg hnow hdg).1]
    have := (r.codeDist_fin g dg hnow hdg).2
    simp [distLt]; omega
  · rw [r.codeDist_inf g hdg, (r.codeDist_fin f df hnow hdf).1]
    have := (r.codeDist_fin f df hnow hdf).2
    simp [distLt]; omega
  · rw [(r.codeDist_fin f df hnow hdf).1, (r.codeDist_fin g dg hnow hdg).1]
    simp [distLt]

theorem LRUKReplacer.codeDist_eq_iff (r : LRUKReplacer) (f g : Nat)
    (hnow : r.current_timestamp < SIZE_MAX) :
    r.codeDist f = r.codeDist g ↔
      r.backwardKDistance f = r.backwardKDistance g := by
  rcases hdf : r.backwardKDistance f with _ | df <;>
    rcases hdg : r.backwardKDistance g with _ | dg
  · rw [r.codeDist_inf f hdf, r.codeDist_inf g hdg]; simp
  · rw [r.codeDist_inf f hdf, (r.codeDist_fin g dg hnow hdg).1]
    have := (r.codeDist_fin g dg hnow hdg).2
    constructor
    · intro h; omega
    · intro h; simp at h
  · rw [r.codeDist_inf g hdg, (r.codeDist_fin f df hnow hdf).1]
    have := (r.codeDist_fin f df hnow hdf).2
    constructor
    · intro h; omega
    · intro h; simp at h
  · rw [(r.codeDist_fin f df hnow hdf).1, (r.codeDist_fin g dg hnow hdg).1]
    simp

theorem LRUKReplacer.losesTo_trans (r : LRUKReplacer) (a b c : Nat)
    (h1 : r.LosesTo a b) (h2 : r.LosesTo b c) : r.LosesTo a c := by
  rcases h1 with h1 | ⟨h1, h1h⟩ <;> rcases h2 with h2 | ⟨h2, h2h⟩
  · left
    rcases ha : r.backwardKDistance a with _ | da <;>
      rcases hb : r.backwardKDistance b with _ | db <;>
        rcases hc : r.backwardKDistance c with _ | dc <;>
          simp_all [distLt] <;> try omega
  · left; rwa [← h2]
  · left; rwa [h1]
  · right; exact ⟨h1.trans h2, h2h.trans h1h⟩

/-- Characterisation of the scan loop of `Evict`: starting from an
accumulator holding the running victim `u`, the scan returns a frame that
every other candidate loses to under the LRU-K rule. -/
theorem evictScan_spec (r : LRUKReplacer) (hk : 1 ≤ r.k)
    (hnow : r.current_timestamp < SIZE_MAX) (l : List Nat) :
    ∀ (u : Nat), r.Good u → (∀ f ∈ l, r.Good f) →
    (u :: l).Pairwise (fun a b => (r.historyOf a).headD 0 ≠ (r.historyOf b).headD 0) →
    ∃ w, evictScan r l (r.codeDist u) (some u) ((r.historyOf u).headD 0) = some (some w) ∧
      (w = u ∨ w ∈ l) ∧ ∀ f, (f = u ∨ f ∈ l) → f ≠ w → r.LosesTo f w := by
  induction l with
  | nil =>
    intro u _ _ _
    refine ⟨u, rfl, Or.inl rfl, ?_⟩
    rintro f (rfl | hf) hne
    · exact absurd rfl hne
    · exact absurd hf (List.not_mem_nil f)
  | cons f rest ih =>
    intro u hu hgood hpw
    have hgf : r.Good f := hgood f (List.mem_cons_self f rest)
    have hrest : ∀ x ∈ rest, r.Good x := fun x hx => hgood x (List.mem_cons_of_mem f hx)
    have hpw1 := List.pairwise_cons.mp hpw
    have hpw2 := List.pairwise_cons.mp hpw1.2
    have hhead_uf : (r.historyOf u).headD 0 ≠ (r.historyOf f).headD 0 :=
      hpw1.1 f (List.mem_cons_self f rest)
    have hu_notin : u ∉ rest := fun hx => (hpw1.1 u (List.mem_cons_of_mem f hx)) rfl
    have hf_notin : f ∉ rest := fun hx => (hpw2.1 f hx) rfl
    have hlenf : 0 < (r.historyOf f).length := List.length_pos.mpr hgf.1
    have hchk : ¬(r.k ≤ (r.historyOf f).length ∧
        ¬ (r.historyOf f).length - r.k < (r.historyOf f).length) := by omega
    obtain ⟨tf, hsf, hhf⟩ : ∃ tf hsf, r.historyOf f = tf :: hsf := by
      rcases hfl : r.historyOf f with _ | ⟨tf, hsf⟩
      · exact absurd hfl hgf.1
      · exact ⟨tf, hsf, rfl⟩
    have htf : (r.historyOf f).headD 0 = tf := by rw [hhf]; rfl
    rcases Nat.lt_trichotomy (r.codeDist u) (r.codeDist f) with hcmp | hcmp | hcmp
    · -- the new frame has strictly larger distance: it becomes the victim
      have hLuf : r.LosesTo u f := Or.inl ((r.codeDist_lt_iff u f hnow).mp hcmp)
      obtain ⟨w, hw, hwmem, hwl⟩ := ih f hgf hrest hpw1.2
      refine ⟨w, ?_, ?_, ?_⟩
      · rw [htf] at hw
        simp only [evictScan, if_neg hchk, if_pos hcmp]
        rw [hhf]
        exact hw
      · rcases hwmem with rfl | hwm
        · exact Or.inr (List.mem_cons_self w rest)
        · exact Or.inr (List.mem_cons_of_mem f hwm)
      · rintro x (rfl | hx) hxw
        · rcases hwmem with rfl | hwm
          · exact hLuf
          · exact r.losesTo_trans x f w hLuf
              (hwl f (Or.inl rfl) (fun h => hf_notin (by rw [h]; exact hwm)))
        · rcases List.mem_cons.mp hx with rfl | hxr
          · exact hwl x (Or.inl rfl) hxw
          · exact hwl x (Or.inr hxr) hxw
    · -- equal distances: the tie is broken on the earliest recorded access
      have hbeq : r.backwardKDistance u = r.backwardKDistance f :=
        (r.codeDist_eq_iff u f hnow).mp hcmp
      rcases Nat.lt_or_ge tf ((r.historyOf u).headD 0) with htlt | htge
      · -- the new frame has the older earliest access: it becomes the victim
        have hLuf : r.LosesTo u f := Or.inr ⟨hbeq, htf ▸ htlt⟩
        obtain ⟨w, hw, hwmem, hwl⟩ := ih f hgf hrest hpw1.2
        refine ⟨w, ?_, ?_, ?_⟩
        · rw [htf] at hw
          rw [← hcmp] at hw
          simp only [evictScan, if_neg hchk, ← hcmp, lt_irrefl, if_neg, if_false,
            if_pos rfl]
          rw [hhf]
          simp only [if_pos htlt]
          exact hw
        · rcases hwmem with rfl | hwm
          · exact Or.inr (List.mem_cons_self w rest)
          · exact Or.inr (List.mem_cons_of_mem f hwm)
        · rintro x (rfl | hx) hxw
          · rcases hwmem with rfl | hwm
            · exact hLuf
            · exact r.losesTo_trans x f w hLuf
                (hwl f (Or.inl rfl) (fun h => hf_notin (by rw [h]; exact hwm)))
          · rcases List.mem_cons.mp hx with rfl | hxr
            · exact hwl x (Or.inl rfl) hxw
            · exact hwl x (Or.inr hxr) hxw
      · -- the running victim keeps its place
        have htne : tf ≠ (r.historyOf u).headD 0 := fun h => hhead_uf (by rw [htf, h])
        have hLfu : r.LosesTo f u := by
          refine Or.inr ⟨hbeq.symm, ?_⟩
          rw [htf]
          omega
        have hpwu : (u :: rest).Pairwise
            (fun a b => (r.historyOf a).headD 0 ≠ (r.historyOf b).headD 0) := by
          refine List.pairwise_cons.mpr ⟨?_, hpw2.2⟩
          exact fun x hx => hpw1.1 x (List.mem_cons_of_mem f hx)
        obtain ⟨w, hw, hwmem, hwl⟩ := ih u hu hrest hpwu
        refine ⟨w, ?_, ?_, ?_⟩
        · simp only [evictScan, if_neg hchk, ← hcmp, lt_irrefl, if_neg, if_false,
            if_pos rfl]
          rw [hhf]
          simp only [if_neg (not_lt.mpr htge)]
          exact hw
        · rcases hwmem with rfl | hwm
          · exact Or.inl rfl
          · exact Or.inr (List.mem_cons_of_mem f hwm)
        · rintro x (rfl | hx) hxw
          · exact hwl x (Or.inl rfl) hxw
          · rcases List.mem_cons.mp hx with rfl | hxr
            · rcases hwmem with rfl | hwm
              · exact hLfu
              · exact r.losesTo_trans x u w hLfu
                  (hwl u (Or.inl rfl) (fun h => hu_notin (by rw [h]; exact hwm)))
            · exact hwl x (Or.inr hxr) hxw
    · -- strictly smaller distance: the frame is skipped
      have hLfu : r.LosesTo f u := Or.inl ((r.codeDist_lt_iff f u hnow).mp hcmp)
      have hpwu : (u :: rest).Pairwise
          (fun a b => (r.historyOf a).headD 0 ≠ (r.historyOf b).headD 0) := by
        refine List.pairwise_cons.mpr ⟨?_, hpw2.2⟩
        exact fun x hx => hpw1.1 x (List.mem_cons_of_mem f hx)
      obtain ⟨w, hw, hwmem, hwl⟩ := ih u hu hrest hpwu
      refine ⟨w, ?_, ?_, ?_⟩
      · simp only [evictScan, if_neg hchk, if_neg (not_lt.mpr (le_of_lt hcmp)),
          if_neg (Nat.ne_of_lt hcmp)]
        exact hw
      · rcases hwmem with rfl | hwm
        · exact Or.inl rfl
        · exact Or.inr (List.mem_cons_of_mem f hwm)
      · rintro x (rfl | hx) hxw
        · exact hwl x (Or.inl rfl) hxw
        · rcases List.mem_cons.mp hx with rfl | hxr
          · rcases hwmem with rfl | hwm
            · exact hLfu
            · exact r.losesTo_trans x u w hLfu
                (hwl u (Or.inl rfl) (fun h => hu_notin (by rw [h]; exact hwm)))
          · exact hwl x (Or.inr hxr) hxw

/-- C1: For every replacer state (in which every evictable frame has a
recorded history of timestamps older than the current timestamp, with
pairwise-distinct earliest accesses, and `k ≥ 1`), `Evict` selects among
the evictable slots the one with the largest backward k-distance (`+∞` for
slots with fewer than `k` recorded accesses, otherwise now minus the
timestamp of the k-th most recent access), breaking ties in favour of the
slot whose earliest recorded access is oldest; it erases the victim's
evictability and history, and it returns ok=false if and only if the
evictable set is empty. -/
theorem c1_evict_selects_largest_backward_k_distance (r : LRUKReplacer)
    (hk : 1 ≤ r.k) (hnow : r.current_timestamp < SIZE_MAX)
    (hgood : ∀ f ∈ r.evictable_frames, r.Good f)
    (hpw : r.evictable_frames.Pairwise
      (fun a b => (r.historyOf a).headD 0 ≠ (r.historyOf b).headD 0)) :
    (r.evictable_frames = [] → r.Evict = some (none, r)) ∧
    (r.evictable_frames ≠ [] →
      ∃ v r2, r.Evict = some (some v, r2) ∧ v ∈ r.evictable_frames ∧
        (∀ f ∈ r.evictable_frames, f ≠ v → r.LosesTo f v) ∧
        r2.evictable_frames = r.evictable_frames.erase v ∧
        r2.access_history = histErase r.access_history v ∧
        r2.replacer_size = r.replacer_size ∧ r2.k = r.k ∧
        r2.current_timestamp = r.current_timestamp) := by
  constructor
  · intro h
    unfold LRUKReplacer.Evict
    rw [h]
    rfl
  · intro hne
    obtain ⟨f1, tail, hev⟩ := List.exists_cons_of_ne_nil hne
    have hgf1 : r.Good f1 := hgood f1 (by rw [hev]; exact List.mem_cons_self f1 tail)
    obtain ⟨t1, hs1, hh1⟩ : ∃ a l, r.historyOf f1 = a :: l := by
      rcases hfl : r.historyOf f1 with _ | ⟨a, l⟩
      · exact absurd hfl hgf1.1
      · exact ⟨a, l, rfl⟩
    have hlen1 : 0 < (r.historyOf f1).length := List.length_pos.mpr hgf1.1
    have hchk1 : ¬(r.k ≤ (r.historyOf f1).length ∧
        ¬ (r.historyOf f1).length - r.k < (r.historyOf f1).length) := by omega
    have hpos : 0 < r.codeDist f1 := r.codeDist_pos f1 hk hgf1
    have ht1 : (r.historyOf f1).headD 0 = t1 := by rw [hh1]; rfl
    obtain ⟨w, hw, hwmem, hwl⟩ := evictScan_spec r hk hnow tail f1 hgf1
      (fun x hx => hgood x (by rw [hev]; exact List.mem_cons_of_mem f1 hx))
      (hev ▸ hpw)
    have hscan : evictScan r r.evictable_frames 0 none SIZE_MAX = some (some w) := by
      rw [hev]
      simp only [evictScan, if_neg hchk1, if_pos hpos]
      rw [hh1]
      rw [ht1] at hw
      exact hw
    refine ⟨w, { r with evictable_frames := r.evictable_frames.erase w,
                        access_history := histErase r.access_history w,
                        curr_size := r.curr_size - 1 },
      ?_, ?_, ?_, rfl, rfl, rfl, rfl, rfl⟩
    · unfold LRUKReplacer.Evict
      rw [hscan]
    · rw [hev]
      rcases hwmem with rfl | hwm
      · exact List.mem_cons_self w tail
      · exact List.mem_cons_of_mem f1 hwm
    · intro x hx hxw
      refine hwl x ?_ hxw
      rw [hev] at hx
      rcases List.mem_cons.mp hx with rfl | hxr
      · exact Or.inl rfl
      · exact Or.inr hxr

/-- Witness for C1 at a concrete replacer state with three evictable
frames (victim frame 1: the two frames with infinite distance tie, and
frame 1 has the older earliest access). -/
theorem c1_witness :
    ∃ v r2, exampleReplacer.Evict = some (some v, r2) ∧
      v ∈ exampleReplacer.evictable_frames ∧
      (∀ f ∈ exampleReplacer.evictable_frames, f ≠ v → exampleReplacer.LosesTo f v) ∧
      r2.evictable_frames = exampleReplacer.evictable_frames.erase v ∧
      r2.access_history = histErase exampleReplacer.access_history v ∧
      r2.replacer_size = exampleReplacer.replacer_size ∧ r2.k = exampleReplacer.k ∧
      r2.current_timestamp = exampleReplacer.current_timestamp :=
  (c1_evict_selects_largest_backward_k_distance exampleReplacer
    (by decide) (by decide)
    (by decide)
    (by decide)).2 (by decide)

/-- C10: `Evict` reads the front element of each candidate's access-history
deque without checking that it is non-empty.  First conjunct: whenever every
evictable frame has at least one recorded access (and `k ≥ 1`), every read
`Evict` performs is in bounds, so it completes.  Second conjunct: after
`SetEvictable(0, true)` on a fresh replacer with no recorded access, the
front read is out of bounds (modelled as `none`). -/
theorem c10_evict_front_read_bounds :
    (∀ r : LRUKReplacer, 1 ≤ r.k → (∀ f ∈ r.evictable_frames, r.historyOf f ≠ []) →
      (r.Evict).isSome = true) ∧
    badReplacer.Evict = none := by
  constructor
  · intro r hk hne
    have hgen : ∀ l : List Nat, (∀ f ∈ l, r.historyOf f ≠ []) →
        ∀ (maxD : Nat) (v : Option Nat) (vts : Nat),
        (evictScan r l maxD v vts).isSome = true := by
      intro l
      induction l with
      | nil => intro _ maxD v vts; rfl
      | cons f rest ih =>
        intro hl maxD v vts
        have hf : r.historyOf f ≠ [] := hl f (List.mem_cons_self f rest)
        have hlen : 0 < (r.historyOf f).length := List.length_pos.mpr hf
        have hchk : ¬(r.k ≤ (r.historyOf f).length ∧
            ¬ (r.historyOf f).length - r.k < (r.historyOf f).length) := by omega
        obtain ⟨a, l2, hh⟩ : ∃ a l2, r.historyOf f = a :: l2 := by
          rcases hfl : r.historyOf f with _ | ⟨a, l2⟩
          · exact absurd hfl hf
          · exact ⟨a, l2, rfl⟩
        have hrest : ∀ x ∈ rest, r.historyOf x ≠ [] :=
          fun x hx => hl x (List.mem_cons_of_mem f hx)
        simp only [evictScan, if_neg hchk]
        rw [hh]
        by_cases h1 : maxD < r.codeDist f
        · simp only [if_pos h1]
          exact ih hrest _ _ _
        · simp only [if_neg h1]
          by_cases h2 : r.codeDist f = maxD
          · simp only [if_pos h2]
            by_cases h3 : a < vts
            · simp only [if_pos h3]; exact ih hrest _ _ _
            · simp only [if_neg h3]; exact ih hrest _ _ _
          · simp only [if_neg h2]
            exact ih hrest _ _ _
    have := hgen r.evictable_frames hne 0 none SIZE_MAX
    unfold LRUKReplacer.Evict
    rcases hs : evictScan r r.evictable_frames 0 none SIZE_MAX with _ | ⟨_ | v⟩
    · rw [hs] at this; exact absurd this (by decide)
    · rfl
    · rfl
  · decide

/-- Witness for C10's universally quantified conjunct at a concrete
replacer state. -/
theorem c10_witness :
    ((((LRUKReplacer.new 2 2).RecordAccess 0).SetEvictable 0 true).Evict).isSome = true :=
  c10_evict_front_read_bounds.1
    (((LRUKReplacer.new 2 2).RecordAccess 0).SetEvictable 0 true)
    (by decide) (by decide)

/-! ### Extendible hash table: basic lemmas -/

theorem lookupStore_updateStore (s : List (Nat × Bucket K V)) (b : Nat) (bk : Bucket K V)
    (c : Nat) :
    lookupStore (updateStore s b bk) c = if c = b then some bk else lookupStore s c := by
  induction s with
  | nil =>
    by_cases h : c = b
    · simp [updateStore, lookupStore, List.find?, h]
    · have hbc : (b == c) = false := by simp; exact fun hh => h hh.symm
      simp [updateStore, lookupStore, List.find?, h, hbc]
  | cons q rest ih =>
    by_cases hqb : q.1 = b
    · by_cases hcb : c = b
      · subst hcb
        simp [updateStore, hqb, lookupStore, List.find?]
      · have hbc : (b == c) = false := by simp; exact fun h => hcb h.symm
        have hqc : (q.1 == c) = false := by rw [hqb]; exact hbc
        simp [updateStore, hqb, lookupStore, List.find?, hbc, hqc, hcb]
    · by_cases hqc : q.1 = c
      · have hcb : ¬ c = b := by rw [← hqc]; exact hqb
        simp [updateStore, hqb, lookupStore, List.find?, hqc, hcb]
      · have hqc2 : (q.1 == c) = false := by simp [hqc]
        simp only [updateStore, if_neg hqb, lookupStore, List.find?, hqc2]
        simp only [lookupStore] at ih
        exact ih

theorem ExtendibleHashTable.bucketOf_updateBucket (st : ExtendibleHashTable K V)
    (b : Nat) (bk : Bucket K V) (c : Nat) :
    (st.updateBucket b bk).bucketOf c = if c = b then bk else st.bucketOf c := by
  unfold ExtendibleHashTable.bucketOf ExtendibleHashTable.updateBucket
  simp only [lookupStore_updateStore]
  by_cases h : c = b <;> simp [h]

theorem ExtendibleHashTable.IndexOf_eq_mod (hashFn : K → Nat)
    (st : ExtendibleHashTable K V) (key : K) :
    ExtendibleHashTable.IndexOf hashFn st key = hashFn key % 2 ^ st.global_depth := by
  unfold ExtendibleHashTable.IndexOf
  rw [Nat.shiftLeft_eq, one_mul, Nat.and_pow_two_sub_one_eq_mod]

theorem ExtendibleHashTable.IndexOf_lt (hashFn : K → Nat)
    (st : ExtendibleHashTable K V) (key : K) (hwf : st.WF) :
    ExtendibleHashTable.IndexOf hashFn st key < st.dir.length := by
  rw [ExtendibleHashTable.IndexOf_eq_mod, hwf]
  exact Nat.mod_lt _ (Nat.pos_pow_of_pos _ (by omega))

theorem redirectFrom_length (t n m : Nat) (fuel : Nat) :
    ∀ (dir : List Nat) (i : Nat), (redirectFrom t n m fuel dir i).length = dir.length := by
  induction fuel with
  | zero => intro dir i; rfl
  | succ fuel ih =>
    intro dir i
    rw [redirectFrom]
    by_cases h : i < dir.length
    · rw [if_pos h]
      by_cases h2 : dir.getD i 0 = t ∧ i &&& m ≠ 0
      · rw [if_pos h2, ih (dir.set i n) (i + 1), List.length_set]
      · rw [if_neg h2, ih dir (i + 1)]
    · rw [if_neg h]

theorem ExtendibleHashTable.redistribute_fields [DecidableEq K] (hashFn : K → Nat)
    (items : List (K × V)) :
    ∀ st : ExtendibleHashTable K V,
    (ExtendibleHashTable.redistribute hashFn st items).dir = st.dir ∧
    (ExtendibleHashTable.redistribute hashFn st items).global_depth = st.global_depth ∧
    (ExtendibleHashTable.redistribute hashFn st items).bucket_size = st.bucket_size ∧
    (ExtendibleHashTable.redistribute hashFn st items).next_id = st.next_id ∧
    (ExtendibleHashTable.redistribute hashFn st items).num_buckets = st.num_buckets := by
  induction items with
  | nil => intro st; exact ⟨rfl, rfl, rfl, rfl, rfl⟩
  | cons p rest ih =>
    intro st
    have hstep : ExtendibleHashTable.redistribute hashFn st (p :: rest) =
        ExtendibleHashTable.redistribute hashFn
          (st.updateBucket (st.dir.getD (ExtendibleHashTable.IndexOf hashFn st p.1) 0)
            ((st.bucketOf (st.dir.getD (ExtendibleHashTable.IndexOf hashFn st p.1) 0)).insertIgnored
              p.1 p.2)) rest := rfl
    rw [hstep]
    exact ih _

theorem ExtendibleHashTable.redistribute_dir_eq [DecidableEq K] (hashFn : K → Nat)
    (st : ExtendibleHashTable K V) (items : List (K × V)) :
    (ExtendibleHashTable.redistribute hashFn st items).dir = st.dir :=
  (ExtendibleHashTable.redistribute_fields hashFn items st).1

theorem ExtendibleHashTable.redistribute_gd_eq [DecidableEq K] (hashFn : K → Nat)
    (st : ExtendibleHashTable K V) (items : List (K × V)) :
    (ExtendibleHashTable.redistribute hashFn st items).global_depth = st.global_depth :=
  (ExtendibleHashTable.redistribute_fields hashFn items st).2.1

theorem ExtendibleHashTable.redistribute_bs_eq [DecidableEq K] (hashFn : K → Nat)
    (st : ExtendibleHashTable K V) (items : List (K × V)) :
    (ExtendibleHashTable.redistribute hashFn st items).bucket_size = st.bucket_size :=
  (ExtendibleHashTable.redistribute_fields hashFn items st).2.2.1

theorem ExtendibleHashTable.redistribute_nid_eq [DecidableEq K] (hashFn : K → Nat)
    (st : ExtendibleHashTable K V) (items : List (K × V)) :
    (ExtendibleHashTable.redistribute hashFn st items).next_id = st.next_id :=
  (ExtendibleHashTable.redistribute_fields hashFn items st).2.2.2.1

theorem ExtendibleHashTable.redistribute_nb_eq [DecidableEq K] (hashFn : K → Nat)
    (st : ExtendibleHashTable K V) (items : List (K × V)) :
    (ExtendibleHashTable.redistribute hashFn st items).num_buckets = st.num_buckets :=
  (ExtendibleHashTable.redistribute_fields hashFn items st).2.2.2.2

theorem ExtendibleHashTable.splitStep_fields [DecidableEq K] (hashFn : K → Nat)
    (st : ExtendibleHashTable K V) (targetId : Nat) :
    ((st.splitStep hashFn targetId).global_depth =
        (if (st.bucketOf targetId).depth = st.global_depth then st.global_depth + 1
         else st.global_depth)) ∧
    ((st.splitStep hashFn targetId).dir.length =
        (if (st.bucketOf targetId).depth = st.global_depth then 2 * st.dir.length
         else st.dir.length)) ∧
    (st.splitStep hashFn targetId).bucket_size = st.bucket_size ∧
    (st.splitStep hashFn targetId).next_id = st.next_id + 1 ∧
    (st.splitStep hashFn targetId).num_buckets = st.num_buckets + 1 := by
  unfold ExtendibleHashTable.splitStep
  by_cases hd : (st.bucketOf targetId).depth = st.global_depth <;>
    refine ⟨?_, ?_, ?_, ?_, ?_⟩ <;>
      simp [hd, ExtendibleHashTable.redistribute_dir_eq, ExtendibleHashTable.redistribute_gd_eq,
        ExtendibleHashTable.redistribute_bs_eq, ExtendibleHashTable.redistribute_nid_eq,
        ExtendibleHashTable.redistribute_nb_eq, ExtendibleHashTable.updateBucket,
        redirectFrom_length] <;>
      try omega

theorem ExtendibleHashTable.splitStep_WF [DecidableEq K] (hashFn : K → Nat)
    (st : ExtendibleHashTable K V) (targetId : Nat) (hwf : st.WF) :
    (st.splitStep hashFn targetId).WF := by
  obtain ⟨h1, h2, _, _, _⟩ := ExtendibleHashTable.splitStep_fields hashFn st targetId
  unfold ExtendibleHashTable.WF at hwf ⊢
  by_cases hd : (st.bucketOf targetId).depth = st.global_depth
  · rw [h1, h2, if_pos hd, if_pos hd, hwf, pow_succ]
    ring
  · rw [h1, h2, if_neg hd, if_neg hd, hwf]

theorem find_replaceFirstValue [DecidableEq K] (l : List (K × V)) (key : K) (value : V)
    (h : l.any (fun p => decide (p.1 = key)) = true) :
    ((replaceFirstValue l key value).find? (fun p => decide (p.1 = key))).map Prod.snd =
      some value := by
  induction l with
  | nil => simp at h
  | cons p rest ih =>
    by_cases hp : p.1 = key
    · simp [replaceFirstValue, hp, List.find?]
    · have hrest : rest.any (fun p => decide (p.1 = key)) = true := by
        simp [List.any_cons, hp] at h
        simp [List.any_eq_true]
        exact h
      simp only [replaceFirstValue, if_neg hp, List.find?]
      rw [decide_eq_false hp]
      exact ih hrest

theorem find_append_single [DecidableEq K] (l : List (K × V)) (key : K) (value : V)
    (h : l.any (fun p => decide (p.1 = key)) = false) :
    (((l ++ [(key, value)]).find? (fun p => decide (p.1 = key))).map Prod.snd) =
      some value := by
  induction l with
  | nil => simp [List.find?]
  | cons p rest ih =>
    have hp : ¬ p.1 = key := by
      intro hp
      simp [List.any_cons, hp] at h
    have hrest : rest.any (fun p => decide (p.1 = key)) = false := by
      simp [List.any_cons, hp] at h
      simp [List.any_eq_true]
      exact h
    simp only [List.cons_append, List.find?]
    rw [decide_eq_false hp]
    exact ih hrest

theorem Bucket.Find_of_Insert [DecidableEq K] (b b2 : Bucket K V) (key : K) (value : V)
    (h : b.Insert key value = some b2) : b2.Find key = some value := by
  unfold Bucket.Insert at h
  by_cases hany : b.list.any (fun p => decide (p.1 = key)) = true
  · rw [if_pos hany] at h
    obtain rfl := Option.some.inj h
    exact find_replaceFirstValue b.list key value hany
  · rw [if_neg hany] at h
    by_cases hfull : b.IsFull = true
    · rw [if_pos hfull] at h
      exact absurd h (by simp)
    · rw [if_neg hfull] at h
      obtain rfl := Option.some.inj h
      exact find_append_single b.list key value (Bool.eq_false_iff.mpr hany)

theorem ExtendibleHashTable.InsertFuel_WF_find [DecidableEq K] (hashFn : K → Nat) :
    ∀ (fuel : Nat) (st st2 : ExtendibleHashTable K V) (key : K) (value : V),
    st.WF → ExtendibleHashTable.InsertFuel hashFn fuel st key value = some st2 →
    st2.WF ∧ ExtendibleHashTable.Find hashFn st2 key = some value := by
  intro fuel
  induction fuel with
  | zero => intro st st2 key value _ h; exact absurd h (by simp [ExtendibleHashTable.InsertFuel])
  | succ fuel ih =>
    intro st st2 key value hwf h
    rw [ExtendibleHashTable.InsertFuel] at h
    rcases hins : (st.bucketOf (st.dir.getD (ExtendibleHashTable.IndexOf hashFn st key) 0)).Insert
        key value with _ | b2
    · rw [hins] at h
      exact ih _ st2 key value (ExtendibleHashTable.splitStep_WF hashFn st _ hwf) h
    · rw [hins] at h
      obtain rfl := Option.some.inj h
      constructor
      · exact hwf
      · unfold ExtendibleHashTable.Find
        have hidx : ExtendibleHashTable.IndexOf hashFn (st.updateBucket
            (st.dir.getD (ExtendibleHashTable.IndexOf hashFn st key) 0) b2) key =
            ExtendibleHashTable.IndexOf hashFn st key := rfl
        rw [hidx]
        have hlt : ExtendibleHashTable.IndexOf hashFn st key < st.dir.length :=
          ExtendibleHashTable.IndexOf_lt hashFn st key hwf
        have hdir : (st.updateBucket
            (st.dir.getD (ExtendibleHashTable.IndexOf hashFn st key) 0) b2).dir = st.dir := rfl
        rw [hdir, if_neg (by omega)]
        rw [ExtendibleHashTable.bucketOf_updateBucket, if_pos rfl]
        exact Bucket.Find_of_Insert _ _ key value hins

/-- C6 (counterexample): starting from an empty extendible hash table with
`bucket_size = 2`, after inserting the three distinct keys 0, 2, 4 — whose
low hash bits are 0, 0, 0 under the identity hash — the global depth is 2
as the claim states, but `GetNumBuckets` returns 3, not 2: the two splits
performed during the third insert each allocate a bucket, leaving buckets
for the index classes 00, 10 and 1. -/
theorem c6_counterexample :
    s4Result.map ExtendibleHashTable.GetNumBuckets = some 3 ∧
    s4Result.map ExtendibleHashTable.GetNumBuckets ≠ some 2 :=
  ⟨by decide, by decide⟩

/-- C6 (amended): starting from an empty extendible hash table with
`bucket_size = 2`, after inserting the three distinct keys 0, 2, 4 (low
hash bits 0, 0, 0), the global depth equals 2 and the number of buckets
equals 3. -/
theorem c6_directory_doubling_scenario :
    s4Result.map ExtendibleHashTable.GetGlobalDepth = some 2 ∧
    s4Result.map ExtendibleHashTable.GetNumBuckets = some 3 :=
  ⟨by decide, by decide⟩

/-- C7: for every key `k` and values `v`, `v2`, over any key/value types
and hash function, from any directory-well-formed table: immediately after
`Insert(k, v)` (whenever the insert's split loop terminates, expressed by
the fuel returning a state), `Find(k)` returns `(v, true)`; and after a
subsequent `Insert(k, v2)`, `Find(k)` returns `(v2, true)` — insertion of
an existing key overwrites the associated value. -/
theorem c7_insert_then_find_overwrite {K V : Type} [DecidableEq K] (hashFn : K → Nat)
    (st st1 st2 : ExtendibleHashTable K V) (key : K) (v v2 : V) (f1 f2 : Nat)
    (hwf : st.WF)
    (h1 : ExtendibleHashTable.InsertFuel hashFn f1 st key v = some st1)
    (h2 : ExtendibleHashTable.InsertFuel hashFn f2 st1 key v2 = some st2) :
    ExtendibleHashTable.Find hashFn st1 key = some v ∧
    ExtendibleHashTable.Find hashFn st2 key = some v2 := by
  obtain ⟨hwf1, hf1⟩ := ExtendibleHashTable.InsertFuel_WF_find hashFn f1 st st1 key v hwf h1
  obtain ⟨_, hf2⟩ := ExtendibleHashTable.InsertFuel_WF_find hashFn f2 st1 st2 key v2 hwf1 h2
  exact ⟨hf1, hf2⟩

/-- Witness for C7 on a concrete table: insert (3, 10) then (3, 20). -/
theorem c7_witness :
    ExtendibleHashTable.Find natIdHash c7Table1 3 = some 10 ∧
    ExtendibleHashTable.Find natIdHash c7Table2 3 = some 20 :=
  c7_insert_then_find_overwrite natIdHash c7Table0 c7Table1 c7Table2 3 10 20 2 2
    (by decide) (by decide) (by decide)

/-! ### The split step (claim C3) -/

theorem redirectFrom_getD (t n m : Nat) (fuel : Nat) :
    ∀ (dir : List Nat) (i j : Nat), dir.length ≤ i + fuel →
    (redirectFrom t n m fuel dir i).getD j 0 =
      if i ≤ j ∧ j < dir.length ∧ dir.getD j 0 = t ∧ j &&& m ≠ 0 then n
      else dir.getD j 0 := by
  induction fuel with
  | zero =>
    intro dir i j hlen
    rw [redirectFrom]
    have hcon : ¬(i ≤ j ∧ j < dir.length ∧ dir.getD j 0 = t ∧ j &&& m ≠ 0) := by
      rintro ⟨h1, h2, _, _⟩; omega
    rw [if_neg hcon]
  | succ fuel ih =>
    intro dir i j hlen
    rw [redirectFrom]
    by_cases hi : i < dir.length
    · rw [if_pos hi]
      by_cases hc : dir.getD i 0 = t ∧ i &&& m ≠ 0
      · rw [if_pos hc]
        rw [ih (dir.set i n) (i + 1) j (by rw [List.length_set]; omega)]
        by_cases hj : j = i
        · subst hj
          rw [if_neg (by rintro ⟨h1, _⟩; omega)]
          rw [if_pos ⟨le_refl j, hi, hc.1, hc.2⟩]
          simp [List.getD_eq_getElem?_getD, List.getElem?_set_self, hi]
        · have hset : (dir.set i n).getD j 0 = dir.getD j 0 := by
            simp [List.getD_eq_getElem?_getD, List.getElem?_set_ne (Ne.symm hj)]
          simp only [List.length_set, hset]
          have hiff : (i + 1 ≤ j ∧ j < dir.length ∧ dir.getD j 0 = t ∧ j &&& m ≠ 0) ↔
              (i ≤ j ∧ j < dir.length ∧ dir.getD j 0 = t ∧ j &&& m ≠ 0) := by
            constructor
            · rintro ⟨h1, hrest⟩; exact ⟨by omega, hrest⟩
            · rintro ⟨h1, hrest⟩
              refine ⟨?_, hrest⟩
              rcases Nat.lt_or_ge i j with h2 | h2
              · omega
              · exact absurd (by omega : j = i) hj
          rw [if_congr hiff rfl rfl]
      · rw [if_neg hc]
        rw [ih dir (i + 1) j (by omega)]
        by_cases hj : j = i
        · subst hj
          rw [if_neg (by rintro ⟨h1, _⟩; omega),
            if_neg (by rintro ⟨_, _, h3, h4⟩; exact hc ⟨h3, h4⟩)]
        · have hiff : (i + 1 ≤ j ∧ j < dir.length ∧ dir.getD j 0 = t ∧ j &&& m ≠ 0) ↔
              (i ≤ j ∧ j < dir.length ∧ dir.getD j 0 = t ∧ j &&& m ≠ 0) := by
            constructor
            · rintro ⟨h1, hrest⟩; exact ⟨by omega, hrest⟩
            · rintro ⟨h1, hrest⟩
              refine ⟨?_, hrest⟩
              rcases Nat.lt_or_ge i j with h2 | h2
              · omega
              · exact absurd (by omega : j = i) hj
          rw [if_congr hiff rfl rfl]
    · rw [if_neg hi]
      have hcon : ¬(i ≤ j ∧ j < dir.length ∧ dir.getD j 0 = t ∧ j &&& m ≠ 0) := by
        rintro ⟨h1, h2, _, _⟩; omega
      rw [if_neg hcon]

theorem and_shiftLeft_mod (h e d : Nat) (hde : d < e) :
    (h % 2 ^ e) &&& (1 <<< d) = h &&& (1 <<< d) := by
  rw [Nat.shiftLeft_eq, one_mul, Nat.and_two_pow, Nat.and_two_pow,
    Nat.testBit_mod_two_pow]
  simp [hde]

theorem getD_append_self (l : List Nat) (j : Nat) (hl : 0 < l.length)
    (hj2 : j < 2 * l.length) :
    (l ++ l).getD j 0 = l.getD (j % l.length) 0 := by
  by_cases hj : j < l.length
  · rw [Nat.mod_eq_of_lt hj]
    simp [List.getD_eq_getElem?_getD, List.getElem?_append, hj]
  · have hmod : j % l.length = j - l.length := by
      rw [Nat.mod_eq_sub_mod (by omega), Nat.mod_eq_of_lt (by omega)]
    rw [hmod]
    simp [List.getD_eq_getElem?_getD, List.getElem?_append, hj]

theorem any_key_eq_false {K V : Type} [DecidableEq K] (l : List (K × V)) (k : K)
    (h : ∀ q ∈ l, ¬ q.1 = k) : (l.any fun q => decide (q.1 = k)) = false := by
  rw [Bool.eq_false_iff]
  intro hany
  rw [List.any_eq_true] at hany
  obtain ⟨q, hq, hq2⟩ := hany
  exact h q hq (by simpa using hq2)

/-- Closed form of the redistribution loop: starting from two empty (or
partially refilled) destination buckets under `tId` and `nId`, the loop
partitions the pairs by the d-th bit of their hash, appending in order. -/
theorem ExtendibleHashTable.redistribute_closed [DecidableEq K] (hashFn : K → Nat)
    (d bs tId nId : Nat) (hne : tId ≠ nId) :
    ∀ (items : List (K × V)) (st5 : ExtendibleHashTable K V) (la lb : List (K × V)),
    (∀ p ∈ items, st5.dir.getD (ExtendibleHashTable.IndexOf hashFn st5 p.1) 0 =
        (if (hashFn p.1) &&& (1 <<< d) = 0 then tId else nId)) →
    lookupStore st5.store tId = some ⟨bs, d + 1, la⟩ →
    lookupStore st5.store nId = some ⟨bs, d + 1, lb⟩ →
    la.length + items.length ≤ bs →
    lb.length + items.length ≤ bs →
    (∀ p ∈ items, ∀ q ∈ la, ¬ q.1 = p.1) →
    (∀ p ∈ items, ∀ q ∈ lb, ¬ q.1 = p.1) →
    (items.map Prod.fst).Nodup →
    lookupStore (ExtendibleHashTable.redistribute hashFn st5 items).store tId =
      some ⟨bs, d + 1, la ++ items.filter (fun p => decide ((hashFn p.1) &&& (1 <<< d) = 0))⟩ ∧
    lookupStore (ExtendibleHashTable.redistribute hashFn st5 items).store nId =
      some ⟨bs, d + 1, lb ++ items.filter (fun p => decide (¬ (hashFn p.1) &&& (1 <<< d) = 0))⟩ ∧
    ∀ c, c ≠ tId → c ≠ nId →
      lookupStore (ExtendibleHashTable.redistribute hashFn st5 items).store c =
        lookupStore st5.store c := by
  intro items
  induction items with
  | nil =>
    intro st5 la lb _ hlT hlN _ _ _ _ _
    refine ⟨?_, ?_, fun c _ _ => rfl⟩
    · simpa using hlT
    · simpa using hlN
  | cons p rest ih =>
    intro st5 la lb hdest hlT hlN hcapT hcapN hfreshT hfreshN hnodup
    have hpdest := hdest p (List.mem_cons_self p rest)
    have hnodup2 := hnodup
    rw [List.map_cons, List.nodup_cons] at hnodup2
    have hstep : ExtendibleHashTable.redistribute hashFn st5 (p :: rest) =
        ExtendibleHashTable.redistribute hashFn
          (st5.updateBucket (st5.dir.getD (ExtendibleHashTable.IndexOf hashFn st5 p.1) 0)
            ((st5.bucketOf (st5.dir.getD (ExtendibleHashTable.IndexOf hashFn st5 p.1) 0)).insertIgnored
              p.1 p.2)) rest := rfl
    by_cases hbit : (hashFn p.1) &&& (1 <<< d) = 0
    · rw [if_pos hbit] at hpdest
      have hbOf : st5.bucketOf (st5.dir.getD (ExtendibleHashTable.IndexOf hashFn st5 p.1) 0)
          = ⟨bs, d + 1, la⟩ := by
        rw [hpdest]; unfold ExtendibleHashTable.bucketOf; rw [hlT]; rfl
      have hins : (Bucket.insertIgnored (⟨bs, d + 1, la⟩ : Bucket K V) p.1 p.2)
          = ⟨bs, d + 1, la ++ [p]⟩ := by
        unfold Bucket.insertIgnored Bucket.Insert
        rw [any_key_eq_false la p.1 (hfreshT p (List.mem_cons_self p rest))]
        have hfull : (Bucket.IsFull (⟨bs, d + 1, la⟩ : Bucket K V)) = false := by
          unfold Bucket.IsFull
          simp only [decide_eq_false_iff_not]
          simp only [List.length_cons] at hcapT
          omega
        simp only [Bool.false_eq_true, if_false, hfull]
        rfl
      have hst6 : ExtendibleHashTable.redistribute hashFn st5 (p :: rest) =
          ExtendibleHashTable.redistribute hashFn
            (st5.updateBucket (st5.dir.getD (ExtendibleHashTable.IndexOf hashFn st5 p.1) 0)
              ⟨bs, d + 1, la ++ [p]⟩) rest := by
        rw [hstep, hbOf, hins]
      set st6 := st5.updateBucket (st5.dir.getD (ExtendibleHashTable.IndexOf hashFn st5 p.1) 0)
          ⟨bs, d + 1, la ++ [p]⟩ with hst6def
      have hdir6 : st6.dir = st5.dir := rfl
      have hgd6 : st6.global_depth = st5.global_depth := rfl
      have hlook6 : ∀ c, lookupStore st6.store c =
          if c = tId then some ⟨bs, d + 1, la ++ [p]⟩ else lookupStore st5.store c := by
        intro c
        rw [hst6def, hpdest]
        unfold ExtendibleHashTable.updateBucket
        exact lookupStore_updateStore st5.store tId _ c
      obtain ⟨ih1, ih2, ih3⟩ := ih st6 (la ++ [p]) lb
        (by
          intro q hq
          have := hdest q (List.mem_cons_of_mem p hq)
          exact this)
        (by rw [hlook6 tId, if_pos rfl])
        (by rw [hlook6 nId, if_neg (Ne.symm hne)]; exact hlN)
        (by simp only [List.length_append, List.length_cons, List.length_nil] at hcapT ⊢; omega)
        (by simp only [List.length_cons] at hcapN; omega)
        (by
          intro q hq r hr
          rcases List.mem_append.mp hr with hr | hr
          · exact hfreshT q (List.mem_cons_of_mem p hq) r hr
          · rcases List.mem_singleton.mp hr with rfl
            intro hqp
            exact hnodup2.1 (by rw [hqp]; exact List.mem_map_of_mem Prod.fst hq))
        (fun q hq r hr => hfreshN q (List.mem_cons_of_mem p hq) r hr)
        hnodup2.2
      rw [hst6]
      refine ⟨?_, ?_, ?_⟩
      · rw [ih1, List.filter_cons_of_pos (by simpa using hbit)]
        simp [List.append_assoc]
      · rw [ih2, List.filter_cons_of_neg (by simp [hbit])]
      · intro c hc1 hc2
        rw [ih3 c hc1 hc2, hlook6 c, if_neg hc1]
    · rw [if_neg hbit] at hpdest
      have hbOf : st5.bucketOf (st5.dir.getD (ExtendibleHashTable.IndexOf hashFn st5 p.1) 0)
          = ⟨bs, d + 1, lb⟩ := by
        rw [hpdest]; unfold ExtendibleHashTable.bucketOf; rw [hlN]; rfl
      have hins : (Bucket.insertIgnored (⟨bs, d + 1, lb⟩ : Bucket K V) p.1 p.2)
          = ⟨bs, d + 1, lb ++ [p]⟩ := by
        unfold Bucket.insertIgnored Bucket.Insert
        rw [any_key_eq_false lb p.1 (hfreshN p (List.mem_cons_self p rest))]
        have hfull : (Bucket.IsFull (⟨bs, d + 1, lb⟩ : Bucket K V)) = false := by
          unfold Bucket.IsFull
          simp only [decide_eq_false_iff_not]
          simp only [List.length_cons] at hcapN
          omega
        simp only [Bool.false_eq_true, if_false, hfull]
        rfl
      have hst6 : ExtendibleHashTable.redistribute hashFn st5 (p :: rest) =
          ExtendibleHashTable.redistribute hashFn
            (st5.updateBucket (st5.dir.getD (ExtendibleHashTable.IndexOf hashFn st5 p.1) 0)
              ⟨bs, d + 1, lb ++ [p]⟩) rest := by
        rw [hstep, hbOf, hins]
      set st6 := st5.updateBucket (st5.dir.getD (ExtendibleHashTable.IndexOf hashFn st5 p.1) 0)
          ⟨bs, d + 1, lb ++ [p]⟩ with hst6def
      have hlook6 : ∀ c, lookupStore st6.store c =
          if c = nId then some ⟨bs, d + 1, lb ++ [p]⟩ else lookupStore st5.store c := by
        intro c
        rw [hst6def, hpdest]
        unfold ExtendibleHashTable.updateBucket
        exact lookupStore_updateStore st5.store nId _ c
      obtain ⟨ih1, ih2, ih3⟩ := ih st6 la (lb ++ [p])
        (by
          intro q hq
          exact hdest q (List.mem_cons_of_mem p hq))
        (by rw [hlook6 tId, if_neg hne]; exact hlT)
        (by rw [hlook6 nId, if_pos rfl])
        (by simp only [List.length_cons] at hcapT; omega)
        (by simp only [List.length_append, List.length_cons, List.length_nil] at hcapN ⊢; omega)
        (fun q hq r hr => hfreshT q (List.mem_cons_of_mem p hq) r hr)
        (by
          intro q hq r hr
          rcases List.mem_append.mp hr with hr | hr
          · exact hfreshN q (List.mem_cons_of_mem p hq) r hr
          · rcases List.mem_singleton.mp hr with rfl
            intro hqp
            exact hnodup2.1 (by rw [hqp]; exact List.mem_map_of_mem Prod.fst hq))
        hnodup2.2
      rw [hst6]
      refine ⟨?_, ?_, ?_⟩
      · rw [ih1, List.filter_cons_of_neg (by simpa using hbit)]
      · rw [ih2, List.filter_cons_of_pos (by simp [hbit])]
        simp [List.append_assoc]
      · intro c hc1 hc2
        rw [ih3 c hc1 hc2, hlook6 c, if_neg hc2]

/-- Full characterisation of one split iteration of
`ExtendibleHashTable::Insert`: directory doubling, pointer redirection,
the partition of the old bucket's pairs, untouched buckets, the bucket
count, the destination of each redistributed pair, and preservation of the
directory pointers of all other keys. -/
theorem ExtendibleHashTable.splitStep_spec
    {K V : Type} [DecidableEq K] (hashFn : K → Nat)
    (st : ExtendibleHashTable K V) (targetId : Nat) (tb : Bucket K V)
    (hlook : lookupStore st.store targetId = some tb)
    (hmem : targetId ∈ st.dir)
    (hwf : st.WF)
    (hdle : tb.depth ≤ st.global_depth)
    (hdirlt : ∀ b ∈ st.dir, b < st.next_id)
    (hbelong : ∀ p ∈ tb.list,
      st.dir.getD (ExtendibleHashTable.IndexOf hashFn st p.1) 0 = targetId)
    (hnodup : (tb.list.map Prod.fst).Nodup)
    (hsize : tb.list.length ≤ st.bucket_size)
    (hcap : tb.size = st.bucket_size) :
    (st.splitStep hashFn targetId).global_depth =
        (if tb.depth = st.global_depth then st.global_depth + 1 else st.global_depth) ∧
    (st.splitStep hashFn targetId).dir.length =
        (if tb.depth = st.global_depth then st.dir ++ st.dir else st.dir).length ∧
    (∀ j, j < (if tb.depth = st.global_depth then st.dir ++ st.dir else st.dir).length →
      (st.splitStep hashFn targetId).dir.getD j 0 =
        (if (if tb.depth = st.global_depth then st.dir ++ st.dir else st.dir).getD j 0 = targetId
            ∧ j &&& (1 <<< tb.depth) ≠ 0
         then st.next_id
         else (if tb.depth = st.global_depth then st.dir ++ st.dir else st.dir).getD j 0) ∧
      ((st.splitStep hashFn targetId).dir.getD j 0 = st.next_id ↔
        ((if tb.depth = st.global_depth then st.dir ++ st.dir else st.dir).getD j 0 = targetId
          ∧ j &&& (1 <<< tb.depth) ≠ 0))) ∧
    lookupStore (st.splitStep hashFn targetId).store targetId =
      some ⟨tb.size, tb.depth + 1,
        tb.list.filter (fun p => decide ((hashFn p.1) &&& (1 <<< tb.depth) = 0))⟩ ∧
    lookupStore (st.splitStep hashFn targetId).store st.next_id =
      some ⟨st.bucket_size, tb.depth + 1,
        tb.list.filter (fun p => decide (¬ (hashFn p.1) &&& (1 <<< tb.depth) = 0))⟩ ∧
    (∀ c, c ≠ targetId → c ≠ st.next_id →
      lookupStore (st.splitStep hashFn targetId).store c = lookupStore st.store c) ∧
    (st.splitStep hashFn targetId).num_buckets = st.num_buckets + 1 ∧
    (∀ p ∈ tb.list,
      (st.splitStep hashFn targetId).dir.getD
          (ExtendibleHashTable.IndexOf hashFn (st.splitStep hashFn targetId) p.1) 0 =
        (if (hashFn p.1) &&& (1 <<< tb.depth) = 0 then targetId else st.next_id)) ∧
    (∀ (x : K) (b : Nat), b ≠ targetId →
      st.dir.getD (ExtendibleHashTable.IndexOf hashFn st x) 0 = b →
      (st.splitStep hashFn targetId).dir.getD
          (ExtendibleHashTable.IndexOf hashFn (st.splitStep hashFn targetId) x) 0 = b) := by
  have hbOf : st.bucketOf targetId = tb := by
    unfold ExtendibleHashTable.bucketOf; rw [hlook]; rfl
  have hne : targetId ≠ st.next_id := by
    have := hdirlt targetId hmem; omega
  have hsplit_eq : st.splitStep hashFn targetId =
      ExtendibleHashTable.redistribute hashFn
        { global_depth :=
            (if tb.depth = st.global_depth then st.global_depth + 1 else st.global_depth),
          bucket_size := st.bucket_size,
          num_buckets := st.num_buckets + 1,
          dir := redirectFrom targetId st.next_id (1 <<< tb.depth)
            (if tb.depth = st.global_depth then st.dir ++ st.dir else st.dir).length
            (if tb.depth = st.global_depth then st.dir ++ st.dir else st.dir) 0,
          store := updateStore (updateStore (updateStore st.store targetId
              ⟨tb.size, tb.depth + 1, tb.list⟩) st.next_id
              ⟨st.bucket_size, tb.depth + 1, []⟩) targetId
              ⟨tb.size, tb.depth + 1, []⟩,
          next_id := st.next_id + 1 } tb.list := by
    simp only [ExtendibleHashTable.splitStep, ExtendibleHashTable.updateBucket, hbOf]
    by_cases hd : tb.depth = st.global_depth
    · simp only [if_pos hd, Nat.add_sub_cancel]
    · simp only [if_neg hd, Nat.add_sub_cancel]
  have hDlen : (if tb.depth = st.global_depth then st.dir ++ st.dir else st.dir).length =
      2 ^ (if tb.depth = st.global_depth then st.global_depth + 1 else st.global_depth) := by
    by_cases hd : tb.depth = st.global_depth
    · simp only [if_pos hd, List.length_append]
      rw [hwf, pow_succ]
      omega
    · simp only [if_neg hd]
      exact hwf
  have hDmem : ∀ j, j < (if tb.depth = st.global_depth then st.dir ++ st.dir
      else st.dir).length →
      (if tb.depth = st.global_depth then st.dir ++ st.dir else st.dir).getD j 0 ∈ st.dir := by
    intro j hj
    by_cases hd : tb.depth = st.global_depth
    · simp only [if_pos hd] at hj ⊢
      have := getD_mem_of_lt (st.dir ++ st.dir) j hj
      rcases List.mem_append.mp this with h | h <;> exact h
    · simp only [if_neg hd] at hj ⊢
      exact getD_mem_of_lt st.dir j hj
  have hdlt : tb.depth < (if tb.depth = st.global_depth then st.global_depth + 1
      else st.global_depth) := by
    by_cases hd : tb.depth = st.global_depth
    · simp only [if_pos hd]; omega
    · simp only [if_neg hd]; omega
  have hDproj : ∀ hsh : Nat,
      (if tb.depth = st.global_depth then st.dir ++ st.dir else st.dir).getD
        (hsh % 2 ^ (if tb.depth = st.global_depth then st.global_depth + 1
          else st.global_depth)) 0 = st.dir.getD (hsh % 2 ^ st.global_depth) 0 := by
    intro hsh
    by_cases hd : tb.depth = st.global_depth
    · simp only [if_pos hd]
      have hpos : 0 < st.dir.length := by rw [hwf]; exact Nat.pos_pow_of_pos _ (by omega)
      have hlt : hsh % 2 ^ (st.global_depth + 1) < 2 * st.dir.length := by
        rw [hwf]
        have := Nat.mod_lt hsh (Nat.pos_pow_of_pos (st.global_depth + 1) (show 0 < 2 by omega))
        rw [pow_succ] at this
        omega
      rw [getD_append_self st.dir _ hpos hlt]
      have : hsh % 2 ^ (st.global_depth + 1) % st.dir.length =
          hsh % 2 ^ st.global_depth := by
        rw [hwf]
        rw [Nat.mod_mod_of_dvd _ (pow_dvd_pow 2 (Nat.le_succ _))]
      rw [this]
    · simp only [if_neg hd]
  have hDgetD : ∀ p : K × V, p ∈ tb.list →
      (if tb.depth = st.global_depth then st.dir ++ st.dir else st.dir).getD
        (hashFn p.1 % 2 ^ (if tb.depth = st.global_depth then st.global_depth + 1
          else st.global_depth)) 0 = targetId := by
    intro p hp
    have hb := hbelong p hp
    rw [ExtendibleHashTable.IndexOf_eq_mod] at hb
    rw [hDproj]
    exact hb
  have hdest : ∀ p : K × V, p ∈ tb.list →
      (redirectFrom targetId st.next_id (1 <<< tb.depth)
        (if tb.depth = st.global_depth then st.dir ++ st.dir else st.dir).length
        (if tb.depth = st.global_depth then st.dir ++ st.dir else st.dir) 0).getD
        (hashFn p.1 % 2 ^ (if tb.depth = st.global_depth then st.global_depth + 1
          else st.global_depth)) 0 =
      (if (hashFn p.1) &&& (1 <<< tb.depth) = 0 then targetId else st.next_id) := by
    intro p hp
    have hjlt : hashFn p.1 % 2 ^ (if tb.depth = st.global_depth then st.global_depth + 1
        else st.global_depth) <
        (if tb.depth = st.global_depth then st.dir ++ st.dir else st.dir).length := by
      rw [hDlen]
      exact Nat.mod_lt _ (Nat.pos_pow_of_pos _ (by omega))
    have hbits : hashFn p.1 % 2 ^ (if tb.depth = st.global_depth then st.global_depth + 1
        else st.global_depth) &&& (1 <<< tb.depth) = hashFn p.1 &&& (1 <<< tb.depth) :=
      and_shiftLeft_mod _ _ _ hdlt
    rw [redirectFrom_getD _ _ _ _ _ _ _ (by omega)]
    by_cases hbit : (hashFn p.1) &&& (1 <<< tb.depth) = 0
    · rw [if_neg, if_pos hbit]
      · exact hDgetD p hp
      · rintro ⟨_, _, _, h4⟩
        rw [hbits] at h4
        exact h4 hbit
    · rw [if_pos ⟨by omega, hjlt, hDgetD p hp, by rw [hbits]; exact hbit⟩, if_neg hbit]
  have hdest2 : ∀ (x : K) (b : Nat), b ≠ targetId →
      st.dir.getD (ExtendibleHashTable.IndexOf hashFn st x) 0 = b →
      (redirectFrom targetId st.next_id (1 <<< tb.depth)
        (if tb.depth = st.global_depth then st.dir ++ st.dir else st.dir).length
        (if tb.depth = st.global_depth then st.dir ++ st.dir else st.dir) 0).getD
        (hashFn x % 2 ^ (if tb.depth = st.global_depth then st.global_depth + 1
          else st.global_depth)) 0 = b := by
    intro x b hbne hbx
    rw [ExtendibleHashTable.IndexOf_eq_mod] at hbx
    have hD : (if tb.depth = st.global_depth then st.dir ++ st.dir else st.dir).getD
        (hashFn x % 2 ^ (if tb.depth = st.global_depth then st.global_depth + 1
          else st.global_depth)) 0 = b := by
      rw [hDproj]
      exact hbx
    rw [redirectFrom_getD _ _ _ _ _ _ _ (by omega)]
    rw [if_neg, hD]
    rintro ⟨_, _, h3, _⟩
    rw [hD] at h3
    exact hbne h3
  obtain ⟨hr1, hr2, hr3⟩ := ExtendibleHashTable.redistribute_closed hashFn tb.depth
    st.bucket_size targetId st.next_id hne tb.list
    { global_depth :=
        (if tb.depth = st.global_depth then st.global_depth + 1 else st.global_depth),
      bucket_size := st.bucket_size,
      num_buckets := st.num_buckets + 1,
      dir := redirectFrom targetId st.next_id (1 <<< tb.depth)
        (if tb.depth = st.global_depth then st.dir ++ st.dir else st.dir).length
        (if tb.depth = st.global_depth then st.dir ++ st.dir else st.dir) 0,
      store := updateStore (updateStore (updateStore st.store targetId
          ⟨tb.size, tb.depth + 1, tb.list⟩) st.next_id
          ⟨st.bucket_size, tb.depth + 1, []⟩) targetId
          ⟨tb.size, tb.depth + 1, []⟩,
      next_id := st.next_id + 1 } [] []
    (by
      intro p hp
      have := hdest p hp
      rw [ExtendibleHashTable.IndexOf_eq_mod]
      exact this)
    (by
      show lookupStore (updateStore _ targetId _) targetId = _
      rw [lookupStore_updateStore, if_pos rfl, hcap])
    (by
      show lookupStore (updateStore _ targetId _) st.next_id = _
      rw [lookupStore_updateStore, if_neg (Ne.symm hne), lookupStore_updateStore, if_pos rfl])
    (by simpa using hsize)
    (by simpa using hsize)
    (by intro p _ q hq; exact absurd hq (List.not_mem_nil q))
    (by intro p _ q hq; exact absurd hq (List.not_mem_nil q))
    hnodup
  refine ⟨?_, ?_, ?_, ?_, ?_, ?_, ?_, ?_, ?_⟩
  · rw [hsplit_eq, ExtendibleHashTable.redistribute_gd_eq]
  · rw [hsplit_eq, ExtendibleHashTable.redistribute_dir_eq]
    show (redirectFrom _ _ _ _ _ 0).length = _
    rw [redirectFrom_length]
  · intro j hj
    have hform : (st.splitStep hashFn targetId).dir.getD j 0 =
        (if (if tb.depth = st.global_depth then st.dir ++ st.dir else st.dir).getD j 0 = targetId
            ∧ j &&& (1 <<< tb.depth) ≠ 0
         then st.next_id
         else (if tb.depth = st.global_depth then st.dir ++ st.dir else st.dir).getD j 0) := by
      rw [hsplit_eq, ExtendibleHashTable.redistribute_dir_eq]
      show (redirectFrom _ _ _ _ _ 0).getD j 0 = _
      rw [redirectFrom_getD _ _ _ _ _ _ _ (by omega)]
      by_cases hc : (if tb.depth = st.global_depth then st.dir ++ st.dir else st.dir).getD j 0
          = targetId ∧ j &&& (1 <<< tb.depth) ≠ 0
      · rw [if_pos ⟨by omega, hj, hc.1, hc.2⟩, if_pos hc]
      · rw [if_neg ?_, if_neg hc]
        rintro ⟨_, _, h3, h4⟩
        exact hc ⟨h3, h4⟩
    refine ⟨hform, ?_⟩
    rw [hform]
    by_cases hc : (if tb.depth = st.global_depth then st.dir ++ st.dir else st.dir).getD j 0
        = targetId ∧ j &&& (1 <<< tb.depth) ≠ 0
    · rw [if_pos hc]
      exact ⟨fun _ => hc, fun _ => rfl⟩
    · rw [if_neg hc]
      constructor
      · intro hcontr
        have hmem2 := hDmem j hj
        rw [hcontr] at hmem2
        have := hdirlt _ hmem2
        omega
      · intro hcontr
        exact absurd hcontr hc
  · rw [hsplit_eq, hr1, hcap]
    simp
  · rw [hsplit_eq, hr2]
    simp
  · intro c hc1 hc2
    rw [hsplit_eq, hr3 c hc1 hc2]
    show lookupStore (updateStore _ targetId _) c = _
    rw [lookupStore_updateStore, if_neg hc1, lookupStore_updateStore, if_neg hc2,
      lookupStore_updateStore, if_neg hc1]
  · rw [hsplit_eq, ExtendibleHashTable.redistribute_nb_eq]
  · intro p hp
    have h1 := hdest p hp
    rw [hsplit_eq, ExtendibleHashTable.redistribute_dir_eq,
      ExtendibleHashTable.IndexOf_eq_mod, ExtendibleHashTable.redistribute_gd_eq]
    exact h1
  · intro x b hbne hbx
    have h1 := hdest2 x b hbne hbx
    rw [hsplit_eq, ExtendibleHashTable.redistribute_dir_eq,
      ExtendibleHashTable.IndexOf_eq_mod, ExtendibleHashTable.redistribute_gd_eq]
    exact h1

/-- C3: during every bucket split inside `Insert` — on an arbitrary table
state satisfying the structural invariants of reachable tables, with
`targetId` the full bucket `dir_[IndexOf(key)]` being split and `d` its
local depth: (a) if `d` equals the global depth, the directory is doubled
by appending a copy of itself and the global depth is incremented; (b)
with the bucket's local depth raised to `d+1`, exactly those directory
indices `i` that previously pointed to the old bucket and have
`i & (1 << d) != 0` are redirected to the newly allocated bucket; (c)
every key/value pair of the old bucket is redistributed by recomputing its
directory index: pairs with bit `d` of their hash set end in the new
bucket, the rest return to the old bucket. -/
theorem c3_split_directory_doubling_redirect_redistribute
    {K V : Type} [DecidableEq K] (hashFn : K → Nat)
    (st : ExtendibleHashTable K V) (targetId : Nat) (tb : Bucket K V)
    (hlook : lookupStore st.store targetId = some tb)
    (hmem : targetId ∈ st.dir)
    (hwf : st.WF)
    (hdle : tb.depth ≤ st.global_depth)
    (hdirlt : ∀ b ∈ st.dir, b < st.next_id)
    (hbelong : ∀ p ∈ tb.list,
      st.dir.getD (ExtendibleHashTable.IndexOf hashFn st p.1) 0 = targetId)
    (hnodup : (tb.list.map Prod.fst).Nodup)
    (hsize : tb.list.length ≤ st.bucket_size)
    (hcap : tb.size = st.bucket_size) :
    (st.splitStep hashFn targetId).global_depth =
        (if tb.depth = st.global_depth then st.global_depth + 1 else st.global_depth) ∧
    (st.splitStep hashFn targetId).dir.length =
        (if tb.depth = st.global_depth then st.dir ++ st.dir else st.dir).length ∧
    (∀ j, j < (if tb.depth = st.global_depth then st.dir ++ st.dir else st.dir).length →
      (st.splitStep hashFn targetId).dir.getD j 0 =
        (if (if tb.depth = st.global_depth then st.dir ++ st.dir else st.dir).getD j 0 = targetId
            ∧ j &&& (1 <<< tb.depth) ≠ 0
         then st.next_id
         else (if tb.depth = st.global_depth then st.dir ++ st.dir else st.dir).getD j 0) ∧
      ((st.splitStep hashFn targetId).dir.getD j 0 = st.next_id ↔
        ((if tb.depth = st.global_depth then st.dir ++ st.dir else st.dir).getD j 0 = targetId
          ∧ j &&& (1 <<< tb.depth) ≠ 0))) ∧
    lookupStore (st.splitStep hashFn targetId).store targetId =
      some ⟨tb.size, tb.depth + 1,
        tb.list.filter (fun p => decide ((hashFn p.1) &&& (1 <<< tb.depth) = 0))⟩ ∧
    lookupStore (st.splitStep hashFn targetId).store st.next_id =
      some ⟨st.bucket_size, tb.depth + 1,
        tb.list.filter (fun p => decide (¬ (hashFn p.1) &&& (1 <<< tb.depth) = 0))⟩ ∧
    (∀ c, c ≠ targetId → c ≠ st.next_id →
      lookupStore (st.splitStep hashFn targetId).store c = lookupStore st.store c) ∧
    (st.splitStep hashFn targetId).num_buckets = st.num_buckets + 1 := by
  obtain ⟨h1, h2, h3, h4, h5, h6, h7, _, _⟩ :=
    ExtendibleHashTable.splitStep_spec hashFn st targetId tb hlook hmem hwf hdle hdirlt
      hbelong hnodup hsize hcap
  exact ⟨h1, h2, h3, h4, h5, h6, h7⟩

/-- Witness for C3 at the concrete table of scenario S4 just before its
first split: both pairs have bit 0 of their hash clear, so both return to
the old bucket and the new bucket stays empty. -/
theorem c3_witness :
    lookupStore (c3Table.splitStep natIdHash 0).store 0 = some ⟨2, 1, [(0, 0), (2, 0)]⟩ ∧
    lookupStore (c3Table.splitStep natIdHash 0).store 1 = some ⟨2, 1, []⟩ := by
  obtain ⟨h1, h2, h3, h4, h5, h6, h7⟩ :=
    c3_split_directory_doubling_redirect_redistribute natIdHash c3Table 0
      ⟨2, 0, [(0, 0), (2, 0)]⟩ (by decide) (by decide) (by decide) (by decide)
      (by decide) (by decide) (by decide) (by decide) (by decide)
  constructor
  · rw [h4]; decide
  · show lookupStore (c3Table.splitStep natIdHash 0).store c3Table.next_id = _
    rw [h5]; decide

/-! ### Buffer pool manager: claims C4 and C9 -/

/-- C9: `FlushAllPages` on a pool with at least one slot acquires the
manager's non-recursive mutex and then calls `FlushPage`, which attempts to
acquire the same mutex while it is still held by the same thread, so
`FlushAllPages` never completes (the self-deadlock / undefined behaviour of
re-locking a `std::mutex` is modelled as `none`, hit already at the first
slot of the loop). -/
theorem c9_flush_all_self_deadlock (st : BufferPoolManagerInstance)
    (h : 0 < st.pool_size) :
    st.FlushAllPgsImp false = none := by
  have hgo : ∀ (l : List Nat) (s : BufferPoolManagerInstance) (out : List DiskOp),
      l ≠ [] → FlushAllGo l s out = none := by
    intro l s out hl
    match l with
    | [] => exact absurd rfl hl
    | i :: rest => rfl
  show FlushAllGo (List.range st.pool_size) st [] = none
  apply hgo
  rw [Ne, List.range_eq_nil]
  omega

/-- Witness for C9 at a concrete pool of one slot. -/
theorem c9_witness : (BufferPoolManagerInstance.new 1 2 4).FlushAllPgsImp false = none :=
  c9_flush_all_self_deadlock (BufferPoolManagerInstance.new 1 2 4) (by decide)

/-- C4: `UnpinPage(p, d)` returns false if and only if `p` is not resident
or the resident slot's pin count is already 0 (the code's `<= 0` test, with
the reachable-state fact that pin counts are non-negative supplied as a
hypothesis); otherwise it decrements the pin count, marks the slot
evictable exactly when the count reaches 0, OR-s `d` into the dirty flag
(`is_dirty || d`, so the flag is never cleared here). -/
theorem c4_unpin_characterization (st : BufferPoolManagerInstance) (p : Int) (d : Bool)
    (hpin : ∀ f, ExtendibleHashTable.Find stdHashInt st.page_table p = some f →
      0 ≤ (st.pageAt f).pin_count) :
    (ExtendibleHashTable.Find stdHashInt st.page_table p = none →
      st.UnpinPgImp p d = (st, false)) ∧
    (∀ f, ExtendibleHashTable.Find stdHashInt st.page_table p = some f →
      ((st.pageAt f).pin_count = 0 → st.UnpinPgImp p d = (st, false)) ∧
      (0 < (st.pageAt f).pin_count →
        st.UnpinPgImp p d =
          ({ st with
               pages := st.pages.set f
                 { page_id := (st.pageAt f).page_id,
                   pin_count := (st.pageAt f).pin_count - 1,
                   is_dirty := (st.pageAt f).is_dirty || d,
                   data := (st.pageAt f).data },
               replacer := if (st.pageAt f).pin_count - 1 = 0
                 then st.replacer.SetEvictable f true else st.replacer }, true))) := by
  constructor
  · intro hf
    unfold BufferPoolManagerInstance.UnpinPgImp
    rw [hf]
  · intro f hf
    constructor
    · intro hp0
      unfold BufferPoolManagerInstance.UnpinPgImp
      rw [hf]
      have hle : (st.pageAt f).pin_count ≤ 0 := by omega
      simp only [if_pos hle]
    · intro hppos
      unfold BufferPoolManagerInstance.UnpinPgImp
      rw [hf]
      have hgt : ¬ (st.pageAt f).pin_count ≤ 0 := by omega
      simp only [if_neg hgt]
      cases d
      · simp [Bool.or_false]
      · simp [Bool.or_true]

/-- Witness for C4 at a concrete pool where page 0 is resident with pin
count 1: the unpin succeeds. -/
theorem c4_witness : (c4State.UnpinPgImp 0 true).2 = true := by
  have h := ((c4_unpin_characterization c4State 0 true (by decide)).2 0
    (by decide)).2 (by decide)
  rw [h]

/-! ### Table invariants: helper lemmas -/

theorem flatMap_congr {A B : Type} (l : List A) (f g : A → List B)
    (h : ∀ a ∈ l, f a = g a) : l.flatMap f = l.flatMap g := by
  induction l with
  | nil => rfl
  | cons a rest ih =>
    rw [List.flatMap_cons, List.flatMap_cons, h a (List.mem_cons_self a rest),
      ih (fun x hx => h x (List.mem_cons_of_mem a hx))]

theorem ExtendibleHashTable.liveIds_nodup (st : ExtendibleHashTable K V) :
    st.liveIds.Nodup :=
  (List.nodup_range st.next_id).filter _

theorem ExtendibleHashTable.mem_liveIds (st : ExtendibleHashTable K V) (b : Nat) :
    b ∈ st.liveIds ↔ b < st.next_id ∧ b ∈ st.dir := by
  rw [show st.liveIds = (List.range st.next_id).filter (fun b => decide (b ∈ st.dir))
    from rfl]
  rw [List.mem_filter, List.mem_range]
  simp

theorem lookupStore_mem (s : List (Nat × Bucket K V)) (b : Nat) (bk : Bucket K V)
    (h : lookupStore s b = some bk) : (b, bk) ∈ s := by
  unfold lookupStore at h
  rcases hf : s.find? (fun q => q.1 == b) with _ | q
  · rw [hf] at h; exact absurd h (by simp)
  · rw [hf] at h
    simp only [Option.map_some', Option.some.injEq] at h
    have hq := List.mem_of_find?_eq_some hf
    have hk := List.find?_some hf
    simp only [beq_iff_eq] at hk
    have : q = (b, bk) := by
      rcases q with ⟨q1, q2⟩
      simp only at hk h
      rw [hk, h]
    rw [← this]
    exact hq

theorem ExtendibleHashTable.bucketOf_ext (st st2 : ExtendibleHashTable K V) (c : Nat)
    (hl : lookupStore st2.store c = lookupStore st.store c)
    (hbs : st2.bucket_size = st.bucket_size) :
    st2.bucketOf c = st.bucketOf c := by
  unfold ExtendibleHashTable.bucketOf
  rw [hl, hbs]

theorem ExtendibleHashTable.allItems_decomp (st : ExtendibleHashTable K V) (b : Nat)
    (hb : b ∈ st.dir) (hlt : b < st.next_id) :
    ∃ l1 l2, st.allItems = l1 ++ ((st.bucketOf b).list ++ l2) ∧
      (∀ bk : Bucket K V, (st.updateBucket b bk).allItems = l1 ++ (bk.list ++ l2)) ∧
      (∀ q, q ∈ l1 ++ l2 → ∃ c, c ∈ st.dir ∧ c ≠ b ∧ q ∈ (st.bucketOf c).list) := by
  have hbl : b ∈ st.liveIds := (st.mem_liveIds b).mpr ⟨hlt, hb⟩
  obtain ⟨L1, L2, hdec⟩ := List.append_of_mem hbl
  have hnd := st.liveIds_nodup
  rw [hdec] at hnd
  have hb1 : b ∉ L1 := by
    intro hx
    rcases List.nodup_append.mp hnd with ⟨_, _, hdisj⟩
    exact hdisj hx (List.mem_cons_self b L2)
  have hb2 : b ∉ L2 := by
    rcases List.nodup_append.mp hnd with ⟨_, hnd2, _⟩
    exact (List.nodup_cons.mp hnd2).1
  refine ⟨L1.flatMap (fun c => (st.bucketOf c).list),
    L2.flatMap (fun c => (st.bucketOf c).list), ?_, ?_, ?_⟩
  · unfold ExtendibleHashTable.allItems
    rw [hdec, List.flatMap_append, List.flatMap_cons]
  · intro bk
    have hlive : (st.updateBucket b bk).liveIds = st.liveIds := rfl
    unfold ExtendibleHashTable.allItems
    rw [hlive, hdec, List.flatMap_append, List.flatMap_cons]
    have h1 : L1.flatMap (fun c => ((st.updateBucket b bk).bucketOf c).list) =
        L1.flatMap (fun c => (st.bucketOf c).list) := by
      refine flatMap_congr L1 _ _ (fun c hc => ?_)
      rw [st.bucketOf_updateBucket b bk c, if_neg (fun h => hb1 (by rw [← h]; exact hc))]
    have h2 : L2.flatMap (fun c => ((st.updateBucket b bk).bucketOf c).list) =
        L2.flatMap (fun c => (st.bucketOf c).list) := by
      refine flatMap_congr L2 _ _ (fun c hc => ?_)
      rw [st.bucketOf_updateBucket b bk c, if_neg (fun h => hb2 (by rw [← h]; exact hc))]
    rw [h1, h2, st.bucketOf_updateBucket b bk b, if_pos rfl]
  · intro q hq
    rcases List.mem_append.mp hq with hq | hq
    · obtain ⟨c, hc, hqc⟩ := List.mem_flatMap.mp hq
      have := ((st.mem_liveIds c).mp (by rw [hdec]; exact List.mem_append_left _ hc)).2
      exact ⟨c, this, fun h => hb1 (by rw [← h]; exact hc), hqc⟩
    · obtain ⟨c, hc, hqc⟩ := List.mem_flatMap.mp hq
      have := ((st.mem_liveIds c).mp (by
        rw [hdec]; exact List.mem_append_right _ (List.mem_cons_of_mem b hc))).2
      exact ⟨c, this, fun h => hb2 (by rw [← h]; exact hc), hqc⟩

theorem filter_eq_singleton (l : List Nat) (t : Nat) (hnd : l.Nodup) (ht : t ∈ l) :
    l.filter (fun c => decide (c = t)) = [t] := by
  induction l with
  | nil => exact absurd ht (List.not_mem_nil t)
  | cons a rest ih =>
    rcases List.nodup_cons.mp hnd with ⟨ha, hrest⟩
    by_cases hat : a = t
    · subst hat
      rw [List.filter_cons_of_pos (by simp)]
      have : rest.filter (fun c => decide (c = a)) = [] := by
        rw [List.filter_eq_nil_iff]
        intro c hc
        simp only [decide_eq_true_eq]
        intro hca
        exact ha (hca ▸ hc)
      rw [this]
    · rw [List.filter_cons_of_neg (by simpa using hat)]
      exact ih hrest (by
        rcases List.mem_cons.mp ht with h | h
        · exact absurd h.symm hat
        · exact h)

theorem find_key_of_nodup {K V : Type} [DecidableEq K] (l : List (K × V)) (k : K) (v : V)
    (hnd : (l.map Prod.fst).Nodup) (hm : (k, v) ∈ l) :
    (l.find? (fun p => decide (p.1 = k))).map Prod.snd = some v := by
  induction l with
  | nil => exact absurd hm (List.not_mem_nil _)
  | cons p rest ih =>
    rw [List.map_cons] at hnd
    rcases List.nodup_cons.mp hnd with ⟨hp, hrest⟩
    by_cases hpk : p.1 = k
    · have hpv : p = (k, v) := by
        rcases List.mem_cons.mp hm with h | h
        · exact h.symm
        · have hk : k ∈ List.map Prod.fst rest := List.mem_map_of_mem Prod.fst h
          rw [← hpk] at hk
          exact absurd hk hp
      subst hpv
      simp [List.find?]
    · simp only [List.find?]
      rw [decide_eq_false hpk]
      refine ih hrest ?_
      rcases List.mem_cons.mp hm with h | h
      · exact absurd (congrArg Prod.fst h.symm) hpk
      · exact h

theorem ExtendibleHashTable.bucket_keys_nodup [DecidableEq K] (hashFn : K → Nat)
    (st : ExtendibleHashTable K V) (hinv : ExtendibleHashTable.TInv hashFn st)
    (b : Nat) (hb : b ∈ st.dir) : (((st.bucketOf b).list).map Prod.fst).Nodup := by
  obtain ⟨l1, l2, hdec, _, _⟩ := st.allItems_decomp b hb (hinv.dir_lt b hb)
  have h := hinv.keys_nodup
  rw [hdec, List.map_append, List.map_append] at h
  exact (h.of_append_right).of_append_left

theorem ExtendibleHashTable.mem_allItems (st : ExtendibleHashTable K V) (q : K × V) :
    q ∈ st.allItems ↔ ∃ b, b ∈ st.dir ∧ b < st.next_id ∧ q ∈ (st.bucketOf b).list := by
  unfold ExtendibleHashTable.allItems
  rw [List.mem_flatMap]
  constructor
  · rintro ⟨b, hb, hq⟩
    rcases (st.mem_liveIds b).mp hb with ⟨h1, h2⟩
    exact ⟨b, h2, h1, hq⟩
  · rintro ⟨b, h1, h2, hq⟩
    exact ⟨b, (st.mem_liveIds b).mpr ⟨h2, h1⟩, hq⟩

theorem ExtendibleHashTable.Find_iff_mem [DecidableEq K] (hashFn : K → Nat)
    (st : ExtendibleHashTable K V) (hinv : ExtendibleHashTable.TInv hashFn st)
    (k : K) (v : V) :
    ExtendibleHashTable.Find hashFn st k = some v ↔ (k, v) ∈ st.allItems := by
  have hlt := ExtendibleHashTable.IndexOf_lt hashFn st k hinv.wf
  have hbmem : st.dir.getD (ExtendibleHashTable.IndexOf hashFn st k) 0 ∈ st.dir :=
    getD_mem_of_lt _ _ hlt
  constructor
  · intro h
    unfold ExtendibleHashTable.Find at h
    rw [if_neg (by omega)] at h
    unfold Bucket.Find at h
    rcases hf : ((st.bucketOf (st.dir.getD (ExtendibleHashTable.IndexOf hashFn st k) 0)).list).find?
        (fun p => decide (p.1 = k)) with _ | q
    · rw [hf] at h; exact absurd h (by simp)
    · rw [hf] at h
      simp only [Option.map_some', Option.some.injEq] at h
      have hq := List.mem_of_find?_eq_some hf
      have hk := List.find?_some hf
      simp only [decide_eq_true_eq] at hk
      have hqkv : q = (k, v) := by
        rcases q with ⟨q1, q2⟩
        simp only at hk h
        rw [hk, h]
      rw [hqkv] at hq
      exact (st.mem_allItems (k, v)).mpr ⟨_, hbmem, hinv.dir_lt _ hbmem, hq⟩
  · intro h
    obtain ⟨b, hb, hblt, hq⟩ := (st.mem_allItems (k, v)).mp h
    have hbel := hinv.belongs b hb (k, v) hq
    unfold ExtendibleHashTable.Find
    rw [if_neg (by omega)]
    unfold Bucket.Find
    rw [hbel]
    exact find_key_of_nodup _ k v (st.bucket_keys_nodup hashFn hinv b hb) hq

theorem ExtendibleHashTable.Find_none_iff [DecidableEq K] (hashFn : K → Nat)
    (st : ExtendibleHashTable K V) (hinv : ExtendibleHashTable.TInv hashFn st) (k : K) :
    ExtendibleHashTable.Find hashFn st k = none ↔ ∀ v, (k, v) ∉ st.allItems := by
  constructor
  · intro h v hv
    rw [← ExtendibleHashTable.Find_iff_mem hashFn st hinv k v] at hv
    rw [h] at hv
    cases hv
  · intro h
    rcases hf : ExtendibleHashTable.Find hashFn st k with _ | v
    · rfl
    · exact absurd ((ExtendibleHashTable.Find_iff_mem hashFn st hinv k v).mp hf) (h v)

/-- One split iteration started on a live directory target preserves the
structural invariant and permutes (never loses or duplicates) the stored
entries. -/
theorem ExtendibleHashTable.splitStep_TInv [DecidableEq K] (hashFn : K → Nat)
    (st : ExtendibleHashTable K V) (hinv : ExtendibleHashTable.TInv hashFn st)
    (targetId : Nat) (hmem : targetId ∈ st.dir) :
    ExtendibleHashTable.TInv hashFn (st.splitStep hashFn targetId) ∧
    (st.splitStep hashFn targetId).allItems.Perm st.allItems := by
  obtain ⟨tb, hlook⟩ : ∃ tb, lookupStore st.store targetId = some tb := by
    have h := hinv.dir_live targetId hmem
    rcases hx : lookupStore st.store targetId with _ | tb
    · rw [hx] at h; simp at h
    · exact ⟨tb, rfl⟩
  have hbOf : st.bucketOf targetId = tb := by
    unfold ExtendibleHashTable.bucketOf; rw [hlook]; rfl
  have hdle : tb.depth ≤ st.global_depth := by
    have h := hinv.depth_le targetId hmem; rwa [hbOf] at h
  have hnodup : (tb.list.map Prod.fst).Nodup := by
    have h := st.bucket_keys_nodup hashFn hinv targetId hmem; rwa [hbOf] at h
  have hsize : tb.list.length ≤ st.bucket_size := by
    have h := hinv.sizes targetId hmem; rwa [hbOf] at h
  have hcap : tb.size = st.bucket_size := by
    have h := hinv.caps targetId hmem; rwa [hbOf] at h
  have hbelong : ∀ p ∈ tb.list,
      st.dir.getD (ExtendibleHashTable.IndexOf hashFn st p.1) 0 = targetId := by
    intro p hp
    exact hinv.belongs targetId hmem p (by rw [hbOf]; exact hp)
  obtain ⟨s1, s2, s3, s4, s5, s6, s7, s8, s9⟩ :=
    ExtendibleHashTable.splitStep_spec hashFn st targetId tb hlook hmem hinv.wf hdle
      hinv.dir_lt hbelong hnodup hsize hcap
  obtain ⟨f1, f2, f3, f4, f5⟩ := ExtendibleHashTable.splitStep_fields hashFn st targetId
  have hwfP : (st.splitStep hashFn targetId).WF :=
    ExtendibleHashTable.splitStep_WF hashFn st targetId hinv.wf
  have htlt : targetId < st.next_id := hinv.dir_lt targetId hmem
  have hDlen2 : st.dir.length ≤
      (if tb.depth = st.global_depth then st.dir ++ st.dir else st.dir).length := by
    by_cases hd : tb.depth = st.global_depth
    · simp only [if_pos hd, List.length_append]; omega
    · simp only [if_neg hd]; omega
  have hDmem : ∀ j, j < (if tb.depth = st.global_depth then st.dir ++ st.dir
      else st.dir).length →
      (if tb.depth = st.global_depth then st.dir ++ st.dir else st.dir).getD j 0 ∈
        st.dir := by
    intro j hj
    by_cases hd : tb.depth = st.global_depth
    · simp only [if_pos hd] at hj ⊢
      rcases List.mem_append.mp (getD_mem_of_lt (st.dir ++ st.dir) j hj) with h | h <;>
        exact h
    · simp only [if_neg hd] at hj ⊢
      exact getD_mem_of_lt st.dir j hj
  have hM1 : ∀ c ∈ (st.splitStep hashFn targetId).dir, c = st.next_id ∨ c ∈ st.dir := by
    intro c hc
    obtain ⟨j, hj, hcj⟩ := List.mem_iff_getElem.mp hc
    have hjD : j < (if tb.depth = st.global_depth then st.dir ++ st.dir
        else st.dir).length := by rw [← s2]; exact hj
    have hgd : (st.splitStep hashFn targetId).dir.getD j 0 = c := by
      rw [List.getD_eq_getElem _ 0 hj, hcj]
    obtain ⟨hform, _⟩ := s3 j hjD
    rw [hform] at hgd
    by_cases hcond : ((if tb.depth = st.global_depth then st.dir ++ st.dir
        else st.dir).getD j 0 = targetId ∧ j &&& (1 <<< tb.depth) ≠ 0)
    · rw [if_pos hcond] at hgd; exact Or.inl hgd.symm
    · rw [if_neg hcond] at hgd
      exact Or.inr (by rw [← hgd]; exact hDmem j hjD)
  have hM2 : ∀ c ∈ st.dir, c ≠ targetId → c ∈ (st.splitStep hashFn targetId).dir := by
    intro c hc hcne
    obtain ⟨j, hj, hcj⟩ := List.mem_iff_getElem.mp hc
    have hjD : j < (if tb.depth = st.global_depth then st.dir ++ st.dir
        else st.dir).length := by omega
    have hDj : (if tb.depth = st.global_depth then st.dir ++ st.dir
        else st.dir).getD j 0 = c := by
      by_cases hd : tb.depth = st.global_depth
      · simp only [if_pos hd]
        rw [show ((st.dir ++ st.dir).getD j 0) = st.dir.getD j 0 by
          simp [List.getD_eq_getElem?_getD, List.getElem?_append, hj]]
        rw [List.getD_eq_getElem _ 0 hj, hcj]
      · simp only [if_neg hd]
        rw [List.getD_eq_getElem _ 0 hj, hcj]
    obtain ⟨hform, _⟩ := s3 j hjD
    have hval : (st.splitStep hashFn targetId).dir.getD j 0 = c := by
      rw [hform, if_neg, hDj]
      rintro ⟨h1, _⟩
      rw [hDj] at h1
      exact hcne h1
    have hjlt : j < (st.splitStep hashFn targetId).dir.length := by rw [s2]; exact hjD
    rw [← hval]
    exact getD_mem_of_lt _ _ hjlt
  have hbt : (st.splitStep hashFn targetId).bucketOf targetId =
      ⟨tb.size, tb.depth + 1,
        tb.list.filter (fun p => decide ((hashFn p.1) &&& (1 <<< tb.depth) = 0))⟩ := by
    unfold ExtendibleHashTable.bucketOf
    rw [s4]
    rfl
  have hbn : (st.splitStep hashFn targetId).bucketOf st.next_id =
      ⟨st.bucket_size, tb.depth + 1,
        tb.list.filter (fun p => decide (¬ (hashFn p.1) &&& (1 <<< tb.depth) = 0))⟩ := by
    unfold ExtendibleHashTable.bucketOf
    rw [s5]
    rfl
  have hbtl : ((st.splitStep hashFn targetId).bucketOf targetId).list =
      tb.list.filter (fun p => decide ((hashFn p.1) &&& (1 <<< tb.depth) = 0)) := by
    rw [hbt]
  have hbnl : ((st.splitStep hashFn targetId).bucketOf st.next_id).list =
      tb.list.filter (fun p => decide (¬ (hashFn p.1) &&& (1 <<< tb.depth) = 0)) := by
    rw [hbn]
  have hbtd : ((st.splitStep hashFn targetId).bucketOf targetId).depth = tb.depth + 1 := by
    rw [hbt]
  have hbnd : ((st.splitStep hashFn targetId).bucketOf st.next_id).depth =
      tb.depth + 1 := by
    rw [hbn]
  have hbts : ((st.splitStep hashFn targetId).bucketOf targetId).size = tb.size := by
    rw [hbt]
  have hbns : ((st.splitStep hashFn targetId).bucketOf st.next_id).size =
      st.bucket_size := by
    rw [hbn]
  have hbext : ∀ c, c ≠ targetId → c ≠ st.next_id →
      (st.splitStep hashFn targetId).bucketOf c = st.bucketOf c := by
    intro c h1 h2
    exact ExtendibleHashTable.bucketOf_ext st _ c (s6 c h1 h2) f3
  have hF0live :
      tb.list.filter (fun p => decide ((hashFn p.1) &&& (1 <<< tb.depth) = 0)) ≠ [] →
      targetId ∈ (st.splitStep hashFn targetId).dir := by
    intro hne
    obtain ⟨p, hp⟩ := List.exists_mem_of_ne_nil _ hne
    have hpl : p ∈ tb.list := List.mem_of_mem_filter hp
    have hbit : (hashFn p.1) &&& (1 <<< tb.depth) = 0 := by
      have h := List.of_mem_filter hp
      simpa using h
    have h8 := s8 p hpl
    rw [if_pos hbit] at h8
    have hlt := ExtendibleHashTable.IndexOf_lt hashFn (st.splitStep hashFn targetId)
      p.1 hwfP
    have hg := getD_mem_of_lt _ _ hlt
    rw [h8] at hg
    exact hg
  have hF1live :
      tb.list.filter (fun p => decide (¬ (hashFn p.1) &&& (1 <<< tb.depth) = 0)) ≠ [] →
      st.next_id ∈ (st.splitStep hashFn targetId).dir := by
    intro hne
    obtain ⟨p, hp⟩ := List.exists_mem_of_ne_nil _ hne
    have hpl : p ∈ tb.list := List.mem_of_mem_filter hp
    have hbit : ¬ (hashFn p.1) &&& (1 <<< tb.depth) = 0 := by
      have h := List.of_mem_filter hp
      simpa using h
    have h8 := s8 p hpl
    rw [if_neg hbit] at h8
    have hlt := ExtendibleHashTable.IndexOf_lt hashFn (st.splitStep hashFn targetId)
      p.1 hwfP
    have hg := getD_mem_of_lt _ _ hlt
    rw [h8] at hg
    exact hg
  have hperm : (st.splitStep hashFn targetId).allItems.Perm st.allItems := by
    have hTNsplit := List.filter_append_perm
      (fun c => decide (c = targetId ∨ c = st.next_id))
      (st.splitStep hashFn targetId).liveIds
    have hA := List.filter_append_perm (fun c => decide (c = targetId)) st.liveIds
    have htIn : targetId ∈ st.liveIds := (st.mem_liveIds targetId).mpr ⟨htlt, hmem⟩
    have hsing : st.liveIds.filter (fun c => decide (c = targetId)) = [targetId] :=
      filter_eq_singleton st.liveIds targetId st.liveIds_nodup htIn
    rw [hsing] at hA
    have hD : (tb.list ++ (st.liveIds.filter
        (fun x => !(decide (x = targetId)))).flatMap
        (fun b => (st.bucketOf b).list)).Perm
        (st.liveIds.flatMap (fun b => (st.bucketOf b).list)) := by
      have h := hA.flatMap_right (fun b => (st.bucketOf b).list)
      rw [List.flatMap_append] at h
      simp only [List.flatMap_cons, List.flatMap_nil, List.append_nil, hbOf] at h
      exact h
    have hAnodupP : ((st.splitStep hashFn targetId).liveIds.filter
        (fun x => !(decide (x = targetId ∨ x = st.next_id)))).Nodup :=
      (st.splitStep hashFn targetId).liveIds_nodup.filter _
    have hAnodup : (st.liveIds.filter (fun x => !(decide (x = targetId)))).Nodup :=
      st.liveIds_nodup.filter _
    have hAA : ((st.splitStep hashFn targetId).liveIds.filter
        (fun x => !(decide (x = targetId ∨ x = st.next_id)))).Perm
        (st.liveIds.filter (fun x => !(decide (x = targetId)))) := by
      rw [List.perm_ext_iff_of_nodup hAnodupP hAnodup]
      intro c
      rw [List.mem_filter, List.mem_filter, ExtendibleHashTable.mem_liveIds,
        ExtendibleHashTable.mem_liveIds, f4]
      simp only [Bool.not_eq_true', decide_eq_false_iff_not, not_or]
      constructor
      · rintro ⟨⟨hlt1, hdir1⟩, hct, hcn⟩
        rcases hM1 c hdir1 with h | h
        · exact absurd h hcn
        · exact ⟨⟨hinv.dir_lt c h, h⟩, hct⟩
      · rintro ⟨⟨hlt1, hdir1⟩, hct⟩
        exact ⟨⟨by omega, hM2 c hdir1 hct⟩, hct, by omega⟩
    have hA2 : (((st.splitStep hashFn targetId).liveIds.filter
        (fun x => !(decide (x = targetId ∨ x = st.next_id)))).flatMap
        (fun b => ((st.splitStep hashFn targetId).bucketOf b).list)).Perm
        ((st.liveIds.filter (fun x => !(decide (x = targetId)))).flatMap
        (fun b => (st.bucketOf b).list)) := by
      have heq : ((st.splitStep hashFn targetId).liveIds.filter
          (fun x => !(decide (x = targetId ∨ x = st.next_id)))).flatMap
          (fun b => ((st.splitStep hashFn targetId).bucketOf b).list) =
          ((st.splitStep hashFn targetId).liveIds.filter
          (fun x => !(decide (x = targetId ∨ x = st.next_id)))).flatMap
          (fun b => (st.bucketOf b).list) := by
        refine flatMap_congr _ _ _ (fun c hc => ?_)
        have hpc := List.of_mem_filter hc
        simp only [Bool.not_eq_true', decide_eq_false_iff_not, not_or] at hpc
        rw [hbext c hpc.1 hpc.2]
      rw [heq]
      exact hAA.flatMap_right _
    have hTNperm : ((st.splitStep hashFn targetId).liveIds.filter
        (fun c => decide (c = targetId ∨ c = st.next_id))).Perm
        ((if targetId ∈ (st.splitStep hashFn targetId).dir then [targetId] else []) ++
         (if st.next_id ∈ (st.splitStep hashFn targetId).dir then [st.next_id]
          else [])) := by
      have hnd1 : ((st.splitStep hashFn targetId).liveIds.filter
          (fun c => decide (c = targetId ∨ c = st.next_id))).Nodup :=
        (st.splitStep hashFn targetId).liveIds_nodup.filter _
      have hnd2 : ((if targetId ∈ (st.splitStep hashFn targetId).dir then [targetId]
          else []) ++
          (if st.next_id ∈ (st.splitStep hashFn targetId).dir then [st.next_id]
           else [])).Nodup := by
        by_cases h1 : targetId ∈ (st.splitStep hashFn targetId).dir <;>
          by_cases h2 : st.next_id ∈ (st.splitStep hashFn targetId).dir <;>
            simp [h1, h2] <;> omega
      rw [List.perm_ext_iff_of_nodup hnd1 hnd2]
      intro c
      rw [List.mem_filter, ExtendibleHashTable.mem_liveIds, f4, List.mem_append]
      constructor
      · rintro ⟨⟨hlt1, hdir1⟩, hpc⟩
        simp only [decide_eq_true_eq] at hpc
        rcases hpc with h | h
        · subst h
          left
          rw [if_pos hdir1]
          exact List.mem_singleton.mpr rfl
        · subst h
          right
          rw [if_pos hdir1]
          exact List.mem_singleton.mpr rfl
      · intro hc
        rcases hc with hc | hc
        · by_cases h1 : targetId ∈ (st.splitStep hashFn targetId).dir
          · rw [if_pos h1] at hc
            have hce : c = targetId := List.mem_singleton.mp hc
            subst hce
            exact ⟨⟨by omega, h1⟩, by simp⟩
          · rw [if_neg h1] at hc
            exact absurd hc (List.not_mem_nil c)
        · by_cases h2 : st.next_id ∈ (st.splitStep hashFn targetId).dir
          · rw [if_pos h2] at hc
            have hce : c = st.next_id := List.mem_singleton.mp hc
            subst hce
            exact ⟨⟨by omega, h2⟩, by simp⟩
          · rw [if_neg h2] at hc
            exact absurd hc (List.not_mem_nil c)
    have hTN : (((st.splitStep hashFn targetId).liveIds.filter
        (fun c => decide (c = targetId ∨ c = st.next_id))).flatMap
        (fun b => ((st.splitStep hashFn targetId).bucketOf b).list)).Perm tb.list := by
      refine (hTNperm.flatMap_right _).trans ?_
      rw [List.flatMap_append]
      have hres : ((if targetId ∈ (st.splitStep hashFn targetId).dir then [targetId]
            else []).flatMap
            (fun b => ((st.splitStep hashFn targetId).bucketOf b).list)) ++
          ((if st.next_id ∈ (st.splitStep hashFn targetId).dir then [st.next_id]
            else []).flatMap
            (fun b => ((st.splitStep hashFn targetId).bucketOf b).list)) =
          tb.list.filter (fun p => decide ((hashFn p.1) &&& (1 <<< tb.depth) = 0)) ++
          tb.list.filter (fun p => decide (¬ (hashFn p.1) &&& (1 <<< tb.depth) = 0)) := by
        by_cases h1 : targetId ∈ (st.splitStep hashFn targetId).dir <;>
          by_cases h2 : st.next_id ∈ (st.splitStep hashFn targetId).dir
        · rw [if_pos h1, if_pos h2]
          simp only [List.flatMap_cons, List.flatMap_nil, List.append_nil]
          rw [hbtl, hbnl]
        · have hF1 : tb.list.filter
              (fun p => decide (¬ (hashFn p.1) &&& (1 <<< tb.depth) = 0)) = [] := by
            by_contra hne
            exact h2 (hF1live hne)
          rw [if_pos h1, if_neg h2]
          simp only [List.flatMap_cons, List.flatMap_nil, List.append_nil]
          rw [hbtl, hF1, List.append_nil]
        · have hF0 : tb.list.filter
              (fun p => decide ((hashFn p.1) &&& (1 <<< tb.depth) = 0)) = [] := by
            by_contra hne
            exact h1 (hF0live hne)
          rw [if_neg h1, if_pos h2]
          simp only [List.flatMap_cons, List.flatMap_nil, List.append_nil,
            List.nil_append]
          rw [hbnl, hF0, List.nil_append]
        · have hF0 : tb.list.filter
              (fun p => decide ((hashFn p.1) &&& (1 <<< tb.depth) = 0)) = [] := by
            by_contra hne
            exact h1 (hF0live hne)
          have hF1 : tb.list.filter
              (fun p => decide (¬ (hashFn p.1) &&& (1 <<< tb.depth) = 0)) = [] := by
            by_contra hne
            exact h2 (hF1live hne)
          rw [if_neg h1, if_neg h2]
          simp only [List.flatMap_nil, List.nil_append]
          rw [hF0, hF1, List.nil_append]
      rw [hres]
      have hfp := List.filter_append_perm
        (fun p : K × V => decide ((hashFn p.1) &&& (1 <<< tb.depth) = 0)) tb.list
      simp only [decide_not]
      exact hfp
    unfold ExtendibleHashTable.allItems
    refine ((hTNsplit.flatMap_right _).symm).trans ?_
    rw [List.flatMap_append]
    exact (hTN.append hA2).trans hD
  refine ⟨⟨hwfP, ?_, ?_, ?_, ?_, ?_, ?_, ?_⟩, hperm⟩
  · intro b hb
    rw [f4]
    rcases hM1 b hb with h | h
    · omega
    · have := hinv.dir_lt b h; omega
  · intro b hb
    by_cases hb1 : b = targetId
    · subst hb1; rw [s4]; rfl
    · by_cases hb2 : b = st.next_id
      · subst hb2; rw [s5]; rfl
      · rw [s6 b hb1 hb2]
        rcases hM1 b hb with h | h
        · exact absurd h hb2
        · exact hinv.dir_live b h
  · intro b hb
    have hgdP : st.global_depth ≤ (st.splitStep hashFn targetId).global_depth := by
      rw [s1]
      by_cases hd : tb.depth = st.global_depth
      · rw [if_pos hd]; omega
      · rw [if_neg hd]
    have hdltP : tb.depth + 1 ≤ (st.splitStep hashFn targetId).global_depth := by
      rw [s1]
      by_cases hd : tb.depth = st.global_depth
      · rw [if_pos hd]; omega
      · rw [if_neg hd]; omega
    by_cases hb1 : b = targetId
    · subst hb1; rw [hbtd]; exact hdltP
    · by_cases hb2 : b = st.next_id
      · subst hb2; rw [hbnd]; exact hdltP
      · rw [hbext b hb1 hb2]
        rcases hM1 b hb with h | h
        · exact absurd h hb2
        · exact le_trans (hinv.depth_le b h) hgdP
  · intro b hb
    rw [f3]
    by_cases hb1 : b = targetId
    · subst hb1; rw [hbtl]
      exact le_trans (List.length_filter_le _ _) hsize
    · by_cases hb2 : b = st.next_id
      · subst hb2; rw [hbnl]
        exact le_trans (List.length_filter_le _ _) hsize
      · rw [hbext b hb1 hb2]
        rcases hM1 b hb with h | h
        · exact absurd h hb2
        · exact hinv.sizes b h
  · intro b hb
    rw [f3]
    by_cases hb1 : b = targetId
    · subst hb1; rw [hbts]; exact hcap
    · by_cases hb2 : b = st.next_id
      · subst hb2; rw [hbns]
      · rw [hbext b hb1 hb2]
        rcases hM1 b hb with h | h
        · exact absurd h hb2
        · exact hinv.caps b h
  · exact ((hperm.map Prod.fst).nodup_iff).mpr hinv.keys_nodup
  · intro b hb p hp
    by_cases hb1 : b = targetId
    · subst hb1
      rw [hbtl] at hp
      have hpl : p ∈ tb.list := List.mem_of_mem_filter hp
      have hbit : (hashFn p.1) &&& (1 <<< tb.depth) = 0 := by
        have h := List.of_mem_filter hp
        simpa using h
      have h8 := s8 p hpl
      rw [if_pos hbit] at h8
      exact h8
    · by_cases hb2 : b = st.next_id
      · subst hb2
        rw [hbnl] at hp
        have hpl : p ∈ tb.list := List.mem_of_mem_filter hp
        have hbit : ¬ (hashFn p.1) &&& (1 <<< tb.depth) = 0 := by
          have h := List.of_mem_filter hp
          simpa using h
        have h8 := s8 p hpl
        rw [if_neg hbit] at h8
        exact h8
      · rw [hbext b hb1 hb2] at hp
        rcases hM1 b hb with h | h
        · exact absurd h hb2
        · exact s9 p.1 b hb1 (hinv.belongs b h p hp)

/-- Inserting an element in the middle of a concatenation is a permutation
of pushing it at the front. -/
theorem perm_insert_middle {A : Type} (l1 lm l2 : List A) (a : A) :
    (l1 ++ ((lm ++ [a]) ++ l2)).Perm (a :: (l1 ++ (lm ++ l2))) := by
  have h1 : l1 ++ ((lm ++ [a]) ++ l2) = (l1 ++ lm) ++ a :: l2 := by simp
  have h2 : a :: (l1 ++ (lm ++ l2)) = a :: ((l1 ++ lm) ++ l2) := by simp
  rw [h1, h2]
  exact List.perm_middle

/-- A successful `Insert` of a key absent from the table preserves the
structural invariant and prepends exactly the new pair to the stored
entries (up to permutation). -/
theorem ExtendibleHashTable.InsertFuel_fresh [DecidableEq K] (hashFn : K → Nat) :
    ∀ (fuel : Nat) (st st2 : ExtendibleHashTable K V) (k : K) (v : V),
    ExtendibleHashTable.TInv hashFn st →
    (∀ w, (k, w) ∉ st.allItems) →
    ExtendibleHashTable.InsertFuel hashFn fuel st k v = some st2 →
    ExtendibleHashTable.TInv hashFn st2 ∧ st2.allItems.Perm ((k, v) :: st.allItems) := by
  intro fuel
  induction fuel with
  | zero =>
    intro st st2 k v _ _ h
    exact absurd h (by simp [ExtendibleHashTable.InsertFuel])
  | succ fuel ih =>
    intro st st2 k v hinv hfresh h
    rw [ExtendibleHashTable.InsertFuel] at h
    have hlt : ExtendibleHashTable.IndexOf hashFn st k < st.dir.length :=
      ExtendibleHashTable.IndexOf_lt hashFn st k hinv.wf
    set tId := st.dir.getD (ExtendibleHashTable.IndexOf hashFn st k) 0 with htId
    have htmem : tId ∈ st.dir := by
      rw [htId]
      exact getD_mem_of_lt _ _ hlt
    rcases hins : (st.bucketOf tId).Insert k v with _ | b2
    · rw [hins] at h
      obtain ⟨hinv2, hperm2⟩ := ExtendibleHashTable.splitStep_TInv hashFn st hinv tId htmem
      have hfresh2 : ∀ w, (k, w) ∉ (st.splitStep hashFn tId).allItems := by
        intro w hw
        exact hfresh w (hperm2.mem_iff.mp hw)
      obtain ⟨hinv3, hperm3⟩ := ih _ st2 k v hinv2 hfresh2 h
      exact ⟨hinv3, hperm3.trans (hperm2.cons (k, v))⟩
    · rw [hins] at h
      obtain rfl := Option.some.inj h
      rcases hany : (st.bucketOf tId).list.any (fun p => decide (p.1 = k)) with _ | _
      · rcases hfull : (st.bucketOf tId).IsFull with _ | _
        · simp only [Bucket.Insert, hany, hfull, Bool.false_eq_true, if_false] at hins
          obtain hb2 := Option.some.inj hins
          subst hb2
          obtain ⟨l1, l2, hdec, hupd, hprov⟩ :=
            st.allItems_decomp tId htmem (hinv.dir_lt tId htmem)
          have hperm2 : (st.updateBucket tId
              { st.bucketOf tId with list := (st.bucketOf tId).list ++ [(k, v)] }).allItems.Perm
              ((k, v) :: st.allItems) := by
            rw [hupd _, hdec]
            exact perm_insert_middle l1 (st.bucketOf tId).list l2 (k, v)
          have hnf : ¬ ((st.bucketOf tId).size ≤ (st.bucketOf tId).list.length) := by
            simpa [Bucket.IsFull] using hfull
          have hcap2 := hinv.caps tId htmem
          have hknotin : k ∉ st.allItems.map Prod.fst := by
            intro hk
            obtain ⟨q, hq, hqk⟩ := List.mem_map.mp hk
            rcases q with ⟨qk, qv⟩
            have hqk2 : qk = k := hqk
            subst hqk2
            exact hfresh qv hq
          refine ⟨⟨hinv.wf, ?_, ?_, ?_, ?_, ?_, ?_, ?_⟩, hperm2⟩
          · intro b hb
            exact hinv.dir_lt b hb
          · intro b hb
            show (lookupStore (updateStore st.store tId
              { st.bucketOf tId with list := (st.bucketOf tId).list ++ [(k, v)] }) b).isSome
                = true
            rw [lookupStore_updateStore]
            by_cases hbt2 : b = tId
            · rw [if_pos hbt2]; rfl
            · rw [if_neg hbt2]; exact hinv.dir_live b hb
          · intro b hb
            rw [ExtendibleHashTable.bucketOf_updateBucket]
            by_cases hbt2 : b = tId
            · rw [if_pos hbt2]
              exact hinv.depth_le tId htmem
            · rw [if_neg hbt2]
              exact hinv.depth_le b hb
          · intro b hb
            rw [ExtendibleHashTable.bucketOf_updateBucket]
            by_cases hbt2 : b = tId
            · rw [if_pos hbt2]
              show ((st.bucketOf tId).list ++ [(k, v)]).length ≤ st.bucket_size
              rw [List.length_append]
              simp only [List.length_singleton]
              omega
            · rw [if_neg hbt2]
              exact hinv.sizes b hb
          · intro b hb
            rw [ExtendibleHashTable.bucketOf_updateBucket]
            by_cases hbt2 : b = tId
            · rw [if_pos hbt2]
              exact hinv.caps tId htmem
            · rw [if_neg hbt2]
              exact hinv.caps b hb
          · exact ((hperm2.map Prod.fst).nodup_iff).mpr
              (by rw [List.map_cons]; exact List.nodup_cons.mpr ⟨hknotin, hinv.keys_nodup⟩)
          · intro b hb p hp
            rw [ExtendibleHashTable.bucketOf_updateBucket] at hp
            show st.dir.getD (ExtendibleHashTable.IndexOf hashFn st p.1) 0 = b
            by_cases hbt2 : b = tId
            · subst hbt2
              rw [if_pos rfl] at hp
              have hp2 : p ∈ (st.bucketOf tId).list ++ [(k, v)] := hp
              rcases List.mem_append.mp hp2 with hp3 | hp3
              · exact hinv.belongs tId htmem p hp3
              · have hpe : p = (k, v) := List.mem_singleton.mp hp3
                subst hpe
                exact htId.symm
            · rw [if_neg hbt2] at hp
              exact hinv.belongs b hb p hp
        · simp [Bucket.Insert, hany, hfull] at hins
      · obtain ⟨p, hp, hpk⟩ := List.any_eq_true.mp hany
        rw [decide_eq_true_eq] at hpk
        rcases p with ⟨pk, pv⟩
        have hpk2 : pk = k := hpk
        subst hpk2
        exact absurd ((st.mem_allItems (pk, pv)).mpr
          ⟨tId, htmem, hinv.dir_lt tId htmem, hp⟩) (hfresh pv)

/-- `ExtendibleHashTable::Remove` on an invariant-satisfying state: the
invariant is preserved, exactly the pairs carrying the key are erased, and
the returned flag says whether any pair carried the key. -/
theorem ExtendibleHashTable.Remove_spec [DecidableEq K] (hashFn : K → Nat)
    (st : ExtendibleHashTable K V) (hinv : ExtendibleHashTable.TInv hashFn st) (k : K) :
    ExtendibleHashTable.TInv hashFn (ExtendibleHashTable.Remove hashFn st k).1 ∧
    (ExtendibleHashTable.Remove hashFn st k).1.allItems =
      st.allItems.filter (fun p => decide (¬ p.1 = k)) ∧
    ((ExtendibleHashTable.Remove hashFn st k).2 = true ↔ ∃ v, (k, v) ∈ st.allItems) := by
  have hlt : ExtendibleHashTable.IndexOf hashFn st k < st.dir.length :=
    ExtendibleHashTable.IndexOf_lt hashFn st k hinv.wf
  set bid := st.dir.getD (ExtendibleHashTable.IndexOf hashFn st k) 0 with hbid
  have hbmem : bid ∈ st.dir := by
    rw [hbid]
    exact getD_mem_of_lt _ _ hlt
  have hrem : ExtendibleHashTable.Remove hashFn st k =
      (st.updateBucket bid { st.bucketOf bid with
          list := (st.bucketOf bid).list.filter (fun p => decide (¬ p.1 = k)) },
       (st.bucketOf bid).list.any (fun p => decide (p.1 = k))) := by
    unfold ExtendibleHashTable.Remove Bucket.Remove
    rw [if_neg (by omega)]
  have h1 : (ExtendibleHashTable.Remove hashFn st k).1 = st.updateBucket bid
      { st.bucketOf bid with
        list := (st.bucketOf bid).list.filter (fun p => decide (¬ p.1 = k)) } := by
    rw [hrem]
  have h2 : (ExtendibleHashTable.Remove hashFn st k).2 =
      (st.bucketOf bid).list.any (fun p => decide (p.1 = k)) := by
    rw [hrem]
  obtain ⟨l1, l2, hdec, hupd, hprov⟩ := st.allItems_decomp bid hbmem (hinv.dir_lt bid hbmem)
  have houtside : ∀ p, p ∈ l1 ++ l2 → ¬ p.1 = k := by
    intro p hp hpk
    obtain ⟨c, hc, hcb, hpc⟩ := hprov p hp
    have hbel := hinv.belongs c hc p hpc
    rw [hpk] at hbel
    exact hcb (by rw [hbid]; exact hbel.symm)
  have hfilter : st.allItems.filter (fun p => decide (¬ p.1 = k)) =
      l1 ++ ((st.bucketOf bid).list.filter (fun p => decide (¬ p.1 = k)) ++ l2) := by
    rw [hdec, List.filter_append, List.filter_append]
    have hl1 : l1.filter (fun p => decide (¬ p.1 = k)) = l1 :=
      List.filter_eq_self.mpr (fun a ha => by
        simp only [decide_eq_true_eq]
        exact houtside a (List.mem_append_left l2 ha))
    have hl2 : l2.filter (fun p => decide (¬ p.1 = k)) = l2 :=
      List.filter_eq_self.mpr (fun a ha => by
        simp only [decide_eq_true_eq]
        exact houtside a (List.mem_append_right l1 ha))
    rw [hl1, hl2]
  have hitems : (ExtendibleHashTable.Remove hashFn st k).1.allItems =
      st.allItems.filter (fun p => decide (¬ p.1 = k)) := by
    rw [h1, hupd _, hfilter]
  have hflag : ((ExtendibleHashTable.Remove hashFn st k).2 = true ↔
      ∃ v, (k, v) ∈ st.allItems) := by
    rw [h2]
    constructor
    · intro h
      obtain ⟨p, hp, hpk⟩ := List.any_eq_true.mp h
      rw [decide_eq_true_eq] at hpk
      rcases p with ⟨pk, pv⟩
      have hpk2 : pk = k := hpk
      subst hpk2
      exact ⟨pv, (st.mem_allItems (pk, pv)).mpr ⟨bid, hbmem, hinv.dir_lt bid hbmem, hp⟩⟩
    · rintro ⟨v, hv⟩
      obtain ⟨b, hb, hblt, hq⟩ := (st.mem_allItems (k, v)).mp hv
      have hbel := hinv.belongs b hb (k, v) hq
      have hbb : b = bid := by
        rw [hbid]
        exact hbel.symm
      subst hbb
      exact List.any_eq_true.mpr ⟨(k, v), hq, by simp⟩
  refine ⟨?_, hitems, hflag⟩
  rw [h1]
  refine ⟨hinv.wf, ?_, ?_, ?_, ?_, ?_, ?_, ?_⟩
  · intro b hb
    exact hinv.dir_lt b hb
  · intro b hb
    show (lookupStore (updateStore st.store bid { st.bucketOf bid with
        list := (st.bucketOf bid).list.filter (fun p => decide (¬ p.1 = k)) }) b).isSome
        = true
    rw [lookupStore_updateStore]
    by_cases hbt2 : b = bid
    · rw [if_pos hbt2]; rfl
    · rw [if_neg hbt2]; exact hinv.dir_live b hb
  · intro b hb
    rw [ExtendibleHashTable.bucketOf_updateBucket]
    by_cases hbt2 : b = bid
    · rw [if_pos hbt2]
      exact hinv.depth_le bid hbmem
    · rw [if_neg hbt2]
      exact hinv.depth_le b hb
  · intro b hb
    rw [ExtendibleHashTable.bucketOf_updateBucket]
    by_cases hbt2 : b = bid
    · rw [if_pos hbt2]
      exact le_trans (List.length_filter_le _ _) (hinv.sizes bid hbmem)
    · rw [if_neg hbt2]
      exact hinv.sizes b hb
  · intro b hb
    rw [ExtendibleHashTable.bucketOf_updateBucket]
    by_cases hbt2 : b = bid
    · rw [if_pos hbt2]
      exact hinv.caps bid hbmem
    · rw [if_neg hbt2]
      exact hinv.caps b hb
  · have hsub : ((st.updateBucket bid { st.bucketOf bid with
        list := (st.bucketOf bid).list.filter
          (fun p => decide (¬ p.1 = k)) }).allItems.map Prod.fst).Sublist
        (st.allItems.map Prod.fst) := by
      rw [show (st.updateBucket bid { st.bucketOf bid with
        list := (st.bucketOf bid).list.filter
          (fun p => decide (¬ p.1 = k)) }).allItems =
        st.allItems.filter (fun p => decide (¬ p.1 = k)) from (h1 ▸ hitems)]
      exact (List.filter_sublist _).map Prod.fst
    exact hinv.keys_nodup.sublist hsub
  · intro b hb p hp
    rw [ExtendibleHashTable.bucketOf_updateBucket] at hp
    show st.dir.getD (ExtendibleHashTable.IndexOf hashFn st p.1) 0 = b
    by_cases hbt2 : b = bid
    · subst hbt2
      rw [if_pos rfl] at hp
      exact hinv.belongs bid hbmem p (List.mem_of_mem_filter hp)
    · rw [if_neg hbt2] at hp
      exact hinv.belongs b hb p hp

theorem getD_replicate {A : Type} (a : A) : ∀ (m i : Nat),
    (List.replicate m a).getD i a = a := by
  intro m
  induction m with
  | zero => intro i; rfl
  | succ m ih =>
    intro i
    cases i with
    | zero => rfl
    | succ j => exact ih j

theorem getD_set_self {A : Type} (l : List A) (i : Nat) (a d : A) (h : i < l.length) :
    (l.set i a).getD i d = a := by
  rw [List.getD_eq_getElem?_getD]
  simp [List.getElem?_set_self, h]

theorem getD_set_ne {A : Type} (l : List A) (i j : Nat) (a d : A) (h : i ≠ j) :
    (l.set i a).getD j d = l.getD j d := by
  rw [List.getD_eq_getElem?_getD, List.getD_eq_getElem?_getD, List.getElem?_set_ne h]

theorem getLast?_decomp {A : Type} (l : List A) (a : A) (h : l.getLast? = some a) :
    l.dropLast ++ [a] = l := by
  have hne : l ≠ [] := by intro he; rw [he] at h; simp at h
  have h3 := List.getLast?_eq_getLast l hne
  rw [h] at h3
  rw [show a = l.getLast hne from Option.some.inj h3]
  exact List.dropLast_append_getLast hne

theorem getLast_not_mem_dropLast {A : Type} (l : List A) (a : A)
    (h : l.getLast? = some a) (hnd : l.Nodup) : a ∉ l.dropLast := by
  have hd := getLast?_decomp l a h
  rw [← hd] at hnd
  rcases List.nodup_append.mp hnd with ⟨_, _, hdisj⟩
  intro ha
  exact hdisj ha (List.mem_singleton.mpr rfl)

theorem getLast?_mem {A : Type} (l : List A) (a : A) (h : l.getLast? = some a) :
    a ∈ l := by
  rw [← getLast?_decomp l a h]
  exact List.mem_append_right _ (List.mem_singleton.mpr rfl)

/-- Any victim the scan loop of `Evict` reports is the running candidate or
one of the scanned frames. -/
theorem evictScan_result_mem (r : LRUKReplacer) (v : Nat) :
    ∀ (l : List Nat) (md : Nat) (vic : Option Nat) (vt : Nat),
    evictScan r l md vic vt = some (some v) → vic = some v ∨ v ∈ l := by
  intro l
  induction l with
  | nil =>
    intro md vic vt h
    simp only [evictScan, Option.some.injEq] at h
    exact Or.inl (by rw [h])
  | cons f rest ih =>
    intro md vic vt h
    rw [evictScan] at h
    by_cases hub : (r.k ≤ (r.historyOf f).length ∧
        ¬ (r.historyOf f).length - r.k < (r.historyOf f).length)
    · rw [if_pos hub] at h
      exact absurd h (by simp)
    · rw [if_neg hub] at h
      by_cases h1 : md < r.codeDist f
      · rw [if_pos h1] at h
        rcases hh : r.historyOf f with _ | ⟨t, hs⟩
        · simp only [hh] at h
          exact absurd h (by simp)
        · simp only [hh] at h
          rcases ih _ _ _ h with hv | hv
          · have hfv := Option.some.inj hv
            exact Or.inr (by rw [← hfv]; exact List.mem_cons_self f rest)
          · exact Or.inr (List.mem_cons_of_mem f hv)
      · rw [if_neg h1] at h
        by_cases h2 : r.codeDist f = md
        · rw [if_pos h2] at h
          rcases hh : r.historyOf f with _ | ⟨t, hs⟩
          · simp only [hh] at h
            exact absurd h (by simp)
          · simp only [hh] at h
            by_cases h3 : t < vt
            · rw [if_pos h3] at h
              rcases ih _ _ _ h with hv | hv
              · have hfv := Option.some.inj hv
                exact Or.inr (by rw [← hfv]; exact List.mem_cons_self f rest)
              · exact Or.inr (List.mem_cons_of_mem f hv)
            · rw [if_neg h3] at h
              rcases ih _ _ _ h with hv | hv
              · exact Or.inl hv
              · exact Or.inr (List.mem_cons_of_mem f hv)
        · rw [if_neg h2] at h
          rcases ih _ _ _ h with hv | hv
          · exact Or.inl hv
          · exact Or.inr (List.mem_cons_of_mem f hv)

/-- A successful eviction returns an evictable frame and erases exactly its
evictability (and history). -/
theorem LRUKReplacer.Evict_some_spec (r : LRUKReplacer) (v : Nat) (rep : LRUKReplacer)
    (h : r.Evict = some (some v, rep)) :
    v ∈ r.evictable_frames ∧
    rep.evictable_frames = r.evictable_frames.erase v ∧
    rep.replacer_size = r.replacer_size := by
  unfold LRUKReplacer.Evict at h
  rcases hs : evictScan r r.evictable_frames 0 none SIZE_MAX with _ | ov
  · rw [hs] at h
    exact absurd h (by simp)
  · simp only [hs] at h
    rcases ov with _ | victim
    · exact absurd h (by simp)
    · have h2 := Option.some.inj h
      rw [Prod.mk.injEq] at h2
      obtain ⟨ha, hb⟩ := h2
      have hvv := Option.some.inj ha
      subst hvv
      refine ⟨?_, by rw [← hb], by rw [← hb]⟩
      rcases evictScan_result_mem r victim _ _ _ _ hs with h3 | h3
      · exact absurd h3 (by simp)
      · exact h3

/-- `Evict` that finds no victim leaves the replacer unchanged. -/
theorem LRUKReplacer.Evict_none_spec (r : LRUKReplacer) (rep : LRUKReplacer)
    (h : r.Evict = some (none, rep)) : rep = r := by
  unfold LRUKReplacer.Evict at h
  rcases hs : evictScan r r.evictable_frames 0 none SIZE_MAX with _ | ov
  · rw [hs] at h
    exact absurd h (by simp)
  · simp only [hs] at h
    rcases ov with _ | victim
    · have h2 := Option.some.inj h
      rw [Prod.mk.injEq] at h2
      exact h2.2.symm
    · have h2 := Option.some.inj h
      rw [Prod.mk.injEq] at h2
      exact absurd h2.1 (by simp)

/-- `RecordAccess` never changes the evictable set or the capacity. -/
theorem LRUKReplacer.RecordAccess_fields (r : LRUKReplacer) (f : Nat) :
    (r.RecordAccess f).evictable_frames = r.evictable_frames ∧
    (r.RecordAccess f).replacer_size = r.replacer_size := by
  unfold LRUKReplacer.RecordAccess
  by_cases h1 : r.replacer_size ≤ f
  · simp only [if_pos h1]
    exact ⟨by simp, by simp⟩
  · simp only [if_neg h1]
    rcases hl : histLookup r.access_history f with _ | hh
    · simp only [hl]
      exact ⟨by simp, by simp⟩
    · simp only [hl]
      exact ⟨by simp, by simp⟩

/-- `SetEvictable(f, false)` only shrinks the evictable set. -/
theorem LRUKReplacer.SetEvictable_false_fields (r : LRUKReplacer) (f : Nat) :
    (r.SetEvictable f false).replacer_size = r.replacer_size ∧
    (∀ g ∈ (r.SetEvictable f false).evictable_frames, g ∈ r.evictable_frames) ∧
    (r.evictable_frames.Nodup → (r.SetEvictable f false).evictable_frames.Nodup) := by
  unfold LRUKReplacer.SetEvictable
  by_cases h1 : r.replacer_size ≤ f
  · simp only [if_pos h1]
    exact ⟨by simp, fun g hg => hg, fun h => h⟩
  · simp only [if_neg h1, Bool.false_eq_true, if_false]
    by_cases h2 : f ∈ r.evictable_frames
    · simp only [if_pos h2]
      exact ⟨by simp, fun g hg => List.mem_of_mem_erase hg, fun h => h.erase f⟩
    · simp only [if_neg h2]
      exact ⟨by simp, fun g hg => hg, fun h => h⟩

/-- `SetEvictable(f, true)` at most adds `f` to the evictable set. -/
theorem LRUKReplacer.SetEvictable_true_fields (r : LRUKReplacer) (f : Nat) :
    (r.SetEvictable f true).replacer_size = r.replacer_size ∧
    (∀ g ∈ (r.SetEvictable f true).evictable_frames,
      g ∈ r.evictable_frames ∨ g = f) ∧
    (r.evictable_frames.Nodup → (r.SetEvictable f true).evictable_frames.Nodup) := by
  unfold LRUKReplacer.SetEvictable
  by_cases h1 : r.replacer_size ≤ f
  · simp only [if_pos h1]
    exact ⟨by simp, fun g hg => Or.inl hg, fun h => h⟩
  · simp only [if_neg h1, if_true]
    by_cases h2 : f ∈ r.evictable_frames
    · simp only [if_pos h2]
      exact ⟨by simp, fun g hg => Or.inl hg, fun h => h⟩
    · simp only [if_neg h2]
      refine ⟨by simp, fun g hg => ?_, fun hnd => ?_⟩
      · rcases List.mem_append.mp hg with h | h
        · exact Or.inl h
        · exact Or.inr (List.mem_singleton.mp h)
      · refine hnd.append (List.nodup_singleton f) ?_
        intro a ha haf
        rw [List.mem_singleton.mp haf] at ha
        exact h2 ha

/-- `LRUKReplacer::Remove` only shrinks the evictable set, and on a
duplicate-free set removes exactly the given frame. -/
theorem LRUKReplacer.Remove_fields (r : LRUKReplacer) (f : Nat) :
    (r.Remove f).replacer_size = r.replacer_size ∧
    (r.evictable_frames.Nodup →
      (r.Remove f).evictable_frames.Nodup ∧
      ∀ g ∈ (r.Remove f).evictable_frames, g ∈ r.evictable_frames ∧ g ≠ f) := by
  unfold LRUKReplacer.Remove
  by_cases h1 : f ∈ r.evictable_frames
  · simp only [if_pos h1]
    refine ⟨by simp, fun hnd => ⟨hnd.erase f, fun g hg => ?_⟩⟩
    rw [hnd.mem_erase_iff] at hg
    exact ⟨hg.2, hg.1⟩
  · simp only [if_neg h1]
    refine ⟨by simp, fun hnd => ⟨hnd, fun g hg => ⟨hg, ?_⟩⟩⟩
    intro hgf
    rw [hgf] at hg
    exact h1 hg

/-- A list of pairs with duplicate-free keys is a permutation of any one of
its elements consed onto the pairs carrying other keys. -/
theorem perm_cons_filter_ne {K V : Type} [DecidableEq K] (l : List (K × V)) (k : K) (v : V)
    (hnd : (l.map Prod.fst).Nodup) (hm : (k, v) ∈ l) :
    l.Perm ((k, v) :: l.filter (fun p => decide (¬ p.1 = k))) := by
  obtain ⟨l1, l2, rfl⟩ := List.append_of_mem hm
  rw [List.map_append, List.map_cons] at hnd
  rcases List.nodup_append.mp hnd with ⟨hn1, hn2, hdisj⟩
  have h1 : l1.filter (fun p => decide (¬ p.1 = k)) = l1 :=
    List.filter_eq_self.mpr (fun p hp => by
      simp only [decide_eq_true_eq]
      intro hpk
      exact hdisj (List.mem_map.mpr ⟨p, hp, hpk⟩) (List.mem_cons_self _ _))
  have h2 : l2.filter (fun p => decide (¬ p.1 = k)) = l2 :=
    List.filter_eq_self.mpr (fun p hp => by
      simp only [decide_eq_true_eq]
      intro hpk
      exact (List.nodup_cons.mp hn2).1 (List.mem_map.mpr ⟨p, hp, hpk⟩))
  have hfeq : (l1 ++ (k, v) :: l2).filter (fun p => decide (¬ p.1 = k)) = l1 ++ l2 := by
    rw [List.filter_append, List.filter_cons_of_neg (by simp), h1, h2]
  rw [hfeq]
  exact List.perm_middle

/-- Removing a key and then successfully inserting an absent key: the
table invariant survives and the entries are the old ones minus the
removed key plus the new pair. -/
theorem table_replace_spec (pt pt2 : ExtendibleHashTable Int Nat) (fuel : Nat)
    (oldKey newKey : Int) (nf : Nat)
    (hinv : ExtendibleHashTable.TInv stdHashInt pt)
    (hfresh : ∀ w, (newKey, w) ∉ pt.allItems)
    (hins : ExtendibleHashTable.InsertFuel stdHashInt fuel
      (ExtendibleHashTable.Remove stdHashInt pt oldKey).1 newKey nf = some pt2) :
    ExtendibleHashTable.TInv stdHashInt pt2 ∧
    pt2.allItems.Perm ((newKey, nf) ::
      pt.allItems.filter (fun q => decide (¬ q.1 = oldKey))) := by
  obtain ⟨hinv1, hitems1, _⟩ := ExtendibleHashTable.Remove_spec stdHashInt pt hinv oldKey
  have hfresh1 : ∀ w, (newKey, w) ∉
      (ExtendibleHashTable.Remove stdHashInt pt oldKey).1.allItems := by
    intro w hw
    rw [hitems1] at hw
    exact hfresh w (List.mem_of_mem_filter hw)
  obtain ⟨hinv2, hperm2⟩ := ExtendibleHashTable.InsertFuel_fresh stdHashInt fuel _ pt2
    newKey nf hinv1 hfresh1 hins
  rw [hitems1] at hperm2
  exact ⟨hinv2, hperm2⟩

/-- The constructor's table satisfies the table invariant. -/
theorem ExtendibleHashTable.TInv_new {K V : Type} (hashFn : K → Nat) (bs : Nat) :
    ExtendibleHashTable.TInv hashFn (ExtendibleHashTable.new K V bs) := by
  have hall : (ExtendibleHashTable.new K V bs).allItems = [] := rfl
  refine ⟨rfl, ?_, ?_, ?_, ?_, ?_, ?_, ?_⟩
  · intro b hb
    have hb0 : b = 0 := List.mem_singleton.mp hb
    subst hb0
    exact Nat.zero_lt_one
  · intro b hb
    have hb0 : b = 0 := List.mem_singleton.mp hb
    subst hb0
    rfl
  · intro b hb
    have hb0 : b = 0 := List.mem_singleton.mp hb
    subst hb0
    exact le_refl _
  · intro b hb
    have hb0 : b = 0 := List.mem_singleton.mp hb
    subst hb0
    exact Nat.zero_le _
  · intro b hb
    have hb0 : b = 0 := List.mem_singleton.mp hb
    subst hb0
    rfl
  · rw [hall]
    exact List.nodup_nil
  · intro b hb p hp
    have hb0 : b = 0 := List.mem_singleton.mp hb
    subst hb0
    exact absurd hp (List.not_mem_nil p)

/-- A freshly constructed pool satisfies the reachability invariant. -/
theorem BufferPoolManagerInstance.Inv_new (n k b : Nat) :
    BufferPoolManagerInstance.Inv n (BufferPoolManagerInstance.new n k b) := by
  have hall : (BufferPoolManagerInstance.new n k b).page_table.allItems = [] := rfl
  refine ⟨rfl, ?_, ExtendibleHashTable.TInv_new stdHashInt b, ?_, ?_, ?_, ?_, ?_, ?_, ?_,
    le_refl 0, rfl, ?_, ?_⟩
  · simp [BufferPoolManagerInstance.new]
  · rw [hall]
    simp [BufferPoolManagerInstance.new]
  · intro f hf
    exact List.mem_range.mp hf
  · exact List.nodup_range n
  · intro f hf
    unfold BufferPoolManagerInstance.pageAt
    exact getD_replicate emptyPage n f
  · intro q hq
    rw [hall] at hq
    exact absurd hq (List.not_mem_nil q)
  · rw [hall]
    exact List.nodup_nil
  · intro q hq
    rw [hall] at hq
    exact absurd hq (List.not_mem_nil q)
  · exact List.nodup_nil
  · intro f hf
    exact absurd hf (List.not_mem_nil f)

theorem pageAt_mk (a : Nat) (ps : List Page) (t : ExtendibleHashTable Int Nat)
    (r : LRUKReplacer) (fl : List Nat) (np : Int) (g : Nat) :
    (BufferPoolManagerInstance.mk a ps t r fl np).pageAt g = ps.getD g emptyPage := rfl

/-- `UnpinPgImp` preserves the pool invariant. -/
theorem BufferPoolManagerInstance.Unpin_Inv (n : Nat) (st : BufferPoolManagerInstance)
    (hinv : BufferPoolManagerInstance.Inv n st) (p : Int) (d : Bool) :
    BufferPoolManagerInstance.Inv n (st.UnpinPgImp p d).1 := by
  rcases hf : ExtendibleHashTable.Find stdHashInt st.page_table p with _ | f
  · unfold BufferPoolManagerInstance.UnpinPgImp
    rw [hf]
    exact hinv
  · by_cases hpin : (st.pageAt f).pin_count ≤ 0
    · unfold BufferPoolManagerInstance.UnpinPgImp
      rw [hf]
      simp only [if_pos hpin]
      exact hinv
    · have heq : (st.UnpinPgImp p d).1 = { st with
          pages := st.pages.set f
            { page_id := (st.pageAt f).page_id,
              pin_count := (st.pageAt f).pin_count - 1,
              is_dirty := (st.pageAt f).is_dirty || d,
              data := (st.pageAt f).data },
          replacer := if (st.pageAt f).pin_count - 1 = 0
            then st.replacer.SetEvictable f true else st.replacer } := by
        unfold BufferPoolManagerInstance.UnpinPgImp
        rw [hf]
        simp only [if_neg hpin]
        cases d
        · simp [Bool.or_false]
        · simp [Bool.or_true]
      rw [heq]
      have hmem : (p, f) ∈ st.page_table.allItems :=
        (ExtendibleHashTable.Find_iff_mem stdHashInt st.page_table hinv.tinv p f).mp hf
      obtain ⟨hfn, hfid, hffree⟩ := hinv.resident (p, f) hmem
      have hflen : f < st.pages.length := by
        have := hinv.pages_len
        omega
      refine ⟨hinv.pool_eq, ?_, hinv.tinv, hinv.count, hinv.free_lt, hinv.free_nodup,
        ?_, ?_, hinv.frames_nodup, hinv.keys_range, hinv.next_nonneg, ?_, ?_, ?_⟩
      · simp only [List.length_set]
        exact hinv.pages_len
      · intro g hg
        have hgf : g ≠ f := fun h => hffree (by rw [← h]; exact hg)
        rw [pageAt_mk, getD_set_ne _ _ _ _ _ (fun h => hgf h.symm)]
        exact hinv.free_empty g hg
      · intro q hq
        obtain ⟨hq1, hq2, hq3⟩ := hinv.resident q hq
        refine ⟨hq1, ?_, hq3⟩
        rw [pageAt_mk]
        by_cases hqf : q.2 = f
        · have hqpf : q = (p, f) :=
            List.inj_on_of_nodup_map hinv.frames_nodup hq hmem hqf
          rw [hqf, getD_set_self _ _ _ _ hflen, hqpf]
          exact hfid
        · rw [getD_set_ne _ _ _ _ _ (fun h => hqf h.symm)]
          exact hq2
      · by_cases hz : (st.pageAt f).pin_count - 1 = 0
        · simp only [if_pos hz]
          rw [(st.replacer.SetEvictable_true_fields f).1]
          exact hinv.rsize
        · simp only [if_neg hz]
          exact hinv.rsize
      · by_cases hz : (st.pageAt f).pin_count - 1 = 0
        · simp only [if_pos hz]
          exact (st.replacer.SetEvictable_true_fields f).2.2 hinv.ev_nodup
        · simp only [if_neg hz]
          exact hinv.ev_nodup
      · intro g hg
        by_cases hz : (st.pageAt f).pin_count - 1 = 0
        · simp only [if_pos hz] at hg
          rcases (st.replacer.SetEvictable_true_fields f).2.1 g hg with h | h
          · exact hinv.ev_resident g h
          · exact ⟨(p, f), hmem, h.symm⟩
        · simp only [if_neg hz] at hg
          exact hinv.ev_resident g hg

/-- `FlushPgImp` preserves the pool invariant. -/
theorem BufferPoolManagerInstance.Flush_Inv (n : Nat) (st : BufferPoolManagerInstance)
    (hinv : BufferPoolManagerInstance.Inv n st) (p : Int) :
    BufferPoolManagerInstance.Inv n (st.FlushPgImp p).1 := by
  by_cases hp : p = INVALID_PAGE_ID
  · unfold BufferPoolManagerInstance.FlushPgImp
    rw [if_pos hp]
    exact hinv
  · rcases hf : ExtendibleHashTable.Find stdHashInt st.page_table p with _ | f
    · unfold BufferPoolManagerInstance.FlushPgImp
      rw [if_neg hp, hf]
      exact hinv
    · have heq : (st.FlushPgImp p).1 = { st with
          pages := st.pages.set f { st.pageAt f with is_dirty := false } } := by
        unfold BufferPoolManagerInstance.FlushPgImp
        rw [if_neg hp, hf]
      rw [heq]
      have hmem : (p, f) ∈ st.page_table.allItems :=
        (ExtendibleHashTable.Find_iff_mem stdHashInt st.page_table hinv.tinv p f).mp hf
      obtain ⟨hfn, hfid, hffree⟩ := hinv.resident (p, f) hmem
      have hflen : f < st.pages.length := by
        have := hinv.pages_len
        omega
      refine ⟨hinv.pool_eq, ?_, hinv.tinv, hinv.count, hinv.free_lt, hinv.free_nodup,
        ?_, ?_, hinv.frames_nodup, hinv.keys_range, hinv.next_nonneg, hinv.rsize,
        hinv.ev_nodup, ?_⟩
      · simp only [List.length_set]
        exact hinv.pages_len
      · intro g hg
        have hgf : g ≠ f := fun h => hffree (by rw [← h]; exact hg)
        rw [pageAt_mk, getD_set_ne _ _ _ _ _ (fun h => hgf h.symm)]
        exact hinv.free_empty g hg
      · intro q hq
        obtain ⟨hq1, hq2, hq3⟩ := hinv.resident q hq
        refine ⟨hq1, ?_, hq3⟩
        rw [pageAt_mk]
        by_cases hqf : q.2 = f
        · have hqpf : q = (p, f) :=
            List.inj_on_of_nodup_map hinv.frames_nodup hq hmem hqf
          rw [hqf, getD_set_self _ _ _ _ hflen, hqpf]
          exact hfid
        · rw [getD_set_ne _ _ _ _ _ (fun h => hqf h.symm)]
          exact hq2
      · intro g hg
        exact hinv.ev_resident g hg

/-- `DeletePgImp` preserves the pool invariant. -/
theorem BufferPoolManagerInstance.Delete_Inv (n : Nat) (st : BufferPoolManagerInstance)
    (hinv : BufferPoolManagerInstance.Inv n st) (p : Int) :
    BufferPoolManagerInstance.Inv n (st.DeletePgImp p).1 := by
  rcases hf : ExtendibleHashTable.Find stdHashInt st.page_table p with _ | f
  · unfold BufferPoolManagerInstance.DeletePgImp
    rw [hf]
    exact hinv
  · by_cases hpin : 0 < (st.pageAt f).pin_count
    · unfold BufferPoolManagerInstance.DeletePgImp
      rw [hf]
      simp only [if_pos hpin]
      exact hinv
    · have heq : (st.DeletePgImp p).1 = { st with
          page_table := (ExtendibleHashTable.Remove stdHashInt st.page_table p).1,
          replacer := st.replacer.Remove f,
          free_list := st.free_list ++ [f],
          pages := st.pages.set f emptyPage } := by
        unfold BufferPoolManagerInstance.DeletePgImp
        rw [hf]
        simp only [if_neg hpin]
      rw [heq]
      have hmem : (p, f) ∈ st.page_table.allItems :=
        (ExtendibleHashTable.Find_iff_mem stdHashInt st.page_table hinv.tinv p f).mp hf
      obtain ⟨hfn, hfid, hffree⟩ := hinv.resident (p, f) hmem
      have hflen : f < st.pages.length := by
        have := hinv.pages_len
        omega
      obtain ⟨hinvR, hitemsR, hflagR⟩ :=
        ExtendibleHashTable.Remove_spec stdHashInt st.page_table hinv.tinv p
      have hperm := perm_cons_filter_ne st.page_table.allItems p f
        hinv.tinv.keys_nodup hmem
      have hcnt : st.page_table.allItems.length =
          (st.page_table.allItems.filter (fun q => decide (¬ q.1 = p))).length + 1 := by
        have := hperm.length_eq
        simpa using this
      have hkeyne : ∀ q, q ∈ st.page_table.allItems → q.2 ≠ f → ¬ q.1 = p := by
        intro q hq hq2 hq1
        have : q = (p, f) :=
          List.inj_on_of_nodup_map hinv.tinv.keys_nodup hq hmem hq1
        exact hq2 (by rw [this])
      refine ⟨hinv.pool_eq, ?_, hinvR, ?_, ?_, ?_, ?_, ?_, ?_, ?_, hinv.next_nonneg,
        ?_, ?_, ?_⟩
      · simp only [List.length_set]
        exact hinv.pages_len
      · simp only [hitemsR, List.length_append]
        have := hinv.count
        simp only [List.length_singleton]
        omega
      · intro g hg
        rcases List.mem_append.mp hg with h | h
        · exact hinv.free_lt g h
        · rw [List.mem_singleton.mp h]
          exact hfn
      · refine hinv.free_nodup.append (List.nodup_singleton f) ?_
        intro a ha haf
        rw [List.mem_singleton.mp haf] at ha
        exact hffree ha
      · intro g hg
        rcases List.mem_append.mp hg with h | h
        · have hgf : g ≠ f := fun he => hffree (by rw [← he]; exact h)
          rw [pageAt_mk, getD_set_ne _ _ _ _ _ (fun he => hgf he.symm)]
          exact hinv.free_empty g h
        · rw [List.mem_singleton.mp h, pageAt_mk, getD_set_self _ _ _ _ hflen]
      · intro q hq
        simp only [hitemsR] at hq
        have hq0 : q ∈ st.page_table.allItems := List.mem_of_mem_filter hq
        have hq1 : ¬ q.1 = p := by
          have := List.of_mem_filter hq
          simpa using this
        obtain ⟨ha, hb, hc⟩ := hinv.resident q hq0
        have hqf : q.2 ≠ f := by
          intro he
          have : q = (p, f) :=
            List.inj_on_of_nodup_map hinv.frames_nodup hq0 hmem he
          exact hq1 (by rw [this])
        refine ⟨ha, ?_, ?_⟩
        · rw [pageAt_mk, getD_set_ne _ _ _ _ _ (fun he => hqf he.symm)]
          exact hb
        · intro hgm
          rcases List.mem_append.mp hgm with h | h
          · exact hc h
          · exact hqf (List.mem_singleton.mp h)
      · simp only [hitemsR]
        exact hinv.frames_nodup.sublist ((List.filter_sublist _).map Prod.snd)
      · intro q hq
        simp only [hitemsR] at hq
        exact hinv.keys_range q (List.mem_of_mem_filter hq)
      · rw [(st.replacer.Remove_fields f).1]
        exact hinv.rsize
      · exact ((st.replacer.Remove_fields f).2 hinv.ev_nodup).1
      · intro g hg
        obtain ⟨hg1, hg2⟩ := ((st.replacer.Remove_fields f).2 hinv.ev_nodup).2 g hg
        obtain ⟨q, hq, hq2⟩ := hinv.ev_resident g hg1
        have hqf : q.2 ≠ f := by rw [hq2]; exact hg2
        refine ⟨q, ?_, hq2⟩
        simp only [hitemsR]
        rw [List.mem_filter]
        refine ⟨hq, ?_⟩
        simp only [decide_eq_true_eq]
        exact hkeyne q hq hqf

/-- `NewPgImp` preserves the pool invariant. -/
theorem BufferPoolManagerInstance.New_Inv (n : Nat) (st : BufferPoolManagerInstance)
    (hinv : BufferPoolManagerInstance.Inv n st) (fuel : Nat)
    (st2 : BufferPoolManagerInstance) (ret : Option Int) (out : List DiskOp)
    (h : st.NewPgImp fuel = some (st2, ret, out)) :
    BufferPoolManagerInstance.Inv n st2 := by
  unfold BufferPoolManagerInstance.NewPgImp at h
  rcases hfl : st.free_list.getLast? with _ | nf
  · -- free list empty: the eviction path
    simp only [hfl] at h
    have hfree_nil : st.free_list = [] := List.getLast?_eq_none_iff.mp hfl
    rcases hev : st.replacer.Evict with _ | ⟨ov, rep⟩
    · rw [hev] at h
      exact absurd h (by simp)
    · rcases ov with _ | v
      · simp only [hev] at h
        have hrep := LRUKReplacer.Evict_none_spec st.replacer rep hev
        have h2 := Option.some.inj h
        rw [Prod.mk.injEq, Prod.mk.injEq] at h2
        obtain ⟨hst2, _, _⟩ := h2
        subst hst2
        refine ⟨hinv.pool_eq, hinv.pages_len, hinv.tinv, hinv.count, hinv.free_lt,
          hinv.free_nodup, hinv.free_empty, hinv.resident, hinv.frames_nodup,
          hinv.keys_range, hinv.next_nonneg, ?_, ?_, ?_⟩
        · show rep.replacer_size = n
          rw [hrep]
          exact hinv.rsize
        · show rep.evictable_frames.Nodup
          rw [hrep]
          exact hinv.ev_nodup
        · intro g hg
          have hg2 : g ∈ rep.evictable_frames := hg
          rw [hrep] at hg2
          exact hinv.ev_resident g hg2
      · simp only [hev] at h
        obtain ⟨hv_mem, hrep_ev, hrep_rs⟩ := LRUKReplacer.Evict_some_spec st.replacer v rep hev
        obtain ⟨qv, hqv, hqv2⟩ := hinv.ev_resident v hv_mem
        obtain ⟨hvn', hvid', hvfree'⟩ := hinv.resident qv hqv
        rw [hqv2] at hvn' hvid'
        have hplen := hinv.pages_len
        have hv_len : v < st.pages.length := by omega
        rw [hvid'] at h
        rcases hins : ExtendibleHashTable.InsertFuel stdHashInt fuel
            (ExtendibleHashTable.Remove stdHashInt st.page_table qv.1).1
            st.next_page_id v with _ | pt2
        · rw [hins] at h
          exact absurd h (by simp)
        · simp only [hins] at h
          have h2 := Option.some.inj h
          rw [Prod.mk.injEq, Prod.mk.injEq] at h2
          obtain ⟨hst2, _, _⟩ := h2
          subst hst2
          have hfresh : ∀ w, (st.next_page_id, w) ∉ st.page_table.allItems := by
            intro w hw
            have h1 : st.next_page_id < st.next_page_id := (hinv.keys_range _ hw).2
            omega
          obtain ⟨htinv2, hperm2⟩ := table_replace_spec st.page_table pt2 fuel
            qv.1 st.next_page_id v hinv.tinv hfresh hins
          have hqv_pair : (qv.1, qv.2) ∈ st.page_table.allItems := by
            rw [Prod.mk.eta]
            exact hqv
          have hperm3 := perm_cons_filter_ne st.page_table.allItems qv.1 qv.2
            hinv.tinv.keys_nodup hqv_pair
          have hlen3 : st.page_table.allItems.length =
              (st.page_table.allItems.filter
                (fun q => decide (¬ q.1 = qv.1))).length + 1 := by
            have := hperm3.length_eq
            simpa using this
          have hlen2 : pt2.allItems.length =
              (st.page_table.allItems.filter
                (fun q => decide (¬ q.1 = qv.1))).length + 1 := by
            have := hperm2.length_eq
            simpa using this
          have hmemP : ∀ q, q ∈ pt2.allItems ↔
              (q = (st.next_page_id, v) ∨
               q ∈ st.page_table.allItems.filter (fun q => decide (¬ q.1 = qv.1))) := by
            intro q
            rw [hperm2.mem_iff, List.mem_cons]
          have hfilter_facts : ∀ q, q ∈ st.page_table.allItems.filter
              (fun q => decide (¬ q.1 = qv.1)) →
              q ∈ st.page_table.allItems ∧ ¬ q.1 = qv.1 ∧ q.2 ≠ v := by
            intro q hq
            have hq0 : q ∈ st.page_table.allItems := List.mem_of_mem_filter hq
            have hq1 : ¬ q.1 = qv.1 := by
              have := List.of_mem_filter hq
              simpa using this
            refine ⟨hq0, hq1, ?_⟩
            intro he
            have hqqv : q = qv := List.inj_on_of_nodup_map hinv.frames_nodup hq0 hqv
              (by rw [he]; exact hqv2.symm)
            exact hq1 (by rw [hqqv])
          have hkeyq : ∀ q ∈ st.page_table.allItems, q.2 ≠ v → ¬ q.1 = qv.1 := by
            intro q hq hq2 h1
            have hqqv : q = qv := List.inj_on_of_nodup_map hinv.tinv.keys_nodup hq hqv
              (by rw [h1])
            exact hq2 (by rw [hqqv, hqv2])
          refine ⟨hinv.pool_eq, ?_, htinv2, ?_, ?_, ?_, ?_, ?_, ?_, ?_, ?_, ?_, ?_, ?_⟩
          · simp only [List.length_set]
            exact hplen
          · show st.free_list.length + pt2.allItems.length = n
            have hc := hinv.count
            omega
          · intro g hg
            rw [hfree_nil] at hg
            exact absurd hg (List.not_mem_nil g)
          · exact hinv.free_nodup
          · intro g hg
            have hg2 : g ∈ st.free_list := hg
            rw [hfree_nil] at hg2
            exact absurd hg2 (List.not_mem_nil g)
          · intro q hq
            rcases (hmemP q).mp hq with rfl | hold
            · refine ⟨hvn', ?_, ?_⟩
              · simp only [pageAt_mk]
                rw [getD_set_self _ _ _ _ hv_len]
              · show v ∉ st.free_list
                rw [hfree_nil]
                exact List.not_mem_nil v
            · obtain ⟨hq0, hq1, hqv_ne⟩ := hfilter_facts q hold
              obtain ⟨ha, hb, _⟩ := hinv.resident q hq0
              refine ⟨ha, ?_, ?_⟩
              · rw [pageAt_mk, getD_set_ne _ _ _ _ _ (fun he => hqv_ne he.symm)]
                exact hb
              · show q.2 ∉ st.free_list
                rw [hfree_nil]
                exact List.not_mem_nil q.2
          · have hnotin : v ∉ (st.page_table.allItems.filter
                (fun q => decide (¬ q.1 = qv.1))).map Prod.snd := by
              intro hx
              obtain ⟨q, hq, hq2⟩ := List.mem_map.mp hx
              exact (hfilter_facts q hq).2.2 hq2
            have hsubnd : ((st.page_table.allItems.filter
                (fun q => decide (¬ q.1 = qv.1))).map Prod.snd).Nodup :=
              hinv.frames_nodup.sublist ((List.filter_sublist _).map Prod.snd)
            exact ((hperm2.map Prod.snd).nodup_iff).mpr
              (by rw [List.map_cons]; exact List.nodup_cons.mpr ⟨hnotin, hsubnd⟩)
          · intro q hq
            rcases (hmemP q).mp hq with rfl | hold
            · refine ⟨hinv.next_nonneg, ?_⟩
              show st.next_page_id < st.next_page_id + 1
              omega
            · obtain ⟨h1, h2⟩ := hinv.keys_range q (hfilter_facts q hold).1
              refine ⟨h1, ?_⟩
              show q.1 < st.next_page_id + 1
              omega
          · show (0 : Int) ≤ st.next_page_id + 1
            have := hinv.next_nonneg
            omega
          · show ((rep.SetEvictable v false).RecordAccess v).replacer_size = n
            rw [((rep.SetEvictable v false).RecordAccess_fields v).2,
              (rep.SetEvictable_false_fields v).1, hrep_rs]
            exact hinv.rsize
          · show ((rep.SetEvictable v false).RecordAccess v).evictable_frames.Nodup
            rw [((rep.SetEvictable v false).RecordAccess_fields v).1]
            exact (rep.SetEvictable_false_fields v).2.2
              (by rw [hrep_ev]; exact hinv.ev_nodup.erase v)
          · intro g hg
            have hg2 : g ∈ ((rep.SetEvictable v false).RecordAccess v).evictable_frames := hg
            rw [((rep.SetEvictable v false).RecordAccess_fields v).1] at hg2
            have hg3 := (rep.SetEvictable_false_fields v).2.1 g hg2
            rw [hrep_ev] at hg3
            rw [hinv.ev_nodup.mem_erase_iff] at hg3
            obtain ⟨hgv, hg4⟩ := hg3
            obtain ⟨q, hq, hq2⟩ := hinv.ev_resident g hg4
            have hqv_ne : q.2 ≠ v := by rw [hq2]; exact hgv
            refine ⟨q, ?_, hq2⟩
            refine (hmemP q).mpr (Or.inr ?_)
            rw [List.mem_filter]
            refine ⟨hq, ?_⟩
            simp only [decide_eq_true_eq]
            exact hkeyq q hq hqv_ne
  · -- a free frame is available
    simp only [hfl, pageAt_mk] at h
    have hnf_mem : nf ∈ st.free_list := getLast?_mem _ _ hfl
    have hnf_lt : nf < n := hinv.free_lt nf hnf_mem
    have hplen := hinv.pages_len
    have hnf_len : nf < st.pages.length := by omega
    have hempty2 : st.pages.getD nf emptyPage = emptyPage := hinv.free_empty nf hnf_mem
    rw [hempty2] at h
    have hfree_ne : st.free_list ≠ [] := by
      intro he
      rw [he] at hfl
      simp at hfl
    have hfree_pos : 0 < st.free_list.length := List.length_pos.mpr hfree_ne
    have hnf_nd : nf ∉ st.free_list.dropLast :=
      getLast_not_mem_dropLast _ _ hfl hinv.free_nodup
    rcases hins : ExtendibleHashTable.InsertFuel stdHashInt fuel
        (ExtendibleHashTable.Remove stdHashInt st.page_table emptyPage.page_id).1
        st.next_page_id nf with _ | pt2
    · rw [hins] at h
      exact absurd h (by simp)
    · simp only [hins] at h
      have h2 := Option.some.inj h
      rw [Prod.mk.injEq, Prod.mk.injEq] at h2
      obtain ⟨hst2, _, _⟩ := h2
      subst hst2
      have hfresh : ∀ w, (st.next_page_id, w) ∉ st.page_table.allItems := by
        intro w hw
        have h1 : st.next_page_id < st.next_page_id := (hinv.keys_range _ hw).2
        omega
      obtain ⟨htinv2, hperm2⟩ := table_replace_spec st.page_table pt2 fuel
        emptyPage.page_id st.next_page_id nf hinv.tinv hfresh hins
      have hfilter_id : st.page_table.allItems.filter
          (fun q => decide (¬ q.1 = emptyPage.page_id)) = st.page_table.allItems := by
        refine List.filter_eq_self.mpr (fun q hq => ?_)
        simp only [decide_eq_true_eq]
        intro h1
        have h2 := (hinv.keys_range q hq).1
        rw [h1] at h2
        simp [emptyPage, INVALID_PAGE_ID] at h2
      rw [hfilter_id] at hperm2
      have hlen2 : pt2.allItems.length = st.page_table.allItems.length + 1 := by
        have := hperm2.length_eq
        simpa using this
      have hmemP : ∀ q, q ∈ pt2.allItems ↔
          (q = (st.next_page_id, nf) ∨ q ∈ st.page_table.allItems) := by
        intro q
        rw [hperm2.mem_iff, List.mem_cons]
      refine ⟨hinv.pool_eq, ?_, htinv2, ?_, ?_, ?_, ?_, ?_, ?_, ?_, ?_, ?_, ?_, ?_⟩
      · simp only [List.length_set]
        exact hplen
      · show st.free_list.dropLast.length + pt2.allItems.length = n
        rw [List.length_dropLast]
        have hc := hinv.count
        omega
      · intro g hg
        exact hinv.free_lt g ((List.dropLast_sublist _).subset hg)
      · exact hinv.free_nodup.sublist (List.dropLast_sublist _)
      · intro g hg
        have hgnf : g ≠ nf := fun he => hnf_nd (by rw [← he]; exact hg)
        rw [pageAt_mk, getD_set_ne _ _ _ _ _ (fun he => hgnf he.symm)]
        exact hinv.free_empty g ((List.dropLast_sublist _).subset hg)
      · intro q hq
        rcases (hmemP q).mp hq with rfl | hold
        · refine ⟨hnf_lt, ?_, ?_⟩
          · simp only [pageAt_mk]
            rw [getD_set_self _ _ _ _ hnf_len]
          · show nf ∉ st.free_list.dropLast
            exact hnf_nd
        · obtain ⟨ha, hb, hc⟩ := hinv.resident q hold
          have hqnf : q.2 ≠ nf := fun he => hc (by rw [he]; exact hnf_mem)
          refine ⟨ha, ?_, ?_⟩
          · rw [pageAt_mk, getD_set_ne _ _ _ _ _ (fun he => hqnf he.symm)]
            exact hb
          · intro hgm
            exact hc ((List.dropLast_sublist _).subset hgm)
      · have hnotin : nf ∉ st.page_table.allItems.map Prod.snd := by
          intro hx
          obtain ⟨q, hq, hq2⟩ := List.mem_map.mp hx
          exact (hinv.resident q hq).2.2 (by rw [hq2]; exact hnf_mem)
        exact ((hperm2.map Prod.snd).nodup_iff).mpr
          (by rw [List.map_cons]; exact List.nodup_cons.mpr ⟨hnotin, hinv.frames_nodup⟩)
      · intro q hq
        rcases (hmemP q).mp hq with rfl | hold
        · refine ⟨hinv.next_nonneg, ?_⟩
          show st.next_page_id < st.next_page_id + 1
          omega
        · obtain ⟨h1, h2⟩ := hinv.keys_range q hold
          refine ⟨h1, ?_⟩
          show q.1 < st.next_page_id + 1
          omega
      · show (0 : Int) ≤ st.next_page_id + 1
        have := hinv.next_nonneg
        omega
      · show ((st.replacer.SetEvictable nf false).RecordAccess nf).replacer_size = n
        rw [((st.replacer.SetEvictable nf false).RecordAccess_fields nf).2,
          (st.replacer.SetEvictable_false_fields nf).1]
        exact hinv.rsize
      · show ((st.replacer.SetEvictable nf false).RecordAccess nf).evictable_frames.Nodup
        rw [((st.replacer.SetEvictable nf false).RecordAccess_fields nf).1]
        exact (st.replacer.SetEvictable_false_fields nf).2.2 hinv.ev_nodup
      · intro g hg
        have hg2 : g ∈ ((st.replacer.SetEvictable nf false).RecordAccess nf).evictable_frames :=
          hg
        rw [((st.replacer.SetEvictable nf false).RecordAccess_fields nf).1] at hg2
        have hg3 := (st.replacer.SetEvictable_false_fields nf).2.1 g hg2
        obtain ⟨q, hq, hq2⟩ := hinv.ev_resident g hg3
        exact ⟨q, (hmemP q).mpr (Or.inr hq), hq2⟩

/-- `FetchPgImp` preserves the pool invariant when the requested page id is
one that allocation has already handed out. -/
theorem BufferPoolManagerInstance.Fetch_Inv (n : Nat) (st : BufferPoolManagerInstance)
    (hinv : BufferPoolManagerInstance.Inv n st) (disk : Int → Nat) (fuel : Nat) (p : Int)
    (hleg : 0 ≤ p ∧ p < st.next_page_id)
    (st2 : BufferPoolManagerInstance) (b : Bool) (out : List DiskOp)
    (h : st.FetchPgImp disk fuel p = some (st2, b, out)) :
    BufferPoolManagerInstance.Inv n st2 := by
  unfold BufferPoolManagerInstance.FetchPgImp at h
  rcases hf : ExtendibleHashTable.Find stdHashInt st.page_table p with _ | f
  · -- not resident
    simp only [hf] at h
    have hfreshP : ∀ w, (p, w) ∉ st.page_table.allItems :=
      (ExtendibleHashTable.Find_none_iff stdHashInt st.page_table hinv.tinv p).mp hf
    rcases hfl : st.free_list.getLast? with _ | nf
    · -- eviction path
      simp only [hfl] at h
      have hfree_nil : st.free_list = [] := List.getLast?_eq_none_iff.mp hfl
      rcases hev : st.replacer.Evict with _ | ⟨ov, rep⟩
      · rw [hev] at h
        exact absurd h (by simp)
      · rcases ov with _ | v
        · simp only [hev] at h
          have hrep := LRUKReplacer.Evict_none_spec st.replacer rep hev
          have h2 := Option.some.inj h
          rw [Prod.mk.injEq, Prod.mk.injEq] at h2
          obtain ⟨hst2, _, _⟩ := h2
          subst hst2
          refine ⟨hinv.pool_eq, hinv.pages_len, hinv.tinv, hinv.count, hinv.free_lt,
            hinv.free_nodup, hinv.free_empty, hinv.resident, hinv.frames_nodup,
            hinv.keys_range, hinv.next_nonneg, ?_, ?_, ?_⟩
          · show rep.replacer_size = n
            rw [hrep]
            exact hinv.rsize
          · show rep.evictable_frames.Nodup
            rw [hrep]
            exact hinv.ev_nodup
          · intro g hg
            have hg2 : g ∈ rep.evictable_frames := hg
            rw [hrep] at hg2
            exact hinv.ev_resident g hg2
        · simp only [hev] at h
          obtain ⟨hv_mem, hrep_ev, hrep_rs⟩ :=
            LRUKReplacer.Evict_some_spec st.replacer v rep hev
          obtain ⟨qv, hqv, hqv2⟩ := hinv.ev_resident v hv_mem
          obtain ⟨hvn', hvid', hvfree'⟩ := hinv.resident qv hqv
          rw [hqv2] at hvn' hvid'
          have hplen := hinv.pages_len
          have hv_len : v < st.pages.length := by omega
          rw [hvid'] at h
          rcases hins : ExtendibleHashTable.InsertFuel stdHashInt fuel
              (ExtendibleHashTable.Remove stdHashInt st.page_table qv.1).1
              p v with _ | pt2
          · rw [hins] at h
            exact absurd h (by simp)
          · simp only [hins] at h
            have h2 := Option.some.inj h
            rw [Prod.mk.injEq, Prod.mk.injEq] at h2
            obtain ⟨hst2, _, _⟩ := h2
            subst hst2
            obtain ⟨htinv2, hperm2⟩ := table_replace_spec st.page_table pt2 fuel
              qv.1 p v hinv.tinv hfreshP hins
            have hqv_pair : (qv.1, qv.2) ∈ st.page_table.allItems := by
              rw [Prod.mk.eta]
              exact hqv
            have hperm3 := perm_cons_filter_ne st.page_table.allItems qv.1 qv.2
              hinv.tinv.keys_nodup hqv_pair
            have hlen3 : st.page_table.allItems.length =
                (st.page_table.allItems.filter
                  (fun q => decide (¬ q.1 = qv.1))).length + 1 := by
              have := hperm3.length_eq
              simpa using this
            have hlen2 : pt2.allItems.length =
                (st.page_table.allItems.filter
                  (fun q => decide (¬ q.1 = qv.1))).length + 1 := by
              have := hperm2.length_eq
              simpa using this
            have hmemP : ∀ q, q ∈ pt2.allItems ↔
                (q = (p, v) ∨
                 q ∈ st.page_table.allItems.filter (fun q => decide (¬ q.1 = qv.1))) := by
              intro q
              rw [hperm2.mem_iff, List.mem_cons]
            have hfilter_facts : ∀ q, q ∈ st.page_table.allItems.filter
                (fun q => decide (¬ q.1 = qv.1)) →
                q ∈ st.page_table.allItems ∧ ¬ q.1 = qv.1 ∧ q.2 ≠ v := by
              intro q hq
              have hq0 : q ∈ st.page_table.allItems := List.mem_of_mem_filter hq
              have hq1 : ¬ q.1 = qv.1 := by
                have := List.of_mem_filter hq
                simpa using this
              refine ⟨hq0, hq1, ?_⟩
              intro he
              have hqqv : q = qv := List.inj_on_of_nodup_map hinv.frames_nodup hq0 hqv
                (by rw [he]; exact hqv2.symm)
              exact hq1 (by rw [hqqv])
            have hkeyq : ∀ q ∈ st.page_table.allItems, q.2 ≠ v → ¬ q.1 = qv.1 := by
              intro q hq hq2 h1
              have hqqv : q = qv := List.inj_on_of_nodup_map hinv.tinv.keys_nodup hq hqv
                (by rw [h1])
              exact hq2 (by rw [hqqv, hqv2])
            refine ⟨hinv.pool_eq, ?_, htinv2, ?_, ?_, ?_, ?_, ?_, ?_, ?_,
              hinv.next_nonneg, ?_, ?_, ?_⟩
            · simp only [List.length_set]
              exact hplen
            · show st.free_list.length + pt2.allItems.length = n
              have hc := hinv.count
              omega
            · intro g hg
              rw [hfree_nil] at hg
              exact absurd hg (List.not_mem_nil g)
            · exact hinv.free_nodup
            · intro g hg
              have hg2 : g ∈ st.free_list := hg
              rw [hfree_nil] at hg2
              exact absurd hg2 (List.not_mem_nil g)
            · intro q hq
              rcases (hmemP q).mp hq with rfl | hold
              · refine ⟨hvn', ?_, ?_⟩
                · simp only [pageAt_mk]
                  rw [getD_set_self _ _ _ _ hv_len]
                · show v ∉ st.free_list
                  rw [hfree_nil]
                  exact List.not_mem_nil v
              · obtain ⟨hq0, hq1, hqv_ne⟩ := hfilter_facts q hold
                obtain ⟨ha, hb, _⟩ := hinv.resident q hq0
                refine ⟨ha, ?_, ?_⟩
                · rw [pageAt_mk, getD_set_ne _ _ _ _ _ (fun he => hqv_ne he.symm)]
                  exact hb
                · show q.2 ∉ st.free_list
                  rw [hfree_nil]
                  exact List.not_mem_nil q.2
            · have hnotin : v ∉ (st.page_table.allItems.filter
                  (fun q => decide (¬ q.1 = qv.1))).map Prod.snd := by
                intro hx
                obtain ⟨q, hq, hq2⟩ := List.mem_map.mp hx
                exact (hfilter_facts q hq).2.2 hq2
              have hsubnd : ((st.page_table.allItems.filter
                  (fun q => decide (¬ q.1 = qv.1))).map Prod.snd).Nodup :=
                hinv.frames_nodup.sublist ((List.filter_sublist _).map Prod.snd)
              exact ((hperm2.map Prod.snd).nodup_iff).mpr
                (by rw [List.map_cons]; exact List.nodup_cons.mpr ⟨hnotin, hsubnd⟩)
            · intro q hq
              rcases (hmemP q).mp hq with rfl | hold
              · exact hleg
              · exact hinv.keys_range q (hfilter_facts q hold).1
            · show ((rep.SetEvictable v false).RecordAccess v).replacer_size = n
              rw [((rep.SetEvictable v false).RecordAccess_fields v).2,
                (rep.SetEvictable_false_fields v).1, hrep_rs]
              exact hinv.rsize
            · show ((rep.SetEvictable v false).RecordAccess v).evictable_frames.Nodup
              rw [((rep.SetEvictable v false).RecordAccess_fields v).1]
              exact (rep.SetEvictable_false_fields v).2.2
                (by rw [hrep_ev]; exact hinv.ev_nodup.erase v)
            · intro g hg
              have hg2 : g ∈
                  ((rep.SetEvictable v false).RecordAccess v).evictable_frames := hg
              rw [((rep.SetEvictable v false).RecordAccess_fields v).1] at hg2
              have hg3 := (rep.SetEvictable_false_fields v).2.1 g hg2
              rw [hrep_ev] at hg3
              rw [hinv.ev_nodup.mem_erase_iff] at hg3
              obtain ⟨hgv, hg4⟩ := hg3
              obtain ⟨q, hq, hq2⟩ := hinv.ev_resident g hg4
              have hqv_ne : q.2 ≠ v := by rw [hq2]; exact hgv
              refine ⟨q, ?_, hq2⟩
              refine (hmemP q).mpr (Or.inr ?_)
              rw [List.mem_filter]
              refine ⟨hq, ?_⟩
              simp only [decide_eq_true_eq]
              exact hkeyq q hq hqv_ne
    · -- a free frame is available
      simp only [hfl, pageAt_mk] at h
      have hnf_mem : nf ∈ st.free_list := getLast?_mem _ _ hfl
      have hnf_lt : nf < n := hinv.free_lt nf hnf_mem
      have hplen := hinv.pages_len
      have hnf_len : nf < st.pages.length := by omega
      have hempty2 : st.pages.getD nf emptyPage = emptyPage := hinv.free_empty nf hnf_mem
      rw [hempty2] at h
      have hfree_ne : st.free_list ≠ [] := by
        intro he
        rw [he] at hfl
        simp at hfl
      have hfree_pos : 0 < st.free_list.length := List.length_pos.mpr hfree_ne
      have hnf_nd : nf ∉ st.free_list.dropLast :=
        getLast_not_mem_dropLast _ _ hfl hinv.free_nodup
      rcases hins : ExtendibleHashTable.InsertFuel stdHashInt fuel
          (ExtendibleHashTable.Remove stdHashInt st.page_table emptyPage.page_id).1
          p nf with _ | pt2
      · rw [hins] at h
        exact absurd h (by simp)
      · simp only [hins] at h
        have h2 := Option.some.inj h
        rw [Prod.mk.injEq, Prod.mk.injEq] at h2
        obtain ⟨hst2, _, _⟩ := h2
        subst hst2
        obtain ⟨htinv2, hperm2⟩ := table_replace_spec st.page_table pt2 fuel
          emptyPage.page_id p nf hinv.tinv hfreshP hins
        have hfilter_id : st.page_table.allItems.filter
            (fun q => decide (¬ q.1 = emptyPage.page_id)) = st.page_table.allItems := by
          refine List.filter_eq_self.mpr (fun q hq => ?_)
          simp only [decide_eq_true_eq]
          intro h1
          have h2 := (hinv.keys_range q hq).1
          rw [h1] at h2
          simp [emptyPage, INVALID_PAGE_ID] at h2
        rw [hfilter_id] at hperm2
        have hlen2 : pt2.allItems.length = st.page_table.allItems.length + 1 := by
          have := hperm2.length_eq
          simpa using this
        have hmemP : ∀ q, q ∈ pt2.allItems ↔
            (q = (p, nf) ∨ q ∈ st.page_table.allItems) := by
          intro q
          rw [hperm2.mem_iff, List.mem_cons]
        refine ⟨hinv.pool_eq, ?_, htinv2, ?_, ?_, ?_, ?_, ?_, ?_, ?_, hinv.next_nonneg,
          ?_, ?_, ?_⟩
        · simp only [List.length_set]
          exact hplen
        · show st.free_list.dropLast.length + pt2.allItems.length = n
          rw [List.length_dropLast]
          have hc := hinv.count
          omega
        · intro g hg
          exact hinv.free_lt g ((List.dropLast_sublist _).subset hg)
        · exact hinv.free_nodup.sublist (List.dropLast_sublist _)
        · intro g hg
          have hgnf : g ≠ nf := fun he => hnf_nd (by rw [← he]; exact hg)
          rw [pageAt_mk, getD_set_ne _ _ _ _ _ (fun he => hgnf he.symm)]
          exact hinv.free_empty g ((List.dropLast_sublist _).subset hg)
        · intro q hq
          rcases (hmemP q).mp hq with rfl | hold
          · refine ⟨hnf_lt, ?_, ?_⟩
            · simp only [pageAt_mk]
              rw [getD_set_self _ _ _ _ hnf_len]
            · show nf ∉ st.free_list.dropLast
              exact hnf_nd
          · obtain ⟨ha, hb, hc⟩ := hinv.resident q hold
            have hqnf : q.2 ≠ nf := fun he => hc (by rw [he]; exact hnf_mem)
            refine ⟨ha, ?_, ?_⟩
            · rw [pageAt_mk, getD_set_ne _ _ _ _ _ (fun he => hqnf he.symm)]
              exact hb
            · intro hgm
              exact hc ((List.dropLast_sublist _).subset hgm)
        · have hnotin : nf ∉ st.page_table.allItems.map Prod.snd := by
            intro hx
            obtain ⟨q, hq, hq2⟩ := List.mem_map.mp hx
            exact (hinv.resident q hq).2.2 (by rw [hq2]; exact hnf_mem)
          exact ((hperm2.map Prod.snd).nodup_iff).mpr
            (by rw [List.map_cons]; exact List.nodup_cons.mpr ⟨hnotin, hinv.frames_nodup⟩)
        · intro q hq
          rcases (hmemP q).mp hq with rfl | hold
          · exact hleg
          · exact hinv.keys_range q hold
        · show ((st.replacer.SetEvictable nf false).RecordAccess nf).replacer_size = n
          rw [((st.replacer.SetEvictable nf false).RecordAccess_fields nf).2,
            (st.replacer.SetEvictable_false_fields nf).1]
          exact hinv.rsize
        · show
            ((st.replacer.SetEvictable nf false).RecordAccess nf).evictable_frames.Nodup
          rw [((st.replacer.SetEvictable nf false).RecordAccess_fields nf).1]
          exact (st.replacer.SetEvictable_false_fields nf).2.2 hinv.ev_nodup
        · intro g hg
          have hg2 : g ∈
              ((st.replacer.SetEvictable nf false).RecordAccess nf).evictable_frames := hg
          rw [((st.replacer.SetEvictable nf false).RecordAccess_fields nf).1] at hg2
          have hg3 := (st.replacer.SetEvictable_false_fields nf).2.1 g hg2
          obtain ⟨q, hq, hq2⟩ := hinv.ev_resident g hg3
          exact ⟨q, (hmemP q).mpr (Or.inr hq), hq2⟩
  · -- resident: pin it and record the access
    simp only [hf] at h
    have h2 := Option.some.inj h
    rw [Prod.mk.injEq, Prod.mk.injEq] at h2
    obtain ⟨hst2, _, _⟩ := h2
    subst hst2
    have hmem : (p, f) ∈ st.page_table.allItems :=
      (ExtendibleHashTable.Find_iff_mem stdHashInt st.page_table hinv.tinv p f).mp hf
    obtain ⟨hfn, hfid, hffree⟩ := hinv.resident (p, f) hmem
    have hflen : f < st.pages.length := by
      have := hinv.pages_len
      omega
    refine ⟨hinv.pool_eq, ?_, hinv.tinv, hinv.count, hinv.free_lt, hinv.free_nodup,
      ?_, ?_, hinv.frames_nodup, hinv.keys_range, hinv.next_nonneg, ?_, ?_, ?_⟩
    · simp only [List.length_set]
      exact hinv.pages_len
    · intro g hg
      have hgf : g ≠ f := fun he => hffree (by rw [← he]; exact hg)
      rw [pageAt_mk, getD_set_ne _ _ _ _ _ (fun he => hgf he.symm)]
      exact hinv.free_empty g hg
    · intro q hq
      obtain ⟨hq1, hq2, hq3⟩ := hinv.resident q hq
      refine ⟨hq1, ?_, hq3⟩
      rw [pageAt_mk]
      by_cases hqf : q.2 = f
      · have hqpf : q = (p, f) :=
          List.inj_on_of_nodup_map hinv.frames_nodup hq hmem hqf
        rw [hqf, getD_set_self _ _ _ _ hflen, hqpf]
        exact hfid
      · rw [getD_set_ne _ _ _ _ _ (fun he => hqf he.symm)]
        exact hq2
    · show ((st.replacer.SetEvictable f false).RecordAccess f).replacer_size = n
      rw [((st.replacer.SetEvictable f false).RecordAccess_fields f).2,
        (st.replacer.SetEvictable_false_fields f).1]
      exact hinv.rsize
    · show ((st.replacer.SetEvictable f false).RecordAccess f).evictable_frames.Nodup
      rw [((st.replacer.SetEvictable f false).RecordAccess_fields f).1]
      exact (st.replacer.SetEvictable_false_fields f).2.2 hinv.ev_nodup
    · intro g hg
      have hg2 : g ∈
          ((st.replacer.SetEvictable f false).RecordAccess f).evictable_frames := hg
      rw [((st.replacer.SetEvictable f false).RecordAccess_fields f).1] at hg2
      have hg3 := (st.replacer.SetEvictable_false_fields f).2.1 g hg2
      exact hinv.ev_resident g hg3

/-- One public operation preserves the pool invariant (a `FetchPage` must
ask for an already-allocated page id). -/
theorem stepOp_Inv (n : Nat) (disk : Int → Nat) (fuel : Nat)
    (st : BufferPoolManagerInstance) (hinv : BufferPoolManagerInstance.Inv n st)
    (o : Op) (hleg : opLegal st o = true)
    (st2 : BufferPoolManagerInstance) (out : List DiskOp)
    (h : stepOp disk fuel st o = some (st2, out)) :
    BufferPoolManagerInstance.Inv n st2 := by
  cases o with
  | newPage =>
    simp only [stepOp] at h
    rcases hn : st.NewPgImp fuel with _ | r
    · rw [hn] at h
      exact absurd h (by simp)
    · rw [hn] at h
      simp only [Option.map_some'] at h
      have h2 := Option.some.inj h
      rw [Prod.mk.injEq] at h2
      obtain ⟨h3, _⟩ := h2
      rw [← h3]
      exact BufferPoolManagerInstance.New_Inv n st hinv fuel r.1 r.2.1 r.2.2 hn
  | fetchPage q =>
    simp only [stepOp] at h
    rcases hn : st.FetchPgImp disk fuel q with _ | r
    · rw [hn] at h
      exact absurd h (by simp)
    · rw [hn] at h
      simp only [Option.map_some'] at h
      have h2 := Option.some.inj h
      rw [Prod.mk.injEq] at h2
      obtain ⟨h3, _⟩ := h2
      rw [← h3]
      exact BufferPoolManagerInstance.Fetch_Inv n st hinv disk fuel q
        (of_decide_eq_true hleg) r.1 r.2.1 r.2.2 hn
  | unpinPage q d =>
    simp only [stepOp] at h
    have h2 := Option.some.inj h
    rw [Prod.mk.injEq] at h2
    obtain ⟨h3, _⟩ := h2
    rw [← h3]
    exact BufferPoolManagerInstance.Unpin_Inv n st hinv q d
  | flushPage q =>
    simp only [stepOp] at h
    have h2 := Option.some.inj h
    rw [Prod.mk.injEq] at h2
    obtain ⟨h3, _⟩ := h2
    rw [← h3]
    exact BufferPoolManagerInstance.Flush_Inv n st hinv q
  | deletePage q =>
    simp only [stepOp] at h
    have h2 := Option.some.inj h
    rw [Prod.mk.injEq] at h2
    obtain ⟨h3, _⟩ := h2
    rw [← h3]
    exact BufferPoolManagerInstance.Delete_Inv n st hinv q

/-- A successful legal run preserves the pool invariant. -/
theorem runOps_Inv (n : Nat) (disk : Int → Nat) (fuel : Nat) :
    ∀ (ops : List Op) (st : BufferPoolManagerInstance),
    BufferPoolManagerInstance.Inv n st →
    legalRun disk fuel st ops = true →
    ∀ (st2 : BufferPoolManagerInstance) (tr : List DiskOp),
    runOps disk fuel st ops = some (st2, tr) →
    BufferPoolManagerInstance.Inv n st2 := by
  intro ops
  induction ops with
  | nil =>
    intro st hinv _ st2 tr h
    simp only [runOps] at h
    have h2 := Option.some.inj h
    rw [Prod.mk.injEq] at h2
    obtain ⟨h3, _⟩ := h2
    rw [← h3]
    exact hinv
  | cons o rest ih =>
    intro st hinv hleg st2 tr h
    rw [runOps] at h
    rw [legalRun] at hleg
    rcases hs : stepOp disk fuel st o with _ | r
    · rw [hs] at h
      exact absurd h (by simp)
    · simp only [hs] at h hleg
      rw [Bool.and_eq_true] at hleg
      obtain ⟨hlegO, hlegRest⟩ := hleg
      have hinv1 := stepOp_Inv n disk fuel st hinv o hlegO r.1 r.2
        (by rw [hs])
      rcases hr : runOps disk fuel r.1 rest with _ | r2
      · rw [hr] at h
        exact absurd h (by simp)
      · simp only [hr] at h
        have h2 := Option.some.inj h
        rw [Prod.mk.injEq] at h2
        obtain ⟨h3, _⟩ := h2
        rw [← h3]
        exact ih r.1 hinv1 hlegRest r2.1 r2.2 (by rw [hr])

/-- C8 (amended): starting from a fresh pool of `n` slots, along every
successful operation sequence in which each `FetchPage` asks for a page id
the allocator has already handed out, the free-list size plus the number of
page-table entries equals `n` after every run.  (Without the fetch
restriction the balance breaks, see the counterexample: fetching a
never-allocated id consumes a slot, and the next `NewPage` re-uses its page
id, overwriting the table entry instead of adding one.) -/
theorem c8_free_plus_directory_eq_pool_size (n k b fuel : Nat) (disk : Int → Nat)
    (ops : List Op) (st : BufferPoolManagerInstance) (tr : List DiskOp)
    (hleg : legalRun disk fuel (BufferPoolManagerInstance.new n k b) ops = true)
    (hrun : runOps disk fuel (BufferPoolManagerInstance.new n k b) ops = some (st, tr)) :
    st.free_list.length + st.page_table.allItems.length = n :=
  (runOps_Inv n disk fuel ops (BufferPoolManagerInstance.new n k b)
    (BufferPoolManagerInstance.Inv_new n k b) hleg st tr hrun).count

/-- C8 (counterexample): on a fresh pool of two slots, `FetchPage 0` (an id
never returned by `NewPage`) followed by `NewPage` leaves the free list
empty and the page table with a single entry: 0 + 1 ≠ 2. -/
theorem c8_counterexample :
    (runOps (fun _ => 0) 3 (BufferPoolManagerInstance.new 2 2 4) c8BadOps).isSome = true ∧
    ((runOps (fun _ => 0) 3 (BufferPoolManagerInstance.new 2 2 4) c8BadOps).getD
        (BufferPoolManagerInstance.new 2 2 4, [])).1.free_list.length +
      ((runOps (fun _ => 0) 3 (BufferPoolManagerInstance.new 2 2 4) c8BadOps).getD
        (BufferPoolManagerInstance.new 2 2 4, [])).1.page_table.allItems.length = 1 := by
  constructor
  · decide
  · decide

/-- Witness for C8 on a concrete legal three-operation run on a one-slot
pool that exercises allocation, unpinning and an eviction. -/
theorem c8_witness :
    legalRun (fun _ => 7) 3 (BufferPoolManagerInstance.new 1 2 4) c8Ops = true ∧
    runOps (fun _ => 7) 3 (BufferPoolManagerInstance.new 1 2 4) c8Ops = some c8Pair ∧
    c8Pair.1.free_list.length + c8Pair.1.page_table.allItems.length = 1 :=
  ⟨by decide, by decide,
   c8_free_plus_directory_eq_pool_size 1 2 4 3 (fun _ => 7) c8Ops c8Pair.1 c8Pair.2
     (by decide) (by decide)⟩

/-- C5 (amended): on any state whose page table does not map the sentinel
(true of every state not polluted by a `FetchPage(INVALID)`), `UnpinPage`
and `FlushPage` called with `INVALID_PAGE_ID` return false, but
`DeletePgImp` returns **true**: its miss branch is `return true`, so the
claim's "returns false" fails for `DeletePage` (see the counterexample). -/
theorem c5_invalid_page_id_results (st : BufferPoolManagerInstance) (d : Bool)
    (hfind : ExtendibleHashTable.Find stdHashInt st.page_table INVALID_PAGE_ID = none) :
    (st.UnpinPgImp INVALID_PAGE_ID d).2 = false ∧
    (st.FlushPgImp INVALID_PAGE_ID).2.1 = false ∧
    (st.DeletePgImp INVALID_PAGE_ID).2.1 = true := by
  refine ⟨?_, ?_, ?_⟩
  · unfold BufferPoolManagerInstance.UnpinPgImp
    rw [hfind]
  · unfold BufferPoolManagerInstance.FlushPgImp
    rw [if_pos rfl]
  · unfold BufferPoolManagerInstance.DeletePgImp
    rw [hfind]

/-- C5 (counterexample): on a freshly constructed pool,
`DeletePage(INVALID_PAGE_ID)` returns true, not false. -/
theorem c5_counterexample :
    ((BufferPoolManagerInstance.new 1 2 4).DeletePgImp INVALID_PAGE_ID).2.1 = true := by
  decide

/-- Witness for C5 at a freshly constructed pool. -/
theorem c5_witness :
    ExtendibleHashTable.Find stdHashInt (BufferPoolManagerInstance.new 1 2 4).page_table
      INVALID_PAGE_ID = none ∧
    (((BufferPoolManagerInstance.new 1 2 4).UnpinPgImp INVALID_PAGE_ID true).2 = false ∧
     ((BufferPoolManagerInstance.new 1 2 4).FlushPgImp INVALID_PAGE_ID).2.1 = false ∧
     ((BufferPoolManagerInstance.new 1 2 4).DeletePgImp INVALID_PAGE_ID).2.1 = true) :=
  ⟨by decide,
   c5_invalid_page_id_results (BufferPoolManagerInstance.new 1 2 4) true (by decide)⟩

/-- C2 (amended): if page `p` is resident in slot `f` with its dirty flag
still set, then every `NewPage` or `FetchPage` step after which `p` is no
longer in the page table (an eviction of `p`'s slot) emits
`WritePage(p, payload)` among its disk calls.  The original hedge — "the
flag has not since been cleared by an explicit FlushPage" — is not enough:
`DeletePage(p)` followed by re-fetching `p` also clears the flag without
any `FlushPage`, after which the eviction writes nothing (see the
counterexample). -/
theorem c2_dirty_eviction_writes_page (n fuel : Nat) (disk : Int → Nat)
    (st st2 : BufferPoolManagerInstance) (out : List DiskOp) (p : Int) (f : Nat)
    (hinv : BufferPoolManagerInstance.Inv n st)
    (hres : ExtendibleHashTable.Find stdHashInt st.page_table p = some f)
    (hdirty : (st.pageAt f).is_dirty = true)
    (o : Op) (ho : o = Op.newPage ∨ ∃ q, o = Op.fetchPage q)
    (hstep : stepOp disk fuel st o = some (st2, out))
    (hgone : ExtendibleHashTable.Find stdHashInt st2.page_table p = none) :
    DiskOp.writePage p ((st.pageAt f).data) ∈ out := by
  have hmem : (p, f) ∈ st.page_table.allItems :=
    (ExtendibleHashTable.Find_iff_mem stdHashInt st.page_table hinv.tinv p f).mp hres
  have hp0 : 0 ≤ p := (hinv.keys_range (p, f) hmem).1
  have hpn : p < st.next_page_id := (hinv.keys_range (p, f) hmem).2
  have hfresh : ∀ w, (st.next_page_id, w) ∉ st.page_table.allItems := by
    intro w hw
    have h1 : st.next_page_id < st.next_page_id := (hinv.keys_range _ hw).2
    omega
  have hfilter_id : st.page_table.allItems.filter
      (fun q => decide (¬ q.1 = emptyPage.page_id)) = st.page_table.allItems := by
    refine List.filter_eq_self.mpr (fun q hq => ?_)
    simp only [decide_eq_true_eq]
    intro h1
    have h2 := (hinv.keys_range q hq).1
    rw [h1] at h2
    simp [emptyPage, INVALID_PAGE_ID] at h2
  rcases ho with rfl | ⟨q, rfl⟩
  · -- NewPage
    simp only [stepOp] at hstep
    rcases hn : st.NewPgImp fuel with _ | r
    · rw [hn] at hstep
      exact absurd hstep (by simp)
    · rw [hn] at hstep
      simp only [Option.map_some'] at hstep
      have h2 := Option.some.inj hstep
      rw [Prod.mk.injEq] at h2
      obtain ⟨hst2eq, houteq⟩ := h2
      unfold BufferPoolManagerInstance.NewPgImp at hn
      rcases hfl : st.free_list.getLast? with _ | nf
      · -- free list empty: eviction path
        simp only [hfl] at hn
        rcases hev : st.replacer.Evict with _ | ⟨ov, rep⟩
        · rw [hev] at hn
          exact absurd hn (by simp)
        · rcases ov with _ | v
          · -- no victim: the table is unchanged, contradicting the disappearance
            simp only [hev] at hn
            exfalso
            have hr := (Option.some.inj hn).symm
            subst hr
            have hgone2 : ExtendibleHashTable.Find stdHashInt st.page_table p = none := by
              rw [← hst2eq] at hgone
              exact hgone
            rw [hres] at hgone2
            exact absurd hgone2 (by simp)
          · simp only [hev] at hn
            obtain ⟨hv_mem, hrep_ev, hrep_rs⟩ :=
              LRUKReplacer.Evict_some_spec st.replacer v rep hev
            obtain ⟨qv, hqv, hqv2⟩ := hinv.ev_resident v hv_mem
            obtain ⟨hvn', hvid', hvfree'⟩ := hinv.resident qv hqv
            rw [hqv2] at hvn' hvid'
            rw [hvid'] at hn
            rcases hins : ExtendibleHashTable.InsertFuel stdHashInt fuel
                (ExtendibleHashTable.Remove stdHashInt st.page_table qv.1).1
                st.next_page_id v with _ | pt2
            · rw [hins] at hn
              exact absurd hn (by simp)
            · simp only [hins] at hn
              have hr := (Option.some.inj hn).symm
              subst hr
              obtain ⟨htinv2, hperm2⟩ := table_replace_spec st.page_table pt2 fuel
                qv.1 st.next_page_id v hinv.tinv hfresh hins
              by_cases hpq : p = qv.1
              · -- it is `p`'s slot that was evicted
                have hpfqv : (p, f) = qv :=
                  List.inj_on_of_nodup_map hinv.tinv.keys_nodup hmem hqv hpq
                have hfv : f = v := by
                  have h3 := congrArg Prod.snd hpfqv
                  rw [hqv2] at h3
                  exact h3
                have hdv : (st.pageAt v).is_dirty = true := by
                  rw [← hfv]
                  exact hdirty
                rw [← houteq]
                show DiskOp.writePage p ((st.pageAt f).data) ∈
                  (if (st.pageAt v).is_dirty = true
                   then [DiskOp.writePage qv.1 ((st.pageAt v).data)] else [])
                rw [if_pos hdv, hpq, hfv]
                exact List.mem_singleton.mpr rfl
              · -- another slot was evicted: `p` survives, contradiction
                exfalso
                have hmemF : (p, f) ∈ st.page_table.allItems.filter
                    (fun q => decide (¬ q.1 = qv.1)) := by
                  rw [List.mem_filter]
                  refine ⟨hmem, ?_⟩
                  simp only [decide_eq_true_eq]
                  exact hpq
                have hmem2 : (p, f) ∈ pt2.allItems :=
                  hperm2.mem_iff.mpr (List.mem_cons_of_mem _ hmemF)
                have hfind2 : ExtendibleHashTable.Find stdHashInt pt2 p = some f :=
                  (ExtendibleHashTable.Find_iff_mem stdHashInt pt2 htinv2 p f).mpr hmem2
                have hgone2 : ExtendibleHashTable.Find stdHashInt pt2 p = none := by
                  rw [← hst2eq] at hgone
                  exact hgone
                rw [hfind2] at hgone2
                exact absurd hgone2 (by simp)
      · -- a free frame is available: the table only grows, contradiction
        simp only [hfl, pageAt_mk] at hn
        have hnf_mem : nf ∈ st.free_list := getLast?_mem _ _ hfl
        have hempty2 : st.pages.getD nf emptyPage = emptyPage := hinv.free_empty nf hnf_mem
        rw [hempty2] at hn
        rcases hins : ExtendibleHashTable.InsertFuel stdHashInt fuel
            (ExtendibleHashTable.Remove stdHashInt st.page_table emptyPage.page_id).1
            st.next_page_id nf with _ | pt2
        · rw [hins] at hn
          exact absurd hn (by simp)
        · simp only [hins] at hn
          have hr := (Option.some.inj hn).symm
          subst hr
          exfalso
          obtain ⟨htinv2, hperm2⟩ := table_replace_spec st.page_table pt2 fuel
            emptyPage.page_id st.next_page_id nf hinv.tinv hfresh hins
          rw [hfilter_id] at hperm2
          have hmem2 : (p, f) ∈ pt2.allItems :=
            hperm2.mem_iff.mpr (List.mem_cons_of_mem _ hmem)
          have hfind2 : ExtendibleHashTable.Find stdHashInt pt2 p = some f :=
            (ExtendibleHashTable.Find_iff_mem stdHashInt pt2 htinv2 p f).mpr hmem2
          have hgone2 : ExtendibleHashTable.Find stdHashInt pt2 p = none := by
            rw [← hst2eq] at hgone
            exact hgone
          rw [hfind2] at hgone2
          exact absurd hgone2 (by simp)
  · -- FetchPage q
    simp only [stepOp] at hstep
    rcases hn : st.FetchPgImp disk fuel q with _ | r
    · rw [hn] at hstep
      exact absurd hstep (by simp)
    · rw [hn] at hstep
      simp only [Option.map_some'] at hstep
      have h2 := Option.some.inj hstep
      rw [Prod.mk.injEq] at h2
      obtain ⟨hst2eq, houteq⟩ := h2
      unfold BufferPoolManagerInstance.FetchPgImp at hn
      rcases hfq : ExtendibleHashTable.Find stdHashInt st.page_table q with _ | fq
      · -- q not resident
        simp only [hfq] at hn
        have hfreshQ : ∀ w, (q, w) ∉ st.page_table.allItems :=
          (ExtendibleHashTable.Find_none_iff stdHashInt st.page_table hinv.tinv q).mp hfq
        rcases hfl : st.free_list.getLast? with _ | nf
        · -- eviction path
          simp only [hfl] at hn
          rcases hev : st.replacer.Evict with _ | ⟨ov, rep⟩
          · rw [hev] at hn
            exact absurd hn (by simp)
          · rcases ov with _ | v
            · simp only [hev] at hn
              exfalso
              have hr := (Option.some.inj hn).symm
              subst hr
              have hgone2 : ExtendibleHashTable.Find stdHashInt st.page_table p = none := by
                rw [← hst2eq] at hgone
                exact hgone
              rw [hres] at hgone2
              exact absurd hgone2 (by simp)
            · simp only [hev] at hn
              obtain ⟨hv_mem, hrep_ev, hrep_rs⟩ :=
                LRUKReplacer.Evict_some_spec st.replacer v rep hev
              obtain ⟨qv, hqv, hqv2⟩ := hinv.ev_resident v hv_mem
              obtain ⟨hvn', hvid', hvfree'⟩ := hinv.resident qv hqv
              rw [hqv2] at hvn' hvid'
              rw [hvid'] at hn
              rcases hins : ExtendibleHashTable.InsertFuel stdHashInt fuel
                  (ExtendibleHashTable.Remove stdHashInt st.page_table qv.1).1
                  q v with _ | pt2
              · rw [hins] at hn
                exact absurd hn (by simp)
              · simp only [hins] at hn
                have hr := (Option.some.inj hn).symm
                subst hr
                obtain ⟨htinv2, hperm2⟩ := table_replace_spec st.page_table pt2 fuel
                  qv.1 q v hinv.tinv hfreshQ hins
                by_cases hpq : p = qv.1
                · have hpfqv : (p, f) = qv :=
                    List.inj_on_of_nodup_map hinv.tinv.keys_nodup hmem hqv hpq
                  have hfv : f = v := by
                    have h3 := congrArg Prod.snd hpfqv
                    rw [hqv2] at h3
                    exact h3
                  have hdv : (st.pageAt v).is_dirty = true := by
                    rw [← hfv]
                    exact hdirty
                  rw [← houteq]
                  show DiskOp.writePage p ((st.pageAt f).data) ∈
                    (if (st.pageAt v).is_dirty = true
                     then [DiskOp.writePage qv.1 ((st.pageAt v).data)] else []) ++
                    [DiskOp.readPage q]
                  rw [if_pos hdv, hpq, hfv]
                  exact List.mem_append_left _ (List.mem_singleton.mpr rfl)
                · exfalso
                  have hmemF : (p, f) ∈ st.page_table.allItems.filter
                      (fun q2 => decide (¬ q2.1 = qv.1)) := by
                    rw [List.mem_filter]
                    refine ⟨hmem, ?_⟩
                    simp only [decide_eq_true_eq]
                    exact hpq
                  have hmem2 : (p, f) ∈ pt2.allItems :=
                    hperm2.mem_iff.mpr (List.mem_cons_of_mem _ hmemF)
                  have hfind2 : ExtendibleHashTable.Find stdHashInt pt2 p = some f :=
                    (ExtendibleHashTable.Find_iff_mem stdHashInt pt2 htinv2 p f).mpr hmem2
                  have hgone2 : ExtendibleHashTable.Find stdHashInt pt2 p = none := by
                    rw [← hst2eq] at hgone
                    exact hgone
                  rw [hfind2] at hgone2
                  exact absurd hgone2 (by simp)
        · -- free path: the table only grows, contradiction
          simp only [hfl, pageAt_mk] at hn
          have hnf_mem : nf ∈ st.free_list := getLast?_mem _ _ hfl
          have hempty2 : st.pages.getD nf emptyPage = emptyPage :=
            hinv.free_empty nf hnf_mem
          rw [hempty2] at hn
          rcases hins : ExtendibleHashTable.InsertFuel stdHashInt fuel
              (ExtendibleHashTable.Remove stdHashInt st.page_table emptyPage.page_id).1
              q nf with _ | pt2
          · rw [hins] at hn
            exact absurd hn (by simp)
          · simp only [hins] at hn
            have hr := (Option.some.inj hn).symm
            subst hr
            exfalso
            obtain ⟨htinv2, hperm2⟩ := table_replace_spec st.page_table pt2 fuel
              emptyPage.page_id q nf hinv.tinv hfreshQ hins
            rw [hfilter_id] at hperm2
            have hmem2 : (p, f) ∈ pt2.allItems :=
              hperm2.mem_iff.mpr (List.mem_cons_of_mem _ hmem)
            have hfind2 : ExtendibleHashTable.Find stdHashInt pt2 p = some f :=
              (ExtendibleHashTable.Find_iff_mem stdHashInt pt2 htinv2 p f).mpr hmem2
            have hgone2 : ExtendibleHashTable.Find stdHashInt pt2 p = none := by
              rw [← hst2eq] at hgone
              exact hgone
            rw [hfind2] at hgone2
            exact absurd hgone2 (by simp)
      · -- q resident: the table is unchanged, contradiction
        simp only [hfq] at hn
        exfalso
        have hr := (Option.some.inj hn).symm
        subst hr
        have hgone2 : ExtendibleHashTable.Find stdHashInt st.page_table p = none := by
          rw [← hst2eq] at hgone
          exact hgone
        rw [hres] at hgone2
        exact absurd hgone2 (by simp)

/-- C2 (counterexample): on a one-slot pool run `c2Ops`:
`Unpin(0, true)` is called (and after the two-operation prefix page 0 is
resident and dirty), no `FlushPage` occurs anywhere in the sequence, and
the final `NewPage` evicts page 0's slot (afterwards page 0 is no longer
in the table and the slot holds page 1) — yet the whole disk trace contains
no `WritePage` call at all: `DeletePage` plus the re-fetch cleared the
dirty flag without any `FlushPage`. -/
theorem c2_counterexample :
    ((runOps (fun _ => 0) 3 (BufferPoolManagerInstance.new 1 2 4) c2PrefixOps).map
      (fun r => ((r.1.pageAt 0).page_id, (r.1.pageAt 0).is_dirty)) = some (0, true)) ∧
    (Op.unpinPage 0 true ∈ c2Ops) ∧
    (c2Ops.all (fun o => match o with | Op.flushPage _ => false | _ => true) = true) ∧
    ((runOps (fun _ => 0) 3 (BufferPoolManagerInstance.new 1 2 4) c2Ops).map
      (fun r => r.2) = some [DiskOp.deallocatePage 0, DiskOp.readPage 0]) ∧
    ((runOps (fun _ => 0) 3 (BufferPoolManagerInstance.new 1 2 4) c2Ops).map
      (fun r => (ExtendibleHashTable.Find stdHashInt r.1.page_table 0,
        (r.1.pageAt 0).page_id)) = some (none, 1)) := by
  refine ⟨?_, ?_, ?_, ?_, ?_⟩
  · decide
  · decide
  · decide
  · decide
  · decide

/-- Witness for C2 at the concrete dirty one-slot pool reached by
`c2PrefixOps`: the next `NewPage` evicts slot 0 and emits the write-back of
page 0. -/
theorem c2_witness :
    DiskOp.writePage 0 ((c2WitPair.1.pageAt 0).data) ∈ c2WitStep.2 :=
  c2_dirty_eviction_writes_page 1 3 (fun _ => 0) c2WitPair.1 c2WitStep.1 c2WitStep.2 0 0
    (runOps_Inv 1 (fun _ => 0) 3 c2PrefixOps (BufferPoolManagerInstance.new 1 2 4)
      (BufferPoolManagerInstance.Inv_new 1 2 4) (by decide) c2WitPair.1 c2WitPair.2
      (by decide))
    (by decide) (by decide) Op.newPage (Or.inl rfl) (by decide) (by decide)

end BusTub
